import Mathlib

/-!
Verification of the kelindar/intmap hash table (map.go, Robin Hood variant,
plus the Sync wrapper's LoadOrStore).

Modelling conventions of the shallow embedding:
* Go slices of uint32 are lists of naturals; every stored word is kept
  below 2^32, and uint32 wraparound is written explicitly as `% 2^32`.
* Go float64/float32 values (fill factors) are modelled as exact rationals;
  `math.Floor`/`math.Ceil` become rational floor and ceiling.  For the fill
  factors the spec discusses the float results agree with the exact ones.
* int32 fields (count, threshold) are integers.
* Unbounded Go `for` loops are modelled with fuel; fuel exhaustion yields
  `none`.  Go panics (invalid construction arguments, the resize overflow
  guard) also yield `none`.
* The `Sync` wrapper is modelled sequentially: lock operations are no-ops
  for a single caller, which is the setting of the sequential claims.
-/

set_option maxHeartbeats 1000000

namespace Intmap

/-- Modulus of 32-bit unsigned arithmetic. -/
def U32 : ℕ := 2 ^ 32

/-- Wrapping uint32 subtraction, for arguments below 2^32. -/
def u32sub (a b : ℕ) : ℕ := (a + U32 - b) % U32

/-- The sentinel key marking an empty slot (const isFree in map.go). -/
def isFreeKey : ℕ := 0

/-- The default fill factor 0.80 as an exact rational. -/
def defaultFillFactor : ℚ := 4 / 5

/-- The hash table state, mirroring struct Map in map.go field by field
(mask[0], mask[1] are split into two fields). -/
structure Map where
  data : List ℕ
  fillFactor : ℚ
  threshold : ℤ
  count : ℤ
  mask0 : ℕ
  mask1 : ℕ
  freeVal : ℕ
  hasFreeKey : Bool
  deriving DecidableEq

/-- bucketOf from map.go: ((key * phi32) & mask) << 1 in uint32 arithmetic
(phi32 = 0x9E3779B9). -/
def bucketOf (key mask : ℕ) : ℕ :=
  ((((key * 0x9E3779B9) % U32) &&& mask) <<< 1) % U32

/-- Capacity returns the maximum number of entries before resize
(len(m.data)/2). -/
def Map.Capacity (m : Map) : ℕ := m.data.length / 2

/-- Count returns the number of key/value pairs in the map. -/
def Map.Count (m : Map) : ℤ := m.count

/-- The probe loop of Load, with explicit fuel.  Each iteration reads the
key at ptr, compares with the searched key, stops at a gap, and applies the
Robin Hood early exit comparing the occupant's displacement with the probe
distance travelled so far. -/
def loadLoop (data : List ℕ) (key mask mask1 : ℕ) :
    (fuel ptr dist : ℕ) → Option (ℕ × Bool)
  | 0, _, _ => none
  | fuel + 1, ptr, dist =>
    let k := data.getD ptr 0
    if k = key then some (data.getD (ptr + 1) 0, true)
    else if k = isFreeKey then some (0, false)
    else
      let occDist := (u32sub ptr (bucketOf k mask) &&& mask1) >>> 1
      if occDist < dist then some (0, false)
      else loadLoop data key mask mask1 fuel ((ptr + 2) &&& mask1) (dist + 1)

/-- Load returns the value stored for a key together with a presence flag. -/
def Map.Load (m : Map) (key : ℕ) : Option (ℕ × Bool) :=
  if key = isFreeKey then
    some (if m.hasFreeKey then (m.freeVal, true) else (0, false))
  else
    loadLoop m.data key m.mask0 m.mask1 (m.data.length + 1)
      (bucketOf key m.mask0) 0

/-- Result of the Store probe loop: either the key was placed into a free
slot (count must be incremented and the threshold checked) or an existing
entry was overwritten. -/
inductive StoreRes where
  | placed (data : List ℕ)
  | updated (data : List ℕ)
  deriving DecidableEq

/-- The Robin Hood insertion loop of Store, with explicit fuel.  A free slot
receives the carried pair; a matching key is overwritten; otherwise, when the
occupant's displacement is smaller than the carried distance, the carried
pair steals the slot and the loop continues with the displaced occupant. -/
def storeLoop (mask mask1 : ℕ) :
    (fuel : ℕ) → (data : List ℕ) → (key val ptr dist : ℕ) → Option StoreRes
  | 0, _, _, _, _, _ => none
  | fuel + 1, data, key, val, ptr, dist =>
    let k := data.getD ptr 0
    if k = isFreeKey then
      some (.placed ((data.set ptr key).set (ptr + 1) val))
    else if k = key then
      some (.updated (data.set (ptr + 1) val))
    else
      let occDist := (u32sub ptr (bucketOf k mask) &&& mask1) >>> 1
      if occDist < dist then
        storeLoop mask mask1 fuel ((data.set ptr key).set (ptr + 1) val)
          k (data.getD (ptr + 1) 0) ((ptr + 2) &&& mask1) (occDist + 1)
      else
        storeLoop mask mask1 fuel data key val ((ptr + 2) &&& mask1) (dist + 1)

/-- The reinsertion loop of rehash: walks the even indices of the old array
and stores every live entry through the given store function. -/
def reinsertList (storeFn : Map → ℕ → ℕ → Option Map) (old : List ℕ) :
    List ℕ → Map → Option Map
  | [], m => some m
  | i :: rest, m =>
    if old.getD i 0 ≠ isFreeKey then
      match storeFn m (old.getD i 0) (old.getD (i + 1) 0) with
      | none => none
      | some m' => reinsertList storeFn old rest m'
    else reinsertList storeFn old rest m

/-- rehash from map.go: doubles the array (panicking, i.e. none, when the
doubled length would overflow int32), recomputes masks and threshold, resets
count to the free-key bit and reinserts every live entry of the old array
through the ordinary store path. -/
def rehashStep (storeFn : Map → ℕ → ℕ → Option Map) (m : Map) : Option Map :=
  if m.data.length ≥ (2 ^ 31 - 1) / 2 then none
  else
    reinsertList storeFn m.data ((List.range (m.data.length / 2)).map (2 * ·))
      { m with
        data := List.replicate (m.data.length * 2) 0
        mask0 := m.data.length * 2 / 2 - 1
        mask1 := m.data.length * 2 - 1
        threshold := ⌊((m.data.length * 2 / 2 : ℕ) : ℚ) * m.fillFactor⌋
        count := if m.hasFreeKey then 1 else 0 }

/-- Store with an explicit bound on the depth of nested rehash calls.  The
free key is stored out of band (never triggering a resize); otherwise the
insertion loop runs and, when a new slot was consumed, count is incremented
and a rehash is triggered once count reaches the threshold. -/
def storeFuel : (fuel : ℕ) → Map → ℕ → ℕ → Option Map
  | 0, _, _, _ => none
  | fuel + 1, m, key, val =>
    if key = isFreeKey then
      some { m with
        count := if m.hasFreeKey then m.count else m.count + 1
        hasFreeKey := true
        freeVal := val }
    else
      match storeLoop m.mask0 m.mask1 (m.data.length + 1) m.data key val
          (bucketOf key m.mask0) 0 with
      | none => none
      | some (.updated A) => some { m with data := A }
      | some (.placed A) =>
        let m' : Map := { m with data := A, count := m.count + 1 }
        if m'.threshold ≤ m'.count then rehashStep (storeFuel fuel) m'
        else some m'

/-- Store sets the value for a key.  The fuel 34 dominates every possible
chain of nested rehashes (each doubling at least one array whose length the
overflow guard keeps below 2^30). -/
def Map.Store (m : Map) (key val : ℕ) : Option Map := storeFuel 34 m key val

/-- The search loop of Delete: probes until the key or a gap is found. -/
def deleteFind (data : List ℕ) (key mask1 : ℕ) :
    (fuel ptr : ℕ) → Option (Option ℕ)
  | 0, _ => none
  | fuel + 1, ptr =>
    let k := data.getD ptr 0
    if k = key then some (some ptr)
    else if k = isFreeKey then some none
    else deleteFind data key mask1 fuel ((ptr + 2) &&& mask1)

/-- The backward-shift loop of Delete: entries after the freed slot are
shifted back one slot until a gap or an entry sitting in its home bucket is
reached, at which point the current slot's key is cleared. -/
def shiftLoop (mask mask1 : ℕ) :
    (fuel : ℕ) → (data : List ℕ) → (ptr : ℕ) → Option (List ℕ)
  | 0, _, _ => none
  | fuel + 1, data, ptr =>
    let next := (ptr + 2) &&& mask1
    let k := data.getD next 0
    if k = isFreeKey then some (data.set ptr 0)
    else if (u32sub next (bucketOf k mask)) &&& mask1 = 0 then
      some (data.set ptr 0)
    else
      shiftLoop mask mask1 fuel
        ((data.set ptr k).set (ptr + 1) (data.getD (next + 1) 0)) next

/-- Delete removes the value for a key: the free key is cleared out of band;
otherwise the key is searched (an absent key is a no-op) and removed by
backward-shift deletion, decrementing count. -/
def Map.Delete (m : Map) (key : ℕ) : Option Map :=
  if key = isFreeKey then
    some (if m.hasFreeKey then
      { m with hasFreeKey := false, count := m.count - 1 }
    else m)
  else
    match deleteFind m.data key m.mask1 (m.data.length + 1)
        (bucketOf key m.mask0) with
    | none => none
    | some none => some m
    | some (some ptr) =>
      match shiftLoop m.mask0 m.mask1 (m.data.length + 1) m.data ptr with
      | none => none
      | some A => some { m with data := A, count := m.count - 1 }

/-- Clear removes all key/value pairs: the array is zeroed in place and the
scalar state reset, capacity unchanged. -/
def Map.Clear (m : Map) : Map :=
  { m with
    data := List.replicate m.data.length 0
    count := 0
    hasFreeKey := false
    freeVal := 0 }

/-- One step x |= x >> b of the bit smear in arraySize. -/
def orShift (b z : ℕ) : ℕ := z ||| (z >>> b)

/-- arraySize from map.go: the bit-smearing next-power-of-two computation
applied to ceil(size / fill), floored at 8, in uint32 arithmetic (each
orShift is one of the five x |= x >> k statements). -/
def arraySize (size : ℕ) (fill : ℚ) : ℕ :=
  let x : ℕ := (Nat.ceil ((size : ℚ) / fill)) % U32
  if x < 8 then 8
  else (orShift 16 (orShift 8 (orShift 4 (orShift 2 (orShift 1 (x - 1))))) + 1)
    % U32

/-- newMap from map.go: panics (none) on a fill factor outside (0,1) or a
non-positive size, otherwise allocates the zeroed array and derives
threshold and masks from the computed capacity. -/
def newMap (size : ℕ) (fillFactor : ℚ) : Option Map :=
  if fillFactor ≤ 0 ∨ 1 ≤ fillFactor then none
  else if size = 0 then none
  else
    let capSlots := arraySize size fillFactor
    some
      { data := List.replicate (capSlots * 2) 0
        fillFactor := fillFactor
        threshold := ⌊(capSlots : ℚ) * fillFactor⌋
        count := 0
        mask0 := capSlots - 1
        mask1 := capSlots * 2 - 1
        freeVal := 0
        hasFreeKey := false }

/-- New allocates a map sized for at least size entries, at the default
fill factor. -/
def New (size : ℕ) : Option Map := newMap size defaultFillFactor

/-- NewWithFill allocates a map sized for at least size entries at the given
fill factor. -/
def NewWithFill (size : ℕ) (fillFactor : ℚ) : Option Map :=
  newMap size fillFactor

/-- Go's builtin copy(dst, src): the first min(len dst, len src) elements of
src replace the corresponding prefix of dst. -/
def goCopy (dst src : List ℕ) : List ℕ :=
  src.take (min dst.length src.length) ++ dst.drop (min dst.length src.length)

/-- Clone from map.go: allocates via New(len(m.data)/2) at the default fill
factor, then copies fill factor, count, masks, free-key record and the array
contents (but not the threshold, which keeps the value New computed). -/
def Map.Clone (m : Map) : Option Map :=
  match New (m.data.length / 2) with
  | none => none
  | some c =>
    some { c with
      fillFactor := m.fillFactor
      count := m.count
      mask0 := m.mask0
      mask1 := m.mask1
      hasFreeKey := m.hasFreeKey
      freeVal := m.freeVal
      data := goCopy c.data m.data }

/-- The even indices 0, 2, …, len-2 visited by the iteration loops. -/
def evenIdx (len : ℕ) : List ℕ := (List.range (len / 2)).map (2 * ·)

/-- The array part of Range, instrumented to return the list of pairs passed
to the callback, in visit order; a false callback result stops the loop. -/
def rangeGo (data : List ℕ) (fn : ℕ → ℕ → Bool) : List ℕ → List (ℕ × ℕ)
  | [] => []
  | i :: rest =>
    let k := data.getD i 0
    if k ≠ isFreeKey then
      if fn k (data.getD (i + 1) 0) then
        (k, data.getD (i + 1) 0) :: rangeGo data fn rest
      else [(k, data.getD (i + 1) 0)]
    else rangeGo data fn rest

/-- Range visits the free-key record first when present, then the array
slots in storage order; the callback may stop the iteration.  The result is
the instrumented list of visited pairs. -/
def Map.Range (m : Map) (fn : ℕ → ℕ → Bool) : List (ℕ × ℕ) :=
  if m.hasFreeKey then
    if fn 0 m.freeVal then (0, m.freeVal) :: rangeGo m.data fn (evenIdx m.data.length)
    else [(0, m.freeVal)]
  else rangeGo m.data fn (evenIdx m.data.length)

/-- The array part of RangeEach, instrumented with the visited pairs. -/
def rangeEachGo (data : List ℕ) : List ℕ → List (ℕ × ℕ)
  | [] => []
  | i :: rest =>
    let k := data.getD i 0
    if k ≠ isFreeKey then (k, data.getD (i + 1) 0) :: rangeEachGo data rest
    else rangeEachGo data rest

/-- RangeEach visits every pair without early exit; instrumented result. -/
def Map.RangeEach (m : Map) : List (ℕ × ℕ) :=
  if m.hasFreeKey then (0, m.freeVal) :: rangeEachGo m.data (evenIdx m.data.length)
  else rangeEachGo m.data (evenIdx m.data.length)

/-- The array part of RangeErr: visits pairs until the callback reports an
error (some e), returning the visited pairs and the propagated error. -/
def rangeErrGo {ε : Type} (data : List ℕ) (fn : ℕ → ℕ → Option ε) :
    List ℕ → List (ℕ × ℕ) × Option ε
  | [] => ([], none)
  | i :: rest =>
    let k := data.getD i 0
    if k ≠ isFreeKey then
      match fn k (data.getD (i + 1) 0) with
      | some e => ([(k, data.getD (i + 1) 0)], some e)
      | none =>
        let r := rangeErrGo data fn rest
        ((k, data.getD (i + 1) 0) :: r.1, r.2)
    else rangeErrGo data fn rest

/-- RangeErr stops on the first error returned by the callback and
propagates it; instrumented with the visited pairs. -/
def Map.RangeErr {ε : Type} (m : Map) (fn : ℕ → ℕ → Option ε) :
    List (ℕ × ℕ) × Option ε :=
  if m.hasFreeKey then
    match fn 0 m.freeVal with
    | some e => ([(0, m.freeVal)], some e)
    | none =>
      let r := rangeErrGo m.data fn (evenIdx m.data.length)
      ((0, m.freeVal) :: r.1, r.2)
  else rangeErrGo m.data fn (evenIdx m.data.length)

/-- LoadOrStore of the Sync wrapper, executed sequentially (the lock
acquisitions are no-ops for a single caller).  The computation fn is
modelled by the value it returns; the last component counts how many times
fn was invoked.  The code loads under the read lock, and on absence
re-checks under the write lock before computing and storing. -/
def Map.LoadOrStore (m : Map) (key fnVal : ℕ) :
    Option (Map × ℕ × Bool × ℕ) :=
  match m.Load key with
  | none => none
  | some (v, true) => some (m, v, true, 0)
  | some (_, false) =>
    match m.Load key with
    | none => none
    | some (v, true) => some (m, v, true, 0)
    | some (_, false) =>
      match m.Store key fnVal with
      | none => none
      | some m' => some (m', fnVal, false, 1)

/-- The Load probe loop with the array threaded through the iterations, as
the Go loop keeps the slice in scope; it is returned at every exit so that
the absence of writes is a provable statement rather than a convention. -/
def loadLoopThreaded (key mask mask1 : ℕ) :
    (fuel : ℕ) → (data : List ℕ) → (ptr dist : ℕ) → Option (List ℕ × ℕ × Bool)
  | 0, _, _, _ => none
  | fuel + 1, data, ptr, dist =>
    let k := data.getD ptr 0
    if k = key then some (data, data.getD (ptr + 1) 0, true)
    else if k = isFreeKey then some (data, 0, false)
    else
      let occDist := (u32sub ptr (bucketOf k mask) &&& mask1) >>> 1
      if occDist < dist then some (data, 0, false)
      else loadLoopThreaded key mask mask1 fuel data ((ptr + 2) &&& mask1) (dist + 1)

/-- Load with the receiver state threaded and returned. -/
def Map.LoadThreaded (m : Map) (key : ℕ) : Option (Map × ℕ × Bool) :=
  if key = isFreeKey then
    some (m, if m.hasFreeKey then (m.freeVal, true) else (0, false))
  else
    match loadLoopThreaded key m.mask0 m.mask1 (m.data.length + 1) m.data
        (bucketOf key m.mask0) 0 with
    | none => none
    | some (A, v, ok) => some ({ m with data := A }, v, ok)

/-- Count with the receiver state threaded and returned. -/
def Map.CountThreaded (m : Map) : Map × ℤ := (m, m.count)

/-- Capacity with the receiver state threaded and returned. -/
def Map.CapacityThreaded (m : Map) : Map × ℕ := (m, m.data.length / 2)

/-! ### Slot-level view of the interleaved array

The array interleaves keys (even offsets) and values (odd offsets); slot s
covers offsets 2s and 2s+1.  The probe arithmetic of the code, performed on
offsets with the two masks, corresponds to arithmetic modulo the capacity on
slot indices; the bridging lemmas below make that correspondence precise. -/

/-- Key stored in slot s (0 when the slot is empty or out of range). -/
def slotKey (A : List ℕ) (s : ℕ) : ℕ := A.getD (2 * s) 0

/-- Value stored in slot s. -/
def slotVal (A : List ℕ) (s : ℕ) : ℕ := A.getD (2 * s + 1) 0

/-- Home slot of a key for capacity 2^c: the Fibonacci hash reduced by the
bucket mask, at slot (not offset) granularity. -/
def home (c key : ℕ) : ℕ := key * 0x9E3779B9 % U32 % 2 ^ c

/-- Forward cyclic distance from a to b on Z_cap. -/
def cdist (cap a b : ℕ) : ℕ := (b + cap - a) % cap

/-- Displacement of the occupant of slot s: its cyclic distance from its
home slot. -/
def disp (c : ℕ) (A : List ℕ) (s : ℕ) : ℕ := cdist (2 ^ c) (home c (slotKey A s)) s

/-- Writing the pair (k, v) into slot s. -/
def updSlot (A : List ℕ) (s k v : ℕ) : List ℕ := (A.set (2 * s) k).set (2 * s + 1) v

/-- The live (key, value) pairs of the array, in slot order. -/
def livePairsL (A : List ℕ) : List (ℕ × ℕ) :=
  (List.range (A.length / 2)).filterMap fun s =>
    if slotKey A s = 0 then none else some (slotKey A s, slotVal A s)

/-- The Robin Hood ordering invariant: every occupied slot with positive
displacement has an occupied predecessor whose displacement is at most one
smaller. -/
def rhInv (c : ℕ) (A : List ℕ) : Prop :=
  ∀ s < 2 ^ c, slotKey A s ≠ 0 → 0 < disp c A s →
    slotKey A ((s + 2 ^ c - 1) % 2 ^ c) ≠ 0 ∧
      disp c A s ≤ disp c A ((s + 2 ^ c - 1) % 2 ^ c) + 1

theorem home_lt (c key : ℕ) : home c key < 2 ^ c :=
  Nat.mod_lt _ (Nat.pos_pow_of_pos c (by norm_num))

theorem cdist_lt {cap : ℕ} (hcap : 0 < cap) (a b : ℕ) : cdist cap a b < cap :=
  Nat.mod_lt _ hcap

theorem cdist_eq {cap a b : ℕ} (ha : a < cap) (hb : b < cap) :
    cdist cap a b = if a ≤ b then b - a else b + cap - a := by
  unfold cdist
  rcases le_or_lt a b with h | h
  · have : b + cap - a = (b - a) + cap := by omega
    rw [if_pos h, this, Nat.add_mod_right, Nat.mod_eq_of_lt (by omega)]
  · rw [if_neg (by omega), Nat.mod_eq_of_lt (by omega)]

theorem cdist_self {cap a : ℕ} (ha : a < cap) : cdist cap a a = 0 := by
  rw [cdist_eq ha ha]; simp

theorem cdist_eq_zero_iff {cap a b : ℕ} (ha : a < cap) (hb : b < cap) :
    cdist cap a b = 0 ↔ a = b := by
  rw [cdist_eq ha hb]; split <;> omega

theorem add_cdist {cap a b : ℕ} (ha : a < cap) (hb : b < cap) :
    (a + cdist cap a b) % cap = b := by
  rw [cdist_eq ha hb]
  rcases le_or_lt a b with h | h
  · rw [if_pos h, Nat.mod_eq_of_lt (by omega)]; omega
  · rw [if_neg (by omega)]
    have : a + (b + cap - a) = b + cap := by omega
    rw [this, Nat.add_mod_right, Nat.mod_eq_of_lt hb]

theorem cdist_inj {cap a b b' : ℕ} (ha : a < cap) (hb : b < cap) (hb' : b' < cap)
    (h : cdist cap a b = cdist cap a b') : b = b' := by
  have h1 := add_cdist ha hb
  have h2 := add_cdist ha hb'
  rw [h] at h1; omega

theorem cdist_succ {cap a b : ℕ} (ha : a < cap) (hb : b < cap) :
    cdist cap a ((b + 1) % cap) = (cdist cap a b + 1) % cap := by
  rcases Nat.lt_or_ge (b + 1) cap with h | h
  · rw [Nat.mod_eq_of_lt h, cdist_eq ha h, cdist_eq ha hb]
    rcases le_or_lt a b with h' | h'
    · rw [if_pos (by omega), if_pos h', Nat.mod_eq_of_lt (by omega)]; omega
    · rcases eq_or_lt_of_le (Nat.succ_le_of_lt h') with h'' | h''
      · rw [if_pos (by omega), if_neg (by omega)]
        have hcc : b + cap - a + 1 = cap := by omega
        rw [hcc, Nat.mod_self]; omega
      · rw [if_neg (by omega), if_neg (by omega), Nat.mod_eq_of_lt (by omega)]
        omega
  · have hb1 : b + 1 = cap := by omega
    rw [hb1, Nat.mod_self, cdist_eq ha (by omega), cdist_eq ha hb]
    rcases Nat.eq_zero_or_pos a with rfl | hapos
    · simp [hb1]
    · rw [if_neg (by omega), if_pos (by omega)]
      have : b - a + 1 = cap - a := by omega
      rw [Nat.mod_eq_of_lt (by omega)]; omega

theorem cdist_succ_of_lt {cap a b : ℕ} (ha : a < cap) (hb : b < cap)
    (h : cdist cap a b + 1 < cap) :
    cdist cap a ((b + 1) % cap) = cdist cap a b + 1 := by
  rw [cdist_succ ha hb, Nat.mod_eq_of_lt h]

theorem cdist_pred {cap a b : ℕ} (ha : a < cap) (hb : b < cap)
    (h : 0 < cdist cap a ((b + 1) % cap)) :
    cdist cap a b = cdist cap a ((b + 1) % cap) - 1 := by
  have := cdist_succ ha hb
  have hlt : cdist cap a b < cap := cdist_lt (by omega) a b
  rcases Nat.lt_or_ge (cdist cap a b + 1) cap with h' | h'
  · rw [Nat.mod_eq_of_lt h'] at this; omega
  · have : cdist cap a ((b + 1) % cap) = 0 := by
      rw [this]
      have : cdist cap a b + 1 = cap := by omega
      rw [this, Nat.mod_self]
    omega

theorem cdist_add_mod {cap a j : ℕ} (ha : a < cap) (hj : j < cap) :
    cdist cap a ((a + j) % cap) = j := by
  rcases Nat.lt_or_ge (a + j) cap with h | h
  · rw [Nat.mod_eq_of_lt h, cdist_eq ha h, if_pos (by omega)]; omega
  · have hsub : (a + j) % cap = a + j - cap := by
      rw [Nat.mod_eq_sub_mod h, Nat.mod_eq_of_lt (by omega)]
    rw [hsub, cdist_eq ha (by omega), if_neg (by omega)]; omega

/-! ### Bridging offset arithmetic to slot arithmetic -/

theorem bucketOf_eq {c : ℕ} (hc : c + 1 ≤ 32) (key : ℕ) :
    bucketOf key (2 ^ c - 1) = 2 * home c key := by
  unfold bucketOf home U32
  rw [Nat.and_pow_two_sub_one_eq_mod, Nat.shiftLeft_eq]
  have h1 : key * 0x9E3779B9 % 2 ^ 32 % 2 ^ c < 2 ^ c :=
    Nat.mod_lt _ (Nat.pos_pow_of_pos c (by norm_num))
  have h2 : 2 ^ c * 2 ≤ 2 ^ 32 := by
    calc 2 ^ c * 2 = 2 ^ (c + 1) := by rw [pow_succ]
    _ ≤ 2 ^ 32 := Nat.pow_le_pow_right (by norm_num) hc
  rw [Nat.mod_eq_of_lt (by omega)]
  ring

theorem step_bridge (c s : ℕ) :
    (2 * s + 2) &&& (2 ^ (c + 1) - 1) = 2 * ((s + 1) % 2 ^ c) := by
  rw [Nat.and_pow_two_sub_one_eq_mod]
  have h1 : 2 * s + 2 = 2 * (s + 1) := by ring
  rw [h1, pow_succ, mul_comm (2 ^ c) 2, Nat.mul_mod_mul_left]

theorem shift_bridge {c s h : ℕ} (hc : c + 1 ≤ 32) (hs : s < 2 ^ c)
    (hh : h < 2 ^ c) :
    u32sub (2 * s) (2 * h) &&& (2 ^ (c + 1) - 1) = 2 * cdist (2 ^ c) h s := by
  have e31 : (2 : ℕ) ^ 31 = 2147483648 := by norm_num
  have e32 : (2 : ℕ) ^ 32 = 4294967296 := by norm_num
  have hc31 : (2 : ℕ) ^ c ≤ 2 ^ 31 := Nat.pow_le_pow_right (by norm_num) (by omega)
  unfold u32sub U32
  rw [Nat.and_pow_two_sub_one_eq_mod,
    Nat.mod_mod_of_dvd _ (pow_dvd_pow 2 (by omega : c + 1 ≤ 32))]
  have h1 : 2 * s + 2 ^ 32 - 2 * h = 2 * (s + 2 ^ 31 - h) := by omega
  rw [h1, show (2 : ℕ) ^ (c + 1) = 2 * 2 ^ c by rw [pow_succ]; ring,
    Nat.mul_mod_mul_left]
  have h2 : s + 2 ^ 31 - h = (s + 2 ^ c - h) + (2 ^ 31 - 2 ^ c) := by omega
  obtain ⟨k, hk⟩ : (2 : ℕ) ^ c ∣ 2 ^ 31 - 2 ^ c :=
    Nat.dvd_sub' (pow_dvd_pow 2 (by omega)) dvd_rfl
  rw [h2, hk, Nat.add_mul_mod_self_left]
  rfl

theorem occ_bridge {c s h : ℕ} (hc : c + 1 ≤ 32) (hs : s < 2 ^ c)
    (hh : h < 2 ^ c) :
    (u32sub (2 * s) (2 * h) &&& (2 ^ (c + 1) - 1)) >>> 1 = cdist (2 ^ c) h s := by
  rw [shift_bridge hc hs hh, Nat.shiftRight_eq_div_pow]
  omega

/-! ### Slot access through updates -/

theorem length_updSlot (A : List ℕ) (s k v : ℕ) :
    (updSlot A s k v).length = A.length := by
  simp [updSlot]

theorem slotKey_updSlot (A : List ℕ) {s : ℕ} (k v t : ℕ)
    (hs : 2 * s + 1 < A.length) :
    slotKey (updSlot A s k v) t = if t = s then k else slotKey A t := by
  unfold slotKey updSlot
  rw [List.getD_eq_getElem?_getD, List.getD_eq_getElem?_getD,
    List.getElem?_set, List.getElem?_set]
  by_cases h : t = s
  · subst h
    rw [if_neg (by omega), if_pos rfl, if_pos (by omega), if_pos rfl]
    rfl
  · rw [if_neg (by omega), if_neg (by omega), if_neg h]

theorem slotVal_updSlot (A : List ℕ) {s : ℕ} (k v t : ℕ)
    (hs : 2 * s + 1 < A.length) :
    slotVal (updSlot A s k v) t = if t = s then v else slotVal A t := by
  unfold slotVal updSlot
  rw [List.getD_eq_getElem?_getD, List.getD_eq_getElem?_getD, List.getElem?_set]
  by_cases h : t = s
  · subst h
    rw [if_pos rfl, if_pos (by simp; omega), if_pos rfl]
    rfl
  · rw [if_neg (by omega), if_neg h, List.getElem?_set, if_neg (by omega)]

theorem slotKey_setKey (A : List ℕ) {s : ℕ} (k t : ℕ) (hs : 2 * s < A.length) :
    slotKey (A.set (2 * s) k) t = if t = s then k else slotKey A t := by
  unfold slotKey
  rw [List.getD_eq_getElem?_getD, List.getD_eq_getElem?_getD, List.getElem?_set]
  by_cases h : t = s
  · subst h; rw [if_pos rfl, if_pos hs, if_pos rfl]; rfl
  · rw [if_neg (by omega), if_neg h]

theorem slotVal_setKey (A : List ℕ) (s k t : ℕ) :
    slotVal (A.set (2 * s) k) t = slotVal A t := by
  unfold slotVal
  rw [List.getD_eq_getElem?_getD, List.getD_eq_getElem?_getD, List.getElem?_set,
    if_neg (by omega)]

theorem slotKey_of_length_le {A : List ℕ} {s : ℕ} (h : A.length ≤ 2 * s) :
    slotKey A s = 0 := by
  unfold slotKey
  rw [List.getD_eq_getElem?_getD, List.getElem?_eq_none (by omega)]
  rfl

/-! ### Surgery on the list of live pairs -/

/-- The optional live pair carried by slot s. -/
def optPair (A : List ℕ) (s : ℕ) : Option (ℕ × ℕ) :=
  if slotKey A s = 0 then none else some (slotKey A s, slotVal A s)

theorem livePairsL_eq (A : List ℕ) :
    livePairsL A = (List.range (A.length / 2)).filterMap (optPair A) := by
  unfold livePairsL optPair
  rfl

theorem filterMap_cons_toList {α β : Type} (f : α → Option β) (a : α) (l : List α) :
    List.filterMap f (a :: l) = (f a).toList ++ List.filterMap f l := by
  cases h : f a <;> simp [List.filterMap_cons, h]

/-- Splitting the live pairs at slot s: the prefix and suffix only depend on
the slots other than s, so any array agreeing with A outside s has the same
decomposition around its own slot-s pair. -/
theorem livePairsL_split {A : List ℕ} {s : ℕ} (hs : s < A.length / 2) :
    ∃ P S, livePairsL A = P ++ (optPair A s).toList ++ S ∧
      ∀ B : List ℕ, B.length = A.length →
        (∀ t, t ≠ s → slotKey B t = slotKey A t ∧ slotVal B t = slotVal A t) →
        livePairsL B = P ++ (optPair B s).toList ++ S := by
  set n := A.length / 2 with hn
  obtain ⟨r, hr⟩ : ∃ r, n - s = r + 1 := ⟨n - s - 1, by omega⟩
  have hsplit : List.range n = List.range s ++ s ::
      List.map (fun i => s + 1 + i) (List.range r) := by
    have h0 : List.range n = List.range s ++ List.map (fun i => s + i)
        (List.range (n - s)) := by
      rw [← List.range_add]
      congr 1
      omega
    rw [h0, hr, List.range_succ_eq_map]
    simp only [List.map_cons, List.map_map, Nat.add_zero]
    have hfe : ((fun i => s + i) ∘ Nat.succ) = fun i => s + 1 + i := by
      funext i
      simp [Function.comp, Nat.succ_eq_add_one]
      omega
    rw [hfe]
  refine ⟨(List.range s).filterMap (optPair A),
    ((List.range r).map (fun i => s + 1 + i)).filterMap (optPair A), ?_, ?_⟩
  · rw [livePairsL_eq, hsplit, List.filterMap_append, filterMap_cons_toList,
      List.append_assoc]
  · intro B hB hagree
    rw [livePairsL_eq, hB, ← hn, hsplit, List.filterMap_append,
      filterMap_cons_toList, List.append_assoc]
    have h1 : (List.range s).filterMap (optPair B)
        = (List.range s).filterMap (optPair A) := by
      apply List.filterMap_congr
      intro t ht
      have := hagree t (by simp at ht; omega)
      unfold optPair
      rw [this.1, this.2]
    have h2 : ((List.range r).map (fun i => s + 1 + i)).filterMap (optPair B)
        = ((List.range r).map (fun i => s + 1 + i)).filterMap (optPair A) := by
      apply List.filterMap_congr
      intro t ht
      simp only [List.mem_map] at ht
      obtain ⟨i, _, rfl⟩ := ht
      have := hagree (s + 1 + i) (by omega)
      unfold optPair
      rw [this.1, this.2]
    rw [h1, h2]

/-! ### The well-formedness invariant of reachable tables -/

/-- Well-formedness of a table whose bucket mask covers 2^c slots and whose
array spans 2^(c+1+b) words (b > 0 right after a Clone, which allocates a
larger array but copies the original masks).  These are the facts preserved
by every successful operation and used to specify them. -/
structure WFc (m : Map) (c b : ℕ) : Prop where
  hc3 : 3 ≤ c
  hcb : c + 1 + b ≤ 32
  hmask0 : m.mask0 = 2 ^ c - 1
  hmask1 : m.mask1 = 2 ^ (c + 1) - 1
  hlen : m.data.length = 2 ^ (c + 1 + b)
  hbound : ∀ x ∈ m.data, x < 2 ^ 32
  hhigh : ∀ s, 2 ^ c ≤ s → slotKey m.data s = 0
  hnodup : ((livePairsL m.data).map Prod.fst).Nodup
  hcount : m.count = ((livePairsL m.data).length : ℤ)
    + (if m.hasFreeKey then 1 else 0)
  hfreeval : m.freeVal < 2 ^ 32
  hfill0 : 0 < m.fillFactor
  hfill1 : m.fillFactor < 1
  hfillcap : 1 ≤ (2 ^ c : ℚ) * m.fillFactor
  hthr1 : 1 ≤ m.threshold
  hthrcap : m.threshold < (2 ^ c : ℤ)
  hcnt_le : m.count ≤ m.threshold
  hcnt_lt : m.hasFreeKey = false → m.count < m.threshold
  hrh : rhInv c m.data

/-- A table is well-formed when it is for some mask exponent and some array
inflation factor. -/
def WF (m : Map) : Prop := ∃ c b, WFc m c b

theorem WFc.cap_le_half {m : Map} {c b : ℕ} (h : WFc m c b) :
    2 ^ c ≤ m.data.length / 2 := by
  rw [h.hlen]
  have : (2 : ℕ) ^ (c + 1 + b) = 2 ^ (c + b) * 2 := by
    rw [← pow_succ]
    congr 1
    omega
  rw [this, Nat.mul_div_cancel _ (by norm_num)]
  exact Nat.pow_le_pow_right (by norm_num) (by omega)

theorem WFc.slot_in_range {m : Map} {c b : ℕ} (h : WFc m c b) {s : ℕ}
    (hs : s < 2 ^ c) : 2 * s + 1 < m.data.length := by
  rw [h.hlen]
  have h1 : (2 : ℕ) ^ (c + 1) ≤ 2 ^ (c + 1 + b) :=
    Nat.pow_le_pow_right (by norm_num) (by omega)
  have h2 : 2 * s + 1 < 2 ^ (c + 1) := by
    rw [pow_succ]
    omega
  omega

theorem length_filterMap_of_isSome {α β : Type} (f : α → Option β) :
    ∀ l : List α, (∀ x ∈ l, (f x).isSome) →
      (List.filterMap f l).length = l.length := by
  intro l
  induction l with
  | nil => intro _; rfl
  | cons a t ih =>
    intro h
    rw [filterMap_cons_toList]
    have ha := h a (by simp)
    obtain ⟨y, hy⟩ := Option.isSome_iff_exists.mp ha
    rw [hy]
    simp only [Option.toList, List.length_append, List.length_cons]
    rw [ih fun x hx => h x (by simp [hx])]
    simp
    omega

/-- The number of live pairs is the number of occupied slots; when it is
below 2^c some slot of the masked region must be free. -/
theorem exists_free_slot {m : Map} {c b : ℕ} (h : WFc m c b)
    (hlt : (livePairsL m.data).length < 2 ^ c) :
    ∃ g, g < 2 ^ c ∧ slotKey m.data g = 0 := by
  by_contra hno
  push_neg at hno
  have hocc : ∀ s ∈ List.range (2 ^ c), (optPair m.data s).isSome := by
    intro s hs
    simp only [List.mem_range] at hs
    unfold optPair
    rw [if_neg (hno s hs)]
    rfl
  have hsplit : List.range (m.data.length / 2)
      = List.range (2 ^ c) ++ List.map (fun i => 2 ^ c + i)
        (List.range (m.data.length / 2 - 2 ^ c)) := by
    rw [← List.range_add]
    congr 1
    have := h.cap_le_half
    omega
  have : (livePairsL m.data).length ≥ 2 ^ c := by
    rw [livePairsL_eq, hsplit, List.filterMap_append, List.length_append,
      length_filterMap_of_isSome _ _ hocc, List.length_range]
    omega
  omega

/-- The count of live pairs in a well-formed table is below threshold hence
below 2^c, so a free slot exists. -/
theorem WFc.free_slot {m : Map} {c b : ℕ} (h : WFc m c b) :
    ∃ g, g < 2 ^ c ∧ slotKey m.data g = 0 := by
  apply exists_free_slot h
  have h1 := h.hcount
  have h2 := h.hcnt_le
  have h3 := h.hthrcap
  have : ((livePairsL m.data).length : ℤ) < (2 ^ c : ℤ) := by
    rcases m.hasFreeKey with _ | _ <;> simp at h1 <;> omega
  exact_mod_cast this

/-- Predecessor slot on the cycle of 2^c slots. -/
theorem pred_of_add {cap h j : ℕ} (hcap : 0 < cap) (hj : 1 ≤ j) :
    ((h + j) % cap + cap - 1) % cap = (h + (j - 1)) % cap := by
  have h1 : (h + j) % cap + cap - 1 = (h + j) % cap + (cap - 1) := by omega
  rw [h1, Nat.mod_add_mod]
  have h2 : h + j + (cap - 1) = h + (j - 1) + cap := by omega
  rw [h2, Nat.add_mod_right]

/-- Walking back from an occupied slot: every slot on the probe path from
the occupant's home is occupied, with displacement at least its path
offset. -/
theorem rh_chain {c : ℕ} {A : List ℕ} (hrh : rhInv c A) {s : ℕ}
    (hs : s < 2 ^ c) (hocc : slotKey A s ≠ 0) :
    ∀ t, t ≤ disp c A s →
      slotKey A ((home c (slotKey A s) + (disp c A s - t)) % 2 ^ c) ≠ 0 ∧
        disp c A s - t ≤ disp c A ((home c (slotKey A s) + (disp c A s - t)) % 2 ^ c) := by
  have hcap : 0 < 2 ^ c := Nat.pos_pow_of_pos c (by norm_num)
  have hhome : home c (slotKey A s) < 2 ^ c := home_lt _ _
  have hself : (home c (slotKey A s) + disp c A s) % 2 ^ c = s :=
    add_cdist hhome hs
  intro t
  induction t with
  | zero =>
    intro _
    simp only [Nat.sub_zero, hself]
    exact ⟨hocc, le_refl _⟩
  | succ t ih =>
    intro ht
    have hprev := ih (by omega)
    set q := (home c (slotKey A s) + (disp c A s - t)) % 2 ^ c with hq
    have hqlt : q < 2 ^ c := Nat.mod_lt _ hcap
    have hdq : 0 < disp c A q := by
      have := hprev.2
      omega
    have hr := hrh q hqlt hprev.1 hdq
    have hpred : (q + 2 ^ c - 1) % 2 ^ c
        = (home c (slotKey A s) + (disp c A s - (t + 1))) % 2 ^ c := by
      rw [hq, pred_of_add hcap (by omega)]
      have he : disp c A s - t - 1 = disp c A s - (t + 1) := by omega
      rw [he]
    rw [hpred] at hr
    refine ⟨hr.1, ?_⟩
    have := hr.2
    have := hprev.2
    omega

/-- With a free slot present, no displacement can reach 2^c - 1: the probe
path of a maximal displacement would cover every slot. -/
theorem disp_le_of_free {c : ℕ} {A : List ℕ} (hrh : rhInv c A) {g s : ℕ}
    (hg : g < 2 ^ c) (hgfree : slotKey A g = 0) (hs : s < 2 ^ c)
    (hocc : slotKey A s ≠ 0) : disp c A s + 2 ≤ 2 ^ c := by
  have hcap : 0 < 2 ^ c := Nat.pos_pow_of_pos c (by norm_num)
  have hlt : disp c A s < 2 ^ c := cdist_lt hcap _ _
  by_contra hcon
  have hd : disp c A s = 2 ^ c - 1 := by omega
  have hhome : home c (slotKey A s) < 2 ^ c := home_lt _ _
  -- the free slot lies on the probe path
  have hj : cdist (2 ^ c) (home c (slotKey A s)) g ≤ disp c A s := by
    have := cdist_lt hcap (home c (slotKey A s)) g
    omega
  have := rh_chain hrh hs hocc (disp c A s - cdist (2 ^ c) (home c (slotKey A s)) g)
    (by omega)
  have hgg : (home c (slotKey A s) +
      (disp c A s - (disp c A s - cdist (2 ^ c) (home c (slotKey A s)) g))) % 2 ^ c = g := by
    have h1 : disp c A s - (disp c A s - cdist (2 ^ c) (home c (slotKey A s)) g)
        = cdist (2 ^ c) (home c (slotKey A s)) g := by omega
    rw [h1]
    exact add_cdist hhome hg
  rw [hgg] at this
  exact this.1 hgfree

theorem cdist_succ_left {cap a b : ℕ} (ha : a < cap) (hb : b < cap)
    (hne : a ≠ b) : cdist cap ((a + 1) % cap) b = cdist cap a b - 1 := by
  rcases Nat.lt_or_ge (a + 1) cap with h | h
  · rw [Nat.mod_eq_of_lt h, cdist_eq h hb, cdist_eq ha hb]
    rcases Nat.lt_or_ge a b with h' | h'
    · rw [if_pos (by omega), if_pos (by omega)]; omega
    · rw [if_neg (by omega), if_neg (by omega)]; omega
  · have ha1 : a + 1 = cap := by omega
    rw [ha1, Nat.mod_self, cdist_eq (by omega) hb, cdist_eq ha hb,
      if_pos (by omega), if_neg (by omega)]
    omega

/-- One unfolding of the Load probe loop, rewritten at slot granularity. -/
theorem loadLoop_succ {c : ℕ} (hc : c + 1 ≤ 32) (A : List ℕ) (key : ℕ)
    {s : ℕ} (hs : s < 2 ^ c) (fuel dist : ℕ) :
    loadLoop A key (2 ^ c - 1) (2 ^ (c + 1) - 1) (fuel + 1) (2 * s) dist =
      if slotKey A s = key then some (slotVal A s, true)
      else if slotKey A s = 0 then some (0, false)
      else if disp c A s < dist then some (0, false)
      else loadLoop A key (2 ^ c - 1) (2 ^ (c + 1) - 1) fuel
        (2 * ((s + 1) % 2 ^ c)) (dist + 1) := by
  simp only [loadLoop, isFreeKey]
  rw [bucketOf_eq hc, occ_bridge hc hs (home_lt _ _), step_bridge]
  rfl

/-- When the key occurs in no slot but some slot is free, the Load loop
reports absence (it stops at the latest upon reaching a free slot). -/
theorem loadLoop_not_found {c : ℕ} (hc : c + 1 ≤ 32) {A : List ℕ} {key g : ℕ}
    (hkey : ∀ t < 2 ^ c, slotKey A t ≠ key) (hg : g < 2 ^ c)
    (hgfree : slotKey A g = 0) :
    ∀ fuel s dist, s < 2 ^ c → cdist (2 ^ c) s g + 1 ≤ fuel →
      loadLoop A key (2 ^ c - 1) (2 ^ (c + 1) - 1) fuel (2 * s) dist
        = some (0, false) := by
  intro fuel
  induction fuel with
  | zero => intro s dist _ hf; omega
  | succ fuel ih =>
    intro s dist hs hf
    rw [loadLoop_succ hc A key hs fuel dist]
    rw [if_neg (hkey s hs)]
    by_cases h0 : slotKey A s = 0
    · rw [if_pos h0]
    · rw [if_neg h0]
      by_cases hd : disp c A s < dist
      · rw [if_pos hd]
      · rw [if_neg hd]
        have hsg : s ≠ g := fun h => h0 (h ▸ hgfree)
        have hstep : cdist (2 ^ c) ((s + 1) % 2 ^ c) g = cdist (2 ^ c) s g - 1 :=
          cdist_succ_left hs hg hsg
        have hpos : 0 < cdist (2 ^ c) s g := by
          rcases Nat.eq_zero_or_pos (cdist (2 ^ c) s g) with h | h
          · exact absurd ((cdist_eq_zero_iff hs hg).mp h) hsg
          · exact h
        exact ih ((s + 1) % 2 ^ c) (dist + 1)
          (Nat.mod_lt _ (by positivity)) (by omega)

/-- When the key occupies slot p, the Load loop started j steps along the
probe path from the key's home reaches p and returns its value: the Robin
Hood chain below p keeps every intermediate slot occupied with displacement
at least the travelled distance, so neither exit fires early. -/
theorem loadLoop_found {c : ℕ} (hc : c + 1 ≤ 32) {A : List ℕ} {key : ℕ}
    (hrh : rhInv c A) {p : ℕ} (hp : p < 2 ^ c) (hkp : slotKey A p = key)
    (hkey0 : key ≠ 0)
    (huniq : ∀ t < 2 ^ c, slotKey A t = key → t = p) :
    ∀ fuel j, j ≤ disp c A p → disp c A p - j + 1 ≤ fuel →
      loadLoop A key (2 ^ c - 1) (2 ^ (c + 1) - 1) fuel
        (2 * ((home c key + j) % 2 ^ c)) j = some (slotVal A p, true) := by
  have hcap : 0 < 2 ^ c := Nat.pos_pow_of_pos c (by norm_num)
  have hhome : home c key < 2 ^ c := home_lt _ _
  intro fuel
  induction fuel with
  | zero => intro j _ hf; omega
  | succ fuel ih =>
    intro j hj hf
    have hq : (home c key + j) % 2 ^ c < 2 ^ c := Nat.mod_lt _ hcap
    have hchain := rh_chain hrh hp (hkp ▸ hkey0) (disp c A p - j) (by omega)
    rw [hkp] at hchain
    have hjj : disp c A p - (disp c A p - j) = j := by omega
    rw [hjj] at hchain
    rw [loadLoop_succ hc A key hq fuel j]
    by_cases heq : slotKey A ((home c key + j) % 2 ^ c) = key
    · rw [if_pos heq]
      have hqp : (home c key + j) % 2 ^ c = p := huniq _ hq heq
      rw [hqp]
    · rw [if_neg heq, if_neg hchain.1, if_neg (by omega)]
      have hdisp : disp c A p = cdist (2 ^ c) (home c key) p := by
        unfold disp
        rw [hkp]
      have hjd : j ≠ disp c A p := by
        intro h
        apply heq
        rw [h, hdisp, add_cdist hhome hp, hkp]
      have hnext : ((home c key + j) % 2 ^ c + 1) % 2 ^ c
          = (home c key + (j + 1)) % 2 ^ c := by
        rw [Nat.mod_add_mod]
        congr 1
      rw [hnext]
      exact ih (j + 1) (by omega) (by omega)

/-- Membership in the live pairs is occupancy of some slot. -/
theorem mem_livePairsL {A : List ℕ} {k v : ℕ} :
    (k, v) ∈ livePairsL A ↔
      ∃ s < A.length / 2, slotKey A s = k ∧ slotVal A s = v ∧ k ≠ 0 := by
  rw [livePairsL_eq]
  simp only [List.mem_filterMap, List.mem_range]
  constructor
  · rintro ⟨s, hs, hopt⟩
    unfold optPair at hopt
    by_cases h0 : slotKey A s = 0
    · rw [if_pos h0] at hopt; cases hopt
    · rw [if_neg h0] at hopt
      injection hopt with h
      have h1 : slotKey A s = k := congrArg Prod.fst h
      have h2 : slotVal A s = v := congrArg Prod.snd h
      exact ⟨s, hs, h1, h2, by rw [← h1]; exact h0⟩
  · rintro ⟨s, hs, hk, hv, h0⟩
    refine ⟨s, hs, ?_⟩
    unfold optPair
    rw [if_neg (by rw [hk]; exact h0), hk, hv]

/-- Two distinct slots cannot hold the same nonzero key when the key list is
nodup. -/
theorem slot_uniq {A : List ℕ} (hnodup : ((livePairsL A).map Prod.fst).Nodup)
    {s t : ℕ} (hs : s < A.length / 2) (ht : t < A.length / 2)
    (hkey : slotKey A s = slotKey A t) (h0 : slotKey A s ≠ 0) : s = t := by
  by_contra hne
  -- order the two slots
  wlog hlt : s < t generalizing s t
  · exact this ht hs hkey.symm (hkey ▸ h0) (Ne.symm hne) (by omega)
  set n := A.length / 2 with hn
  set k := slotKey A s with hk
  -- split the range at s; the pair of slot s sits in the middle
  obtain ⟨r, hr⟩ : ∃ r, n - s = r + 1 := ⟨n - s - 1, by omega⟩
  have hsplit : List.range n = List.range s ++ s ::
      List.map (fun i => s + 1 + i) (List.range r) := by
    have h0' : List.range n = List.range s ++ List.map (fun i => s + i)
        (List.range (n - s)) := by
      rw [← List.range_add]; congr 1; omega
    rw [h0', hr, List.range_succ_eq_map]
    simp only [List.map_cons, List.map_map, Nat.add_zero]
    have hfe : ((fun i => s + i) ∘ Nat.succ) = fun i => s + 1 + i := by
      funext i
      simp [Function.comp, Nat.succ_eq_add_one]
      omega
    rw [hfe]
  have hmid : optPair A s = some (k, slotVal A s) := by
    unfold optPair
    rw [if_neg h0]
  have htail : k ∈ (((List.map (fun i => s + 1 + i) (List.range r)).filterMap
      (optPair A)).map Prod.fst) := by
    simp only [List.mem_map, List.mem_filterMap]
    refine ⟨(k, slotVal A t), ⟨t, ?_, ?_⟩, rfl⟩
    · simp only [List.mem_map, List.mem_range]
      exact ⟨t - s - 1, by omega, by omega⟩
    · unfold optPair
      rw [if_neg (hkey ▸ h0), ← hkey]
  have : ((livePairsL A).map Prod.fst).Nodup := hnodup
  rw [livePairsL_eq, ← hn, hsplit, List.filterMap_append,
    filterMap_cons_toList, hmid] at this
  simp only [Option.toList, List.map_append, List.append_assoc,
    List.map_cons] at this
  have hnd2 := (List.nodup_append.mp this).2.1
  simp only [List.map_nil, List.nil_append] at hnd2
  have hdisj := (List.nodup_append.mp hnd2).2.2
  exact hdisj (by simp) htail

theorem WFc.hc32 {m : Map} {c b : ℕ} (h : WFc m c b) : c + 1 ≤ 32 := by
  have := h.hcb
  omega

/-- A nonzero key occupying a slot must sit in the masked region. -/
theorem WFc.slot_lt_cap {m : Map} {c b : ℕ} (h : WFc m c b) {p key : ℕ}
    (hk0 : key ≠ 0) (hkp : slotKey m.data p = key) : p < 2 ^ c := by
  by_contra hge
  exact hk0 (hkp ▸ h.hhigh p (by omega))

/-- Load finds a key present in the table and returns its value. -/
theorem Load_found {m : Map} {c b : ℕ} (h : WFc m c b) {key v : ℕ}
    (hk0 : key ≠ 0) (hmem : (key, v) ∈ livePairsL m.data) :
    m.Load key = some (v, true) := by
  obtain ⟨p, hp, hkp, hvp, -⟩ := mem_livePairsL.mp hmem
  have hpc : p < 2 ^ c := h.slot_lt_cap hk0 hkp
  have huniq : ∀ t < 2 ^ c, slotKey m.data t = key → t = p := by
    intro t ht hkt
    exact slot_uniq h.hnodup (lt_of_lt_of_le ht h.cap_le_half) hp
      (hkt.trans hkp.symm) (hkt ▸ hk0)
  unfold Map.Load
  rw [if_neg (by simpa [isFreeKey] using hk0), h.hmask0, h.hmask1,
    bucketOf_eq h.hc32]
  have hstart : 2 * home c key = 2 * ((home c key + 0) % 2 ^ c) := by
    rw [Nat.add_zero, Nat.mod_eq_of_lt (home_lt _ _)]
  rw [hstart, ← hvp]
  apply loadLoop_found h.hc32 h.hrh hpc hkp hk0 huniq
  · omega
  · have hd : disp c m.data p < 2 ^ c :=
      cdist_lt (Nat.pos_pow_of_pos c (by norm_num)) _ _
    have : 2 ^ c ≤ m.data.length / 2 := h.cap_le_half
    omega

/-- Load reports absence of a key occupying no slot. -/
theorem Load_absent {m : Map} {c b : ℕ} (h : WFc m c b) {key : ℕ}
    (hk0 : key ≠ 0) (habs : ∀ t < 2 ^ c, slotKey m.data t ≠ key) :
    m.Load key = some (0, false) := by
  obtain ⟨g, hg, hgfree⟩ := h.free_slot
  unfold Map.Load
  rw [if_neg (by simpa [isFreeKey] using hk0), h.hmask0, h.hmask1,
    bucketOf_eq h.hc32]
  have hstart : 2 * home c key = 2 * (home c key) := rfl
  apply loadLoop_not_found h.hc32 habs hg hgfree (m.data.length + 1)
    (home c key) 0 (home_lt _ _)
  have h1 : cdist (2 ^ c) (home c key) g < 2 ^ c :=
    cdist_lt (Nat.pos_pow_of_pos c (by norm_num)) _ _
  have h2 : 2 ^ c ≤ m.data.length / 2 := h.cap_le_half
  omega

/-- Load reports absence of a key not among the live pairs. -/
theorem Load_not_mem {m : Map} {c b : ℕ} (h : WFc m c b) {key : ℕ}
    (hk0 : key ≠ 0) (habs : ∀ v, (key, v) ∉ livePairsL m.data) :
    m.Load key = some (0, false) := by
  apply Load_absent h hk0
  intro t ht hkt
  apply habs (slotVal m.data t)
  exact mem_livePairsL.mpr ⟨t, lt_of_lt_of_le ht h.cap_le_half, hkt, rfl, hk0⟩

/-- Load of a nonzero key, characterized by the live pairs: two well-formed
tables with the same live pairs for a key agree on its Load. -/
theorem Load_congr {m1 m2 : Map} {c1 b1 c2 b2 : ℕ} (h1 : WFc m1 c1 b1)
    (h2 : WFc m2 c2 b2) {key : ℕ} (hk0 : key ≠ 0)
    (hmem : ∀ v, (key, v) ∈ livePairsL m1.data ↔ (key, v) ∈ livePairsL m2.data) :
    m1.Load key = m2.Load key := by
  by_cases hex : ∃ v, (key, v) ∈ livePairsL m1.data
  · obtain ⟨v, hv⟩ := hex
    rw [Load_found h1 hk0 hv, Load_found h2 hk0 ((hmem v).mp hv)]
  · push_neg at hex
    rw [Load_not_mem h1 hk0 hex, Load_not_mem h2 hk0
      fun v hv => hex v ((hmem v).mpr hv)]

/-- One unfolding of the Store probe loop, rewritten at slot granularity. -/
theorem storeLoop_succ {c : ℕ} (hc : c + 1 ≤ 32) (A : List ℕ) {s : ℕ}
    (hs : s < 2 ^ c) (fuel key val dist : ℕ) :
    storeLoop (2 ^ c - 1) (2 ^ (c + 1) - 1) (fuel + 1) A key val (2 * s) dist =
      if slotKey A s = 0 then some (.placed (updSlot A s key val))
      else if slotKey A s = key then some (.updated (A.set (2 * s + 1) val))
      else if disp c A s < dist then
        storeLoop (2 ^ c - 1) (2 ^ (c + 1) - 1) fuel (updSlot A s key val)
          (slotKey A s) (slotVal A s) (2 * ((s + 1) % 2 ^ c)) (disp c A s + 1)
      else
        storeLoop (2 ^ c - 1) (2 ^ (c + 1) - 1) fuel A key val
          (2 * ((s + 1) % 2 ^ c)) (dist + 1) := by
  simp only [storeLoop, isFreeKey]
  rw [bucketOf_eq hc, occ_bridge hc hs (home_lt _ _), step_bridge]
  rfl

theorem mem_updSlot {A : List ℕ} {s k v y : ℕ} (hy : y ∈ updSlot A s k v) :
    y ∈ A ∨ y = k ∨ y = v := by
  unfold updSlot at hy
  rcases List.mem_or_eq_of_mem_set hy with h | h
  · rcases List.mem_or_eq_of_mem_set h with h' | h'
    · exact Or.inl h'
    · exact Or.inr (Or.inl h')
  · exact Or.inr (Or.inr h)

/-- Robin Hood invariant preservation for a single slot update, covering
both the deposit into a free slot and the slot-stealing swap: the incoming
pair's displacement is dist, the predecessor carries displacement at least
dist - 1, and the update only increases the displacement stored at s. -/
theorem rhInv_update {c : ℕ} (hc2 : 1 ≤ c) {A : List ℕ} (hrh : rhInv c A)
    {s x w dist : ℕ} (hs : s < 2 ^ c) (hlen : 2 ^ (c + 1) ≤ A.length)
    (hx0 : x ≠ 0) (hdist : dist = cdist (2 ^ c) (home c x) s)
    (hpred : 0 < dist → slotKey A ((s + 2 ^ c - 1) % 2 ^ c) ≠ 0 ∧
      dist - 1 ≤ disp c A ((s + 2 ^ c - 1) % 2 ^ c))
    (hcase : slotKey A s = 0 ∨ disp c A s < dist) :
    rhInv c (updSlot A s x w) := by
  have hcap : 0 < 2 ^ c := Nat.pos_pow_of_pos c (by norm_num)
  have hcap2 : 2 ≤ 2 ^ c := by
    calc 2 = 2 ^ 1 := (pow_one 2).symm
    _ ≤ 2 ^ c := Nat.pow_le_pow_right (by norm_num) hc2
  have hsl : 2 * s + 1 < A.length := by
    have : 2 * s + 1 < 2 ^ (c + 1) := by rw [pow_succ]; omega
    omega
  have hpred_ne : (s + 2 ^ c - 1) % 2 ^ c ≠ s := by
    intro h
    have h1 : s + 2 ^ c - 1 = s + (2 ^ c - 1) := by omega
    have h2 := cdist_add_mod hs (show 2 ^ c - 1 < 2 ^ c by omega)
    rw [← h1, h, cdist_self hs] at h2
    omega
  intro t ht hocc' hdisp'
  by_cases hts : t = s
  · subst hts
    have hKs : slotKey (updSlot A t x w) t = x := by
      rw [slotKey_updSlot A x w t hsl, if_pos rfl]
    have hdisp_s : disp c (updSlot A t x w) t = dist := by
      unfold disp
      rw [hKs, hdist]
    rw [hdisp_s] at hdisp'
    obtain ⟨hp1, hp2⟩ := hpred hdisp'
    have hpredKey : slotKey (updSlot A t x w) ((t + 2 ^ c - 1) % 2 ^ c)
        = slotKey A ((t + 2 ^ c - 1) % 2 ^ c) := by
      rw [slotKey_updSlot A x w _ hsl, if_neg hpred_ne]
    have hpredDisp : disp c (updSlot A t x w) ((t + 2 ^ c - 1) % 2 ^ c)
        = disp c A ((t + 2 ^ c - 1) % 2 ^ c) := by
      unfold disp
      rw [hpredKey]
    rw [hpredKey, hpredDisp, hdisp_s]
    exact ⟨hp1, by omega⟩
  · have hKt : slotKey (updSlot A s x w) t = slotKey A t := by
      rw [slotKey_updSlot A x w t hsl, if_neg hts]
    have hdisp_t : disp c (updSlot A s x w) t = disp c A t := by
      unfold disp
      rw [hKt]
    rw [hKt] at hocc'
    rw [hdisp_t] at hdisp' ⊢
    have hold := hrh t ht hocc' hdisp'
    by_cases hpt : (t + 2 ^ c - 1) % 2 ^ c = s
    · rcases hcase with hfree | hswap
      · rw [hpt] at hold
        exact absurd hfree hold.1
      · have hKps : slotKey (updSlot A s x w) s = x := by
          rw [slotKey_updSlot A x w s hsl, if_pos rfl]
        have hds : disp c (updSlot A s x w) s = dist := by
          unfold disp
          rw [hKps, hdist]
        rw [hpt, hKps, hds]
        refine ⟨hx0, ?_⟩
        have h2 := hold.2
        rw [hpt] at h2
        omega
    · have hKp : slotKey (updSlot A s x w) ((t + 2 ^ c - 1) % 2 ^ c)
          = slotKey A ((t + 2 ^ c - 1) % 2 ^ c) := by
        rw [slotKey_updSlot A x w _ hsl, if_neg hpt]
      have hdp : disp c (updSlot A s x w) ((t + 2 ^ c - 1) % 2 ^ c)
          = disp c A ((t + 2 ^ c - 1) % 2 ^ c) := by
        unfold disp
        rw [hKp]
      rw [hKp, hdp]
      exact hold

theorem slotKey_mem {A : List ℕ} {s : ℕ} (h : 2 * s < A.length) :
    slotKey A s ∈ A := by
  unfold slotKey
  rw [List.getD_eq_getElem?_getD, List.getElem?_eq_getElem h]
  exact List.getElem_mem h

theorem slotVal_mem {A : List ℕ} {s : ℕ} (h : 2 * s + 1 < A.length) :
    slotVal A s ∈ A := by
  unfold slotVal
  rw [List.getD_eq_getElem?_getD, List.getElem?_eq_getElem h]
  exact List.getElem_mem h

theorem key_not_mem_fst {A : List ℕ} {c x : ℕ} (hx0 : x ≠ 0)
    (habs : ∀ t, t < 2 ^ c → slotKey A t ≠ x)
    (hhigh : ∀ t, 2 ^ c ≤ t → slotKey A t = 0) :
    x ∉ (livePairsL A).map Prod.fst := by
  intro hmem
  simp only [List.mem_map] at hmem
  obtain ⟨⟨k, v⟩, hkv, hfst⟩ := hmem
  obtain ⟨t, _, hk, _, h0⟩ := mem_livePairsL.mp hkv
  simp only at hfst
  subst hfst
  by_cases htc : t < 2 ^ c
  · exact habs t htc hk
  · rw [hhigh t (by omega)] at hk
    exact h0 hk.symm

theorem nodup_middle_replace {P S : List (ℕ × ℕ)} {a b : ℕ × ℕ}
    (h : ((P ++ [a] ++ S).map Prod.fst).Nodup)
    (hb : b.1 ∉ (P ++ [a] ++ S).map Prod.fst) :
    ((P ++ [b] ++ S).map Prod.fst).Nodup := by
  have hperm1 : List.Perm (P ++ [a] ++ S) (a :: (P ++ S)) := by
    rw [List.append_assoc]
    exact List.perm_middle
  have hperm2 : List.Perm (P ++ [b] ++ S) (b :: (P ++ S)) := by
    rw [List.append_assoc]
    exact List.perm_middle
  have h1 : (a.1 :: (P ++ S).map Prod.fst).Nodup := by
    have := (hperm1.map Prod.fst).nodup_iff.mp h
    simpa using this
  have hb1 : b.1 ∉ (P ++ S).map Prod.fst := by
    intro hc
    apply hb
    apply (hperm1.map Prod.fst).mem_iff.mpr
    simp only [List.map_cons, List.mem_cons]
    exact Or.inr hc
  apply (hperm2.map Prod.fst).nodup_iff.mpr
  simp only [List.map_cons, List.nodup_cons]
  exact ⟨hb1, h1.of_cons⟩

theorem optPair_of_occ {A : List ℕ} {s : ℕ} (h : slotKey A s ≠ 0) :
    optPair A s = some (slotKey A s, slotVal A s) := by
  unfold optPair
  rw [if_neg h]

theorem optPair_of_free {A : List ℕ} {s : ℕ} (h : slotKey A s = 0) :
    optPair A s = none := by
  unfold optPair
  rw [if_pos h]

theorem livePairsL_updSlot {A : List ℕ} {s : ℕ} (hsl : 2 * s + 1 < A.length)
    (k v : ℕ) :
    ∃ P S, livePairsL A = P ++ (optPair A s).toList ++ S ∧
      livePairsL (updSlot A s k v)
        = P ++ (optPair (updSlot A s k v) s).toList ++ S := by
  have hsn : s < A.length / 2 := by omega
  obtain ⟨P, S, h1, h2⟩ := livePairsL_split hsn
  refine ⟨P, S, h1, h2 _ (length_updSlot A s k v) ?_⟩
  intro t ht
  exact ⟨by rw [slotKey_updSlot A k v t hsl, if_neg ht],
    by rw [slotVal_updSlot A k v t hsl, if_neg ht]⟩

theorem optPair_updSlot {A : List ℕ} {s : ℕ} (k v : ℕ)
    (hsl : 2 * s + 1 < A.length) :
    optPair (updSlot A s k v) s = if k = 0 then none else some (k, v) := by
  unfold optPair
  rw [slotKey_updSlot A k v s hsl, if_pos rfl, slotVal_updSlot A k v s hsl,
    if_pos rfl]

/-- Robin Hood insertion of an absent key: the probe loop deposits the
carried pair into a free slot, possibly displacing richer occupants on the
way; the resulting array holds exactly the old pairs plus the new one and
satisfies the Robin Hood invariant again.  The hypotheses are the loop
invariant of the insertion walk. -/
theorem storeLoop_insert {c : ℕ} (hc : c + 1 ≤ 32) (hc2 : 1 ≤ c) {g : ℕ}
    (hg : g < 2 ^ c) :
    ∀ fuel (A : List ℕ) (x w s dist : ℕ),
      2 ^ (c + 1) ≤ A.length →
      (∀ y ∈ A, y < 2 ^ 32) →
      x ≠ 0 → x < 2 ^ 32 → w < 2 ^ 32 →
      (∀ t, 2 ^ c ≤ t → slotKey A t = 0) →
      ((livePairsL A).map Prod.fst).Nodup →
      (∀ t, t < 2 ^ c → slotKey A t ≠ x) →
      rhInv c A →
      slotKey A g = 0 →
      s < 2 ^ c →
      dist = cdist (2 ^ c) (home c x) s →
      (0 < dist → slotKey A ((s + 2 ^ c - 1) % 2 ^ c) ≠ 0 ∧
        dist - 1 ≤ disp c A ((s + 2 ^ c - 1) % 2 ^ c)) →
      cdist (2 ^ c) s g + 1 ≤ fuel →
      ∃ A', storeLoop (2 ^ c - 1) (2 ^ (c + 1) - 1) fuel A x w (2 * s) dist
          = some (.placed A') ∧
        A'.length = A.length ∧
        (∀ y ∈ A', y < 2 ^ 32) ∧
        (∀ t, 2 ^ c ≤ t → slotKey A' t = 0) ∧
        List.Perm (livePairsL A') ((x, w) :: livePairsL A) ∧
        rhInv c A' := by
  intro fuel
  induction fuel with
  | zero =>
    intro A x w s dist _ _ _ _ _ _ _ _ _ _ _ _ _ hf
    omega
  | succ fuel ih =>
    intro A x w s dist hlen hbound hx0 hxlt hwlt hhigh hnodup habs hrh hgfree
      hs hdist hpred hf
    have hcap : 0 < 2 ^ c := Nat.pos_pow_of_pos c (by norm_num)
    have hsl : 2 * s + 1 < A.length := by
      have : 2 * s + 1 < 2 ^ (c + 1) := by rw [pow_succ]; omega
      omega
    rw [storeLoop_succ hc A hs fuel x w dist]
    by_cases hfree : slotKey A s = 0
    · -- deposit into the free slot
      rw [if_pos hfree]
      obtain ⟨P, S, hPS1, hPS2⟩ := livePairsL_updSlot hsl x w
      rw [optPair_of_free hfree] at hPS1
      rw [optPair_updSlot x w hsl, if_neg hx0] at hPS2
      refine ⟨updSlot A s x w, rfl, length_updSlot A s x w, ?_, ?_, ?_, ?_⟩
      · intro y hy
        rcases mem_updSlot hy with h | h | h
        · exact hbound y h
        · omega
        · omega
      · intro t ht
        rw [slotKey_updSlot A x w t hsl, if_neg (by omega)]
        exact hhigh t ht
      · rw [hPS2, hPS1]
        simp only [Option.toList, List.nil_append, List.append_nil]
        rw [List.append_assoc]
        exact List.perm_middle
      · exact rhInv_update hc2 hrh hs (by omega) hx0 hdist hpred (Or.inl hfree)
    · rw [if_neg hfree, if_neg (habs s hs)]
      have hocc := hfree
      have hsg : s ≠ g := fun h => hocc (h ▸ hgfree)
      have hcd_pos : 0 < cdist (2 ^ c) s g := by
        rcases Nat.eq_zero_or_pos (cdist (2 ^ c) s g) with h | h
        · exact absurd ((cdist_eq_zero_iff hs hg).mp h) hsg
        · exact h
      have hcd_step : cdist (2 ^ c) ((s + 1) % 2 ^ c) g
          = cdist (2 ^ c) s g - 1 := cdist_succ_left hs hg hsg
      have hs1 : (s + 1) % 2 ^ c < 2 ^ c := Nat.mod_lt _ hcap
      have hdisp_bound : disp c A s + 2 ≤ 2 ^ c :=
        disp_le_of_free hrh hg hgfree hs hocc
      have hpred_s1 : ((s + 1) % 2 ^ c + 2 ^ c - 1) % 2 ^ c = s := by
        have := pred_of_add (h := s) (j := 1) hcap (le_refl 1)
        simpa [Nat.mod_eq_of_lt hs] using this
      by_cases hsw : disp c A s < dist
      · -- steal the slot, carry the displaced occupant forward
        rw [if_pos hsw]
        obtain ⟨P, S, hPS1, hPS2⟩ := livePairsL_updSlot hsl x w
        rw [optPair_of_occ hocc] at hPS1
        rw [optPair_updSlot x w hsl, if_neg hx0] at hPS2
        have hxfresh : x ∉ (livePairsL A).map Prod.fst :=
          key_not_mem_fst hx0 habs hhigh
        have hnodup1 : ((livePairsL (updSlot A s x w)).map Prod.fst).Nodup := by
          rw [hPS2]
          rw [hPS1] at hnodup hxfresh
          exact nodup_middle_replace hnodup hxfresh
        have hx1 : slotKey A s < 2 ^ 32 := hbound _ (slotKey_mem (by omega))
        have hw1 : slotVal A s < 2 ^ 32 := hbound _ (slotVal_mem hsl)
        have hKs : slotKey (updSlot A s x w) s = x := by
          rw [slotKey_updSlot A x w s hsl, if_pos rfl]
        have habs1 : ∀ t, t < 2 ^ c → slotKey (updSlot A s x w) t ≠ slotKey A s := by
          intro t ht
          rw [slotKey_updSlot A x w t hsl]
          by_cases hts : t = s
          · rw [if_pos hts]
            exact fun h => habs s hs h.symm
          · rw [if_neg hts]
            intro h
            exact hts (slot_uniq hnodup (by omega) (by omega) h
              (by rw [h]; exact hocc))
        have hdist1 : disp c A s + 1
            = cdist (2 ^ c) (home c (slotKey A s)) ((s + 1) % 2 ^ c) := by
          rw [cdist_succ_of_lt (home_lt _ _) hs (by
            have : disp c A s = cdist (2 ^ c) (home c (slotKey A s)) s := rfl
            omega)]
          rfl
        have hpred1 : 0 < disp c A s + 1 →
            slotKey (updSlot A s x w) (((s + 1) % 2 ^ c + 2 ^ c - 1) % 2 ^ c) ≠ 0 ∧
            disp c A s + 1 - 1
              ≤ disp c (updSlot A s x w) (((s + 1) % 2 ^ c + 2 ^ c - 1) % 2 ^ c) := by
          intro _
          rw [hpred_s1, hKs]
          refine ⟨hx0, ?_⟩
          have : disp c (updSlot A s x w) s = dist := by
            unfold disp
            rw [hKs, hdist]
          rw [this]
          omega
        obtain ⟨A', hloop, hlen', hbound', hhigh', hperm', hrh'⟩ :=
          ih (updSlot A s x w) (slotKey A s) (slotVal A s) ((s + 1) % 2 ^ c)
            (disp c A s + 1)
            (by rw [length_updSlot]; exact hlen)
            (by
              intro y hy
              rcases mem_updSlot hy with h | h | h
              · exact hbound y h
              · omega
              · omega)
            hocc hx1 hw1
            (by
              intro t ht
              rw [slotKey_updSlot A x w t hsl, if_neg (by omega)]
              exact hhigh t ht)
            hnodup1 habs1
            (rhInv_update hc2 hrh hs (by omega) hx0 hdist hpred (Or.inr hsw))
            (by
              rw [slotKey_updSlot A x w g hsl, if_neg (Ne.symm hsg)]
              exact hgfree)
            hs1 hdist1 hpred1
            (by omega)
        refine ⟨A', hloop, by rw [hlen', length_updSlot], hbound', hhigh', ?_, hrh'⟩
        -- pair bookkeeping: the incoming pair settles, the displaced one moves on
        have p1 : List.Perm (livePairsL (updSlot A s x w)) ((x, w) :: (P ++ S)) := by
          rw [hPS2, List.append_assoc]
          exact List.perm_middle
        have p2 : List.Perm ((slotKey A s, slotVal A s) :: (P ++ S)) (livePairsL A) := by
          rw [hPS1, List.append_assoc]
          exact List.perm_middle.symm
        exact hperm'.trans ((p1.cons (slotKey A s, slotVal A s)).trans
          ((List.Perm.swap (x, w) (slotKey A s, slotVal A s) (P ++ S)).trans
            (p2.cons (x, w))))
      · -- keep probing: the occupant is at least as displaced
        rw [if_neg hsw]
        have hdist1 : dist + 1 = cdist (2 ^ c) (home c x) ((s + 1) % 2 ^ c) := by
          rw [cdist_succ_of_lt (home_lt _ _) hs (by
            have hds : disp c A s = cdist (2 ^ c) (home c (slotKey A s)) s := rfl
            omega), hdist]
        have hpred1 : 0 < dist + 1 →
            slotKey A (((s + 1) % 2 ^ c + 2 ^ c - 1) % 2 ^ c) ≠ 0 ∧
            dist + 1 - 1 ≤ disp c A (((s + 1) % 2 ^ c + 2 ^ c - 1) % 2 ^ c) := by
          intro _
          rw [hpred_s1]
          exact ⟨hocc, by omega⟩
        exact ih A x w ((s + 1) % 2 ^ c) (dist + 1) hlen hbound hx0 hxlt hwlt
          hhigh hnodup habs hrh hgfree hs1 hdist1 hpred1 (by omega)

theorem slotKey_setVal (A : List ℕ) (p v t : ℕ) :
    slotKey (A.set (2 * p + 1) v) t = slotKey A t := by
  unfold slotKey
  rw [List.getD_eq_getElem?_getD, List.getD_eq_getElem?_getD, List.getElem?_set,
    if_neg (by omega)]

theorem slotVal_setVal (A : List ℕ) {p : ℕ} (v t : ℕ)
    (hp : 2 * p + 1 < A.length) :
    slotVal (A.set (2 * p + 1) v) t = if t = p then v else slotVal A t := by
  unfold slotVal
  rw [List.getD_eq_getElem?_getD, List.getD_eq_getElem?_getD, List.getElem?_set]
  by_cases h : t = p
  · subst h
    rw [if_pos rfl, if_pos hp, if_pos rfl]
    rfl
  · rw [if_neg (by omega), if_neg h]

/-- Storing a key already present reaches its slot and overwrites only the
value, exactly as Load reaches it. -/
theorem storeLoop_overwrite {c : ℕ} (hc : c + 1 ≤ 32) {A : List ℕ} {key : ℕ}
    (hrh : rhInv c A) {p : ℕ} (hp : p < 2 ^ c) (hkp : slotKey A p = key)
    (hkey0 : key ≠ 0)
    (huniq : ∀ t < 2 ^ c, slotKey A t = key → t = p) (val : ℕ) :
    ∀ fuel j, j ≤ disp c A p → disp c A p - j + 1 ≤ fuel →
      storeLoop (2 ^ c - 1) (2 ^ (c + 1) - 1) fuel A key val
        (2 * ((home c key + j) % 2 ^ c)) j
        = some (.updated (A.set (2 * p + 1) val)) := by
  have hcap : 0 < 2 ^ c := Nat.pos_pow_of_pos c (by norm_num)
  have hhome : home c key < 2 ^ c := home_lt _ _
  intro fuel
  induction fuel with
  | zero => intro j _ hf; omega
  | succ fuel ih =>
    intro j hj hf
    have hq : (home c key + j) % 2 ^ c < 2 ^ c := Nat.mod_lt _ hcap
    have hchain := rh_chain hrh hp (hkp ▸ hkey0) (disp c A p - j) (by omega)
    rw [hkp] at hchain
    have hjj : disp c A p - (disp c A p - j) = j := by omega
    rw [hjj] at hchain
    rw [storeLoop_succ hc A hq fuel key val j]
    rw [if_neg hchain.1]
    by_cases heq : slotKey A ((home c key + j) % 2 ^ c) = key
    · rw [if_pos heq]
      have hqp : (home c key + j) % 2 ^ c = p := huniq _ hq heq
      rw [hqp]
    · rw [if_neg heq, if_neg (by omega)]
      have hdisp : disp c A p = cdist (2 ^ c) (home c key) p := by
        unfold disp
        rw [hkp]
      have hjd : j ≠ disp c A p := by
        intro h
        apply heq
        rw [h, hdisp, add_cdist hhome hp, hkp]
      have hnext : ((home c key + j) % 2 ^ c + 1) % 2 ^ c
          = (home c key + (j + 1)) % 2 ^ c := by
        rw [Nat.mod_add_mod]
        congr 1
      rw [hnext]
      exact ih (j + 1) (by omega) (by omega)

theorem slotKey_lt {A : List ℕ} (hbound : ∀ y ∈ A, y < 2 ^ 32) (t : ℕ) :
    slotKey A t < 2 ^ 32 := by
  by_cases h : 2 * t < A.length
  · exact hbound _ (slotKey_mem h)
  · rw [slotKey_of_length_le (by omega)]
    positivity

theorem slotVal_lt {A : List ℕ} (hbound : ∀ y ∈ A, y < 2 ^ 32) (t : ℕ) :
    slotVal A t < 2 ^ 32 := by
  by_cases h : 2 * t + 1 < A.length
  · exact hbound _ (slotVal_mem h)
  · unfold slotVal
    rw [List.getD_eq_getElem?_getD, List.getElem?_eq_none (by omega)]
    positivity

theorem slotKey_replicate (n t : ℕ) : slotKey (List.replicate n 0) t = 0 := by
  unfold slotKey
  rw [List.getD_eq_getElem?_getD]
  by_cases h : 2 * t < n
  · rw [List.getElem?_eq_getElem (by simpa using h)]
    simp
  · rw [List.getElem?_eq_none (by simpa using h)]
    rfl

theorem livePairsL_replicate (n : ℕ) : livePairsL (List.replicate n 0) = [] := by
  rw [livePairsL_eq, List.filterMap_eq_nil_iff]
  intro s _
  rw [optPair_of_free (slotKey_replicate n s)]

theorem rhInv_replicate (c n : ℕ) : rhInv c (List.replicate n 0) := by
  intro s _ hocc _
  exact absurd (slotKey_replicate n s) hocc

/-- The state passed to rehash: well-formed except that the count may have
just reached (or exceeded by the new entry) the threshold. -/
structure WFpre (m : Map) (c b : ℕ) : Prop where
  hc3 : 3 ≤ c
  hcb : c + 1 + b ≤ 32
  hmask0 : m.mask0 = 2 ^ c - 1
  hmask1 : m.mask1 = 2 ^ (c + 1) - 1
  hlen : m.data.length = 2 ^ (c + 1 + b)
  hbound : ∀ x ∈ m.data, x < 2 ^ 32
  hhigh : ∀ s, 2 ^ c ≤ s → slotKey m.data s = 0
  hnodup : ((livePairsL m.data).map Prod.fst).Nodup
  hcount : m.count = ((livePairsL m.data).length : ℤ)
    + (if m.hasFreeKey then 1 else 0)
  hfreeval : m.freeVal < 2 ^ 32
  hfill0 : 0 < m.fillFactor
  hfill1 : m.fillFactor < 1
  hfillcap : 1 ≤ (2 ^ c : ℚ) * m.fillFactor
  hthr1 : 1 ≤ m.threshold
  hthrcap : m.threshold < (2 ^ c : ℤ)
  hrh : rhInv c m.data

/-- Everything a successful Store of a nonzero key guarantees: scalar flags
survive; an absent key is added (resizing exactly when the incremented count
reaches the threshold); a present key has only its value replaced, with no
structural change. -/
def StoreConcl (m : Map) (c b : ℕ) (key val : ℕ) (m' : Map) : Prop :=
  m'.fillFactor = m.fillFactor ∧ m'.hasFreeKey = m.hasFreeKey ∧
  m'.freeVal = m.freeVal ∧
  ((∀ v, (key, v) ∉ livePairsL m.data) →
    List.Perm (livePairsL m'.data) ((key, val) :: livePairsL m.data) ∧
    m'.count = m.count + 1 ∧
    (m.count + 1 < m.threshold →
      WFc m' c b ∧ m'.data.length = m.data.length ∧ m'.mask0 = m.mask0 ∧
      m'.mask1 = m.mask1 ∧ m'.threshold = m.threshold) ∧
    (m.threshold ≤ m.count + 1 →
      2 * m.data.length ≤ m'.data.length ∧
      ∃ c', WFc m' c' 0 ∧ m'.count < m'.threshold)) ∧
  (∀ v₀, (key, v₀) ∈ livePairsL m.data →
    ∃ rest, List.Perm (livePairsL m.data) ((key, v₀) :: rest) ∧
      List.Perm (livePairsL m'.data) ((key, val) :: rest) ∧
      m'.count = m.count ∧ WFc m' c b ∧ m'.data.length = m.data.length ∧
      m'.mask0 = m.mask0 ∧ m'.mask1 = m.mask1 ∧ m'.threshold = m.threshold)

/-- The reinsertion fold of rehash: starting from a strictly under-threshold
accumulator, reinserting pairwise-distinct keys absent from it keeps the
table well-formed (a nested resize included), adds exactly the live pairs of
the processed slots, and ends strictly under threshold again. -/
theorem reinsert_go (fuel : ℕ)
    (IH : ∀ {m : Map} {c b : ℕ} {key val : ℕ} {m' : Map}, WFc m c b → key ≠ 0 →
      key < 2 ^ 32 → val < 2 ^ 32 → storeFuel fuel m key val = some m' →
      StoreConcl m c b key val m')
    (old : List ℕ) (hboundOld : ∀ y ∈ old, y < 2 ^ 32) :
    ∀ ts : List ℕ, ∀ mAcc : Map, ∀ c2 : ℕ,
      WFc mAcc c2 0 →
      mAcc.count < mAcc.threshold →
      (∀ t ∈ ts, slotKey old t ≠ 0 →
        ∀ v, (slotKey old t, v) ∉ livePairsL mAcc.data) →
      List.Pairwise
        (fun t1 t2 => slotKey old t1 ≠ 0 → slotKey old t1 ≠ slotKey old t2) ts →
      ∀ mOut, reinsertList (storeFuel fuel) old (ts.map (2 * ·)) mAcc = some mOut →
        ∃ c2', WFc mOut c2' 0 ∧ mOut.count < mOut.threshold ∧
          List.Perm (livePairsL mOut.data)
            (ts.filterMap (optPair old) ++ livePairsL mAcc.data) ∧
          mOut.count = mAcc.count + ((ts.filterMap (optPair old)).length : ℤ) ∧
          mOut.fillFactor = mAcc.fillFactor ∧
          mOut.hasFreeKey = mAcc.hasFreeKey ∧ mOut.freeVal = mAcc.freeVal ∧
          mAcc.data.length ≤ mOut.data.length := by
  intro ts
  induction ts with
  | nil =>
    intro mAcc c2 hWF hstrict _ _ mOut hrun
    simp only [List.map_nil, reinsertList] at hrun
    cases hrun
    exact ⟨c2, hWF, hstrict, by simp, by simp, rfl, rfl, rfl, le_refl _⟩
  | cons t ts' ihts =>
    intro mAcc c2 hWF hstrict hdisj hpair mOut hrun
    simp only [List.map_cons] at hrun
    rw [reinsertList] at hrun
    have hkey_eq : old.getD (2 * t) 0 = slotKey old t := rfl
    have hval_eq : old.getD (2 * t + 1) 0 = slotVal old t := rfl
    by_cases hocc : slotKey old t = 0
    · rw [if_neg (show ¬old.getD (2 * t) 0 ≠ isFreeKey by
        rw [hkey_eq, hocc]; simp [isFreeKey])] at hrun
      obtain ⟨c2', h1, h2, h3, h4, h5, h6, h7, h8⟩ :=
        ihts mAcc c2 hWF hstrict (fun t' ht' => hdisj t' (by simp [ht']))
          hpair.of_cons mOut hrun
      rw [filterMap_cons_toList, optPair_of_free hocc]
      exact ⟨c2', h1, h2, h3, h4, h5, h6, h7, h8⟩
    · rw [if_pos (show old.getD (2 * t) 0 ≠ isFreeKey by
        rw [hkey_eq]; simpa [isFreeKey] using hocc)] at hrun
      rcases hstore : storeFuel fuel mAcc (old.getD (2 * t) 0)
          (old.getD (2 * t + 1) 0) with _ | mNext
      · rw [hstore] at hrun
        cases hrun
      · rw [hstore] at hrun
        rw [hkey_eq, hval_eq] at hstore
        have hconcl := IH hWF hocc (slotKey_lt hboundOld t) (slotVal_lt hboundOld t)
          hstore
        obtain ⟨hfill, hfree, hfval, habsC, -⟩ := hconcl
        have habsAcc : ∀ v, (slotKey old t, v) ∉ livePairsL mAcc.data :=
          hdisj t (by simp) hocc
        obtain ⟨hperm1, hcount1, hnores, hres⟩ := habsC habsAcc
        have hnext : ∃ c3, WFc mNext c3 0 ∧ mNext.count < mNext.threshold ∧
            mAcc.data.length ≤ mNext.data.length := by
          by_cases htrig : mAcc.count + 1 < mAcc.threshold
          · obtain ⟨hWF', hlen', -, -, hthr'⟩ := hnores htrig
            exact ⟨c2, hWF', by omega, by omega⟩
          · obtain ⟨hlen', c', hWF', hstrict'⟩ := hres (by omega)
            exact ⟨c', hWF', hstrict', by omega⟩
        obtain ⟨c3, hWF3, hstrict3, hlen3⟩ := hnext
        have hdisj' : ∀ t' ∈ ts', slotKey old t' ≠ 0 →
            ∀ v, (slotKey old t', v) ∉ livePairsL mNext.data := by
          intro t' ht' h0' v hmem'
          have := hperm1.mem_iff.mp hmem'
          rcases List.mem_cons.mp this with h | h
          · have hne := (List.pairwise_cons.mp hpair).1 t' ht' hocc
            exact hne (by injection h with h1 _; exact h1.symm)
          · exact hdisj t' (by simp [ht']) h0' v h
        obtain ⟨c2', h1, h2, h3, h4, h5, h6, h7, h8⟩ :=
          ihts mNext c3 hWF3 hstrict3 hdisj' hpair.of_cons mOut hrun
        refine ⟨c2', h1, h2, ?_, ?_, by rw [h5, hfill], by rw [h6, hfree],
          by rw [h7, hfval], by omega⟩
        · rw [filterMap_cons_toList, optPair_of_occ hocc]
          simp only [Option.toList]
          have hstep : List.Perm
              (ts'.filterMap (optPair old) ++ livePairsL mNext.data)
              (ts'.filterMap (optPair old)
                ++ ((slotKey old t, slotVal old t) :: livePairsL mAcc.data)) :=
            List.Perm.append_left _ hperm1
          have hmid : List.Perm
              (ts'.filterMap (optPair old)
                ++ ((slotKey old t, slotVal old t) :: livePairsL mAcc.data))
              ((slotKey old t, slotVal old t)
                :: (ts'.filterMap (optPair old) ++ livePairsL mAcc.data)) :=
            List.perm_middle
          exact h3.trans (hstep.trans hmid)
        · rw [filterMap_cons_toList, optPair_of_occ hocc]
          simp only [Option.toList, List.length_append, List.length_cons,
            List.length_nil]
          rw [h4, hcount1]
          push_cast
          ring

/-- Specification of rehash: on success the capacity at least doubles, every
live pair survives, count and all scalar flags are preserved, and the result
is well-formed strictly below its new threshold. -/
theorem rehash_spec (fuel : ℕ)
    (IH : ∀ {m : Map} {c b : ℕ} {key val : ℕ} {m' : Map}, WFc m c b → key ≠ 0 →
      key < 2 ^ 32 → val < 2 ^ 32 → storeFuel fuel m key val = some m' →
      StoreConcl m c b key val m') :
    ∀ {mIn : Map} {c b : ℕ} {mOut : Map}, WFpre mIn c b →
      rehashStep (storeFuel fuel) mIn = some mOut →
      List.Perm (livePairsL mOut.data) (livePairsL mIn.data) ∧
      mOut.count = mIn.count ∧ mOut.fillFactor = mIn.fillFactor ∧
      mOut.hasFreeKey = mIn.hasFreeKey ∧ mOut.freeVal = mIn.freeVal ∧
      2 * mIn.data.length ≤ mOut.data.length ∧
      ∃ c', WFc mOut c' 0 ∧ mOut.count < mOut.threshold := by
  intro mIn c b mOut hpre hrun
  unfold rehashStep at hrun
  by_cases hg : mIn.data.length ≥ (2 ^ 31 - 1) / 2
  · rw [if_pos hg] at hrun
    cases hrun
  · rw [if_neg hg] at hrun
    have hlen2 : mIn.data.length * 2 / 2 = mIn.data.length := by omega
    have hcexp : c + 1 + b ≤ 29 := by
      have h1 : mIn.data.length < 2 ^ 30 - 1 := by
        have : ((2 : ℕ) ^ 31 - 1) / 2 = 2 ^ 30 - 1 := by norm_num
        omega
      rw [hpre.hlen] at h1
      by_contra hcon
      have : (2 : ℕ) ^ 30 ≤ 2 ^ (c + 1 + b) :=
        Nat.pow_le_pow_right (by norm_num) (by omega)
      omega
    have hcast : ((mIn.data.length * 2 / 2 : ℕ) : ℚ)
        = ((2 : ℚ) ^ (c + 1 + b)) := by
      rw [hlen2, hpre.hlen]
      push_cast
      ring
    have hfc : (1 : ℚ) ≤ (2 : ℚ) ^ c * mIn.fillFactor := hpre.hfillcap
    have hpow_le : ((2 : ℚ) ^ c) ≤ (2 : ℚ) ^ (c + 1 + b) :=
      pow_le_pow_right₀ (by norm_num) (by omega)
    have hfc1 : (2 : ℚ) ≤ (2 : ℚ) ^ (c + 1 + b) * mIn.fillFactor := by
      have h2 : ((2 : ℚ) ^ (c + 1)) ≤ (2 : ℚ) ^ (c + 1 + b) :=
        pow_le_pow_right₀ (by norm_num) (by omega)
      have h3 : (2 : ℚ) * ((2 : ℚ) ^ c * mIn.fillFactor)
          = (2 : ℚ) ^ (c + 1) * mIn.fillFactor := by ring
      have h4 : (2 : ℚ) * 1 ≤ (2 : ℚ) * ((2 : ℚ) ^ c * mIn.fillFactor) := by
        have := hfc
        nlinarith
      have h5 : (2 : ℚ) ^ (c + 1) * mIn.fillFactor
          ≤ (2 : ℚ) ^ (c + 1 + b) * mIn.fillFactor := by
        have := hpre.hfill0
        nlinarith
      nlinarith
    have hthr2 : (2 : ℤ) ≤ ⌊((mIn.data.length * 2 / 2 : ℕ) : ℚ) * mIn.fillFactor⌋ := by
      rw [Int.le_floor, hcast]
      push_cast
      exact hfc1
    have hWF1 : WFc { mIn with
        data := List.replicate (mIn.data.length * 2) 0
        mask0 := mIn.data.length * 2 / 2 - 1
        mask1 := mIn.data.length * 2 - 1
        threshold := ⌊((mIn.data.length * 2 / 2 : ℕ) : ℚ) * mIn.fillFactor⌋
        count := if mIn.hasFreeKey then 1 else 0 } (c + 1 + b) 0 := by
      constructor
      · have := hpre.hc3
        omega
      · omega
      · simp [hlen2, hpre.hlen]
      · simp [hpre.hlen]
        rw [show (2 : ℕ) ^ (c + 1 + b) * 2 = 2 ^ (c + 1 + b + 1) by
          rw [pow_succ]]
      · simp [hpre.hlen]
        rw [show (2 : ℕ) ^ (c + 1 + b) * 2 = 2 ^ (c + 1 + b + 1) by
          rw [pow_succ]]
      · intro x hx
        rw [List.eq_of_mem_replicate hx]
        positivity
      · intro s _
        exact slotKey_replicate _ s
      · simp [livePairsL_replicate]
      · simp [livePairsL_replicate]
      · exact hpre.hfreeval
      · exact hpre.hfill0
      · exact hpre.hfill1
      · simp only
        calc (1 : ℚ) ≤ (2 : ℚ) ^ c * mIn.fillFactor := hfc
        _ ≤ (2 : ℚ) ^ (c + 1 + b) * mIn.fillFactor := by
          have := hpre.hfill0
          nlinarith
      · simp only
        omega
      · simp only
        rw [Int.floor_lt, hcast]
        have h0 : (0 : ℚ) < (2 : ℚ) ^ (c + 1 + b) := by positivity
        have := hpre.hfill1
        push_cast
        nlinarith
      · simp only
        split <;> omega
      · intro h
        simp only at h ⊢
        split <;> omega
      · exact rhInv_replicate _ _
    have hstrict1 : ((if mIn.hasFreeKey then 1 else 0 : ℤ))
        < ⌊((mIn.data.length * 2 / 2 : ℕ) : ℚ) * mIn.fillFactor⌋ := by
      split <;> omega
    obtain ⟨c2', hWFout, hstrictOut, hperm, hcount, hfill, hfree, hfval, hlenle⟩ :=
      reinsert_go fuel IH mIn.data hpre.hbound
        (List.range (mIn.data.length / 2)) _ (c + 1 + b) hWF1 hstrict1
        (by
          intro t _ _ v hv
          rw [livePairsL_replicate] at hv
          exact List.not_mem_nil _ hv)
        (by
          apply List.Pairwise.imp_of_mem ?_ (List.pairwise_lt_range _)
          intro t1 t2 ht1 ht2 hlt h0 heq
          have h1 : t1 < mIn.data.length / 2 := List.mem_range.mp ht1
          have h2 : t2 < mIn.data.length / 2 := List.mem_range.mp ht2
          exact absurd (slot_uniq hpre.hnodup h1 h2 heq h0) (by omega))
        mOut hrun
    have hfmap : (List.range (mIn.data.length / 2)).filterMap (optPair mIn.data)
        = livePairsL mIn.data := (livePairsL_eq mIn.data).symm
    refine ⟨?_, ?_, hfill, hfree, hfval, ?_, c2', hWFout, hstrictOut⟩
    · rw [hfmap] at hperm
      simpa [livePairsL_replicate] using hperm
    · rw [hfmap] at hcount
      have hc := hpre.hcount
      simp only [livePairsL_replicate, List.length_nil] at hcount
      omega
    · have : (List.replicate (mIn.data.length * 2) (0 : ℕ)).length
          = mIn.data.length * 2 := List.length_replicate _ _
      simp only [this] at hlenle
      omega

theorem rhInv_congr {c : ℕ} {A A' : List ℕ}
    (h : ∀ t, slotKey A' t = slotKey A t) (hrh : rhInv c A) : rhInv c A' := by
  intro s hs hocc hdisp
  have hd : ∀ t, disp c A' t = disp c A t := by
    intro t
    unfold disp
    rw [h t]
  rw [h s] at hocc
  rw [hd s] at hdisp
  have := hrh s hs hocc hdisp
  rw [h ((s + 2 ^ c - 1) % 2 ^ c), hd ((s + 2 ^ c - 1) % 2 ^ c), hd s]
  exact this

theorem nodup_cons_of_perm {l l' : List (ℕ × ℕ)} {a : ℕ × ℕ}
    (hperm : List.Perm l' (a :: l)) (hnodup : (l.map Prod.fst).Nodup)
    (hfresh : a.1 ∉ l.map Prod.fst) : (l'.map Prod.fst).Nodup := by
  apply (hperm.map Prod.fst).nodup_iff.mpr
  simp only [List.map_cons, List.nodup_cons]
  exact ⟨hfresh, hnodup⟩

/-- The full specification of Store on a nonzero key, at any rehash fuel. -/
theorem storeFuel_spec : ∀ fuel : ℕ, ∀ {m : Map} {c b : ℕ} {key val : ℕ}
    {m' : Map}, WFc m c b → key ≠ 0 → key < 2 ^ 32 → val < 2 ^ 32 →
    storeFuel fuel m key val = some m' → StoreConcl m c b key val m' := by
  intro fuel
  induction fuel with
  | zero =>
    intro m c b key val m' _ _ _ _ h
    simp only [storeFuel] at h
    cases h
  | succ fuel ih =>
    intro m c b key val m' hWF hk0 hklt hvlt hrun
    have hkey0' : ¬(key = isFreeKey) := by simpa [isFreeKey] using hk0
    have hcap : 0 < 2 ^ c := Nat.pos_pow_of_pos c (by norm_num)
    have hc2 : 1 ≤ c := by have := hWF.hc3; omega
    have hlenc : 2 ^ (c + 1) ≤ m.data.length := by
      rw [hWF.hlen]
      exact Nat.pow_le_pow_right (by norm_num) (by omega)
    have hhalf : 2 ^ c ≤ m.data.length / 2 := hWF.cap_le_half
    simp only [storeFuel] at hrun
    rw [if_neg hkey0'] at hrun
    by_cases hex : ∃ p, p < 2 ^ c ∧ slotKey m.data p = key
    · -- key present: the loop overwrites the value in place
      obtain ⟨p, hpc, hkp⟩ := hex
      have hpl : p < m.data.length / 2 := by omega
      have huniq : ∀ t < 2 ^ c, slotKey m.data t = key → t = p := by
        intro t ht hkt
        exact slot_uniq hWF.hnodup (by omega) hpl (hkt.trans hkp.symm)
          (hkt ▸ hk0)
      have hdlt : disp c m.data p < 2 ^ c := cdist_lt hcap _ _
      have hloopEq' : storeLoop m.mask0 m.mask1 (m.data.length + 1) m.data key
          val (bucketOf key m.mask0) 0
          = some (.updated (m.data.set (2 * p + 1) val)) := by
        rw [hWF.hmask0, hWF.hmask1, bucketOf_eq hWF.hc32,
          show 2 * home c key = 2 * ((home c key + 0) % 2 ^ c) by
            rw [Nat.add_zero, Nat.mod_eq_of_lt (home_lt _ _)]]
        exact storeLoop_overwrite hWF.hc32 hWF.hrh hpc hkp hk0 huniq val
          (m.data.length + 1) 0 (by omega) (by omega)
      rw [hloopEq'] at hrun
      have hrun2 : some { m with data := m.data.set (2 * p + 1) val } = some m' :=
        hrun
      have hm' : m' = { m with data := m.data.set (2 * p + 1) val } := by
        injection hrun2 with h
        exact h.symm
      have hsl : 2 * p + 1 < m.data.length := hWF.slot_in_range hpc
      obtain ⟨P, S, hPS1, hPSB⟩ := livePairsL_split hpl
      have hPS2 := hPSB (m.data.set (2 * p + 1) val) (List.length_set ..)
        (by
          intro t ht
          exact ⟨slotKey_setVal m.data p val t,
            by rw [slotVal_setVal m.data val t hsl, if_neg ht]⟩)
      rw [optPair_of_occ (hkp ▸ hk0)] at hPS1
      have hpv : optPair (m.data.set (2 * p + 1) val) p = some (key, val) := by
        unfold optPair
        rw [slotKey_setVal m.data p val p, hkp, if_neg hk0,
          slotVal_setVal m.data val p hsl, if_pos rfl]
      rw [hpv] at hPS2
      rw [hkp] at hPS1
      refine ⟨by rw [hm'], by rw [hm'], by rw [hm'], ?_, ?_⟩
      · intro habs
        exact absurd (mem_livePairsL.mpr ⟨p, hpl, hkp, rfl, hk0⟩)
          (habs (slotVal m.data p))
      · intro v₀ hv₀
        obtain ⟨t, htl, hkt, hvt, -⟩ := mem_livePairsL.mp hv₀
        have htp : t = p := huniq t (hWF.slot_lt_cap hk0 hkt) hkt
        rw [htp] at hvt
        refine ⟨P ++ S, ?_, ?_, by rw [hm'], ?_, by rw [hm']; simp,
          by rw [hm'], by rw [hm'], by rw [hm']⟩
        · rw [hPS1, ← hvt, List.append_assoc]
          exact List.perm_middle
        · rw [hm']
          show List.Perm (livePairsL (m.data.set (2 * p + 1) val)) _
          rw [hPS2]
          simp only [Option.toList]
          rw [List.append_assoc]
          exact List.perm_middle
        · -- well-formedness after a pure value overwrite
          rw [hm']
          have hkeys : ∀ u, slotKey (m.data.set (2 * p + 1) val) u
              = slotKey m.data u := fun u => slotKey_setVal m.data p val u
          constructor
          · exact hWF.hc3
          · exact hWF.hcb
          · exact hWF.hmask0
          · exact hWF.hmask1
          · rw [List.length_set]
            exact hWF.hlen
          · intro x hx
            rcases List.mem_or_eq_of_mem_set hx with h | h
            · exact hWF.hbound x h
            · omega
          · intro u hu
            rw [hkeys u]
            exact hWF.hhigh u hu
          · rw [hPS2]
            have h1 := hWF.hnodup
            rw [hPS1] at h1
            simp only [Option.toList, List.map_append, List.map_cons] at h1 ⊢
            exact h1
          · rw [hPS2]
            have h1 := hWF.hcount
            rw [hPS1] at h1
            simp only [Option.toList, List.length_append, List.length_cons] at h1 ⊢
            exact h1
          · exact hWF.hfreeval
          · exact hWF.hfill0
          · exact hWF.hfill1
          · exact hWF.hfillcap
          · exact hWF.hthr1
          · exact hWF.hthrcap
          · exact hWF.hcnt_le
          · exact hWF.hcnt_lt
          · exact rhInv_congr hkeys hWF.hrh
    · -- key absent: the loop inserts into a free slot
      push_neg at hex
      obtain ⟨g, hg, hgfree⟩ := hWF.free_slot
      have habs : ∀ t, t < 2 ^ c → slotKey m.data t ≠ key := fun t ht => hex t ht
      obtain ⟨A', hloopEq, hlenA, hboundA, hhighA, hpermA, hrhA⟩ :=
        storeLoop_insert hWF.hc32 hc2 hg (m.data.length + 1) m.data key val
          (home c key) 0 hlenc hWF.hbound hk0 hklt hvlt hWF.hhigh hWF.hnodup
          habs hWF.hrh hgfree (home_lt _ _) (by rw [cdist_self (home_lt _ _)])
          (by omega)
          (by
            have := cdist_lt hcap (home c key) g
            omega)
      have hloopEq' : storeLoop m.mask0 m.mask1 (m.data.length + 1) m.data key
          val (bucketOf key m.mask0) 0 = some (.placed A') := by
        rw [hWF.hmask0, hWF.hmask1, bucketOf_eq hWF.hc32]
        exact hloopEq
      rw [hloopEq'] at hrun
      have hrun2 : (if m.threshold ≤ m.count + 1 then
          rehashStep (storeFuel fuel) { m with data := A', count := m.count + 1 }
        else some { m with data := A', count := m.count + 1 }) = some m' := hrun
      have hfresh : key ∉ (livePairsL m.data).map Prod.fst :=
        key_not_mem_fst hk0 habs hWF.hhigh
      have hnodupA : ((livePairsL A').map Prod.fst).Nodup :=
        nodup_cons_of_perm hpermA hWF.hnodup hfresh
      have hcountA : ((livePairsL A').length : ℤ)
          = (livePairsL m.data).length + 1 := by
        rw [hpermA.length_eq]
        simp
      have habsPairs : ∀ v, (key, v) ∉ livePairsL m.data := by
        intro v hv
        obtain ⟨t, htl, hkt, -, -⟩ := mem_livePairsL.mp hv
        exact habs t (hWF.slot_lt_cap hk0 hkt) hkt
      by_cases htrig : m.threshold ≤ m.count + 1
      · rw [if_pos htrig] at hrun2
        have hpre : WFpre { m with data := A', count := m.count + 1 } c b := by
          constructor
          · exact hWF.hc3
          · exact hWF.hcb
          · exact hWF.hmask0
          · exact hWF.hmask1
          · rw [show ({ m with data := A', count := m.count + 1 } : Map).data
              = A' from rfl]
            rw [hlenA]
            exact hWF.hlen
          · exact hboundA
          · exact hhighA
          · exact hnodupA
          · show m.count + 1
                = ((livePairsL A').length : ℤ) + (if m.hasFreeKey then 1 else 0)
            rw [hcountA]
            have := hWF.hcount
            omega
          · exact hWF.hfreeval
          · exact hWF.hfill0
          · exact hWF.hfill1
          · exact hWF.hfillcap
          · exact hWF.hthr1
          · exact hWF.hthrcap
          · exact hrhA
        obtain ⟨hpermO, hcountO, hfillO, hfreeO, hfvalO, hlenO, c', hWFO,
          hstrictO⟩ := rehash_spec fuel (fun h1 h2 h3 h4 h5 => ih h1 h2 h3 h4 h5)
            hpre hrun2
        refine ⟨hfillO, hfreeO, hfvalO, ?_, ?_⟩
        · intro _
          refine ⟨hpermO.trans hpermA, by rw [hcountO], ?_, ?_⟩
          · intro h
            omega
          · intro _
            refine ⟨by
              rw [hlenA] at hlenO
              exact hlenO, c', hWFO, hstrictO⟩
        · intro v₀ hv₀
          exact absurd hv₀ (habsPairs v₀)
      · rw [if_neg htrig] at hrun2
        have hm' : m' = { m with data := A', count := m.count + 1 } := by
          injection hrun2 with h
          exact h.symm
        refine ⟨by rw [hm'], by rw [hm'], by rw [hm'], ?_, ?_⟩
        · intro _
          refine ⟨by rw [hm']; exact hpermA, by rw [hm'], ?_, ?_⟩
          · intro _
            refine ⟨?_, by rw [hm']; exact hlenA, by rw [hm'], by rw [hm'],
              by rw [hm']⟩
            rw [hm']
            constructor
            · exact hWF.hc3
            · exact hWF.hcb
            · exact hWF.hmask0
            · exact hWF.hmask1
            · show A'.length = _
              rw [hlenA]
              exact hWF.hlen
            · exact hboundA
            · exact hhighA
            · exact hnodupA
            · show m.count + 1
                  = ((livePairsL A').length : ℤ) + (if m.hasFreeKey then 1 else 0)
              rw [hcountA]
              have := hWF.hcount
              omega
            · exact hWF.hfreeval
            · exact hWF.hfill0
            · exact hWF.hfill1
            · exact hWF.hfillcap
            · exact hWF.hthr1
            · exact hWF.hthrcap
            · show m.count + 1 ≤ m.threshold
              omega
            · intro _
              show m.count + 1 < m.threshold
              omega
            · exact hrhA
          · intro h
            exact absurd h (by omega)
        · intro v₀ hv₀
          exact absurd hv₀ (habsPairs v₀)

/-! ### Deletion: search and backward shift -/

/-- One unfolding of the Delete search loop at slot granularity. -/
theorem deleteFind_succ {c : ℕ} (A : List ℕ) (key : ℕ) {s : ℕ}
    (_ : s < 2 ^ c) (fuel : ℕ) :
    deleteFind A key (2 ^ (c + 1) - 1) (fuel + 1) (2 * s) =
      if slotKey A s = key then some (some (2 * s))
      else if slotKey A s = 0 then some none
      else deleteFind A key (2 ^ (c + 1) - 1) fuel (2 * ((s + 1) % 2 ^ c)) := by
  simp only [deleteFind, isFreeKey]
  rw [step_bridge]
  rfl

/-- One unfolding of the backward-shift loop at slot granularity. -/
theorem shiftLoop_succ {c : ℕ} (hc : c + 1 ≤ 32) (A : List ℕ) {p : ℕ}
    (_ : p < 2 ^ c) (fuel : ℕ) :
    shiftLoop (2 ^ c - 1) (2 ^ (c + 1) - 1) (fuel + 1) A (2 * p) =
      if slotKey A ((p + 1) % 2 ^ c) = 0 then some (A.set (2 * p) 0)
      else if 2 * disp c A ((p + 1) % 2 ^ c) = 0 then some (A.set (2 * p) 0)
      else shiftLoop (2 ^ c - 1) (2 ^ (c + 1) - 1) fuel
        (updSlot A p (slotKey A ((p + 1) % 2 ^ c)) (slotVal A ((p + 1) % 2 ^ c)))
        (2 * ((p + 1) % 2 ^ c)) := by
  simp only [shiftLoop, isFreeKey]
  rw [step_bridge, bucketOf_eq hc,
    shift_bridge hc (Nat.mod_lt _ (Nat.pos_pow_of_pos c (by norm_num)))
      (home_lt _ _)]
  rfl

/-- Successor of the predecessor on the slot cycle. -/
theorem succ_pred {cap t : ℕ} (hcap : 0 < cap) (ht : t < cap) :
    ((t + cap - 1) % cap + 1) % cap = t := by
  rw [Nat.mod_add_mod]
  have h1 : t + cap - 1 + 1 = t + cap := by omega
  rw [h1, Nat.add_mod_right, Nat.mod_eq_of_lt ht]

/-- Clearing a slot whose successor is free or at home preserves the Robin
Hood invariant. -/
theorem rhInv_clear {c : ℕ} {A : List ℕ} (hrh : rhInv c A) {p : ℕ}
    (hp : p < 2 ^ c) (hlen : 2 ^ (c + 1) ≤ A.length)
    (hnext : slotKey A ((p + 1) % 2 ^ c) = 0 ∨ disp c A ((p + 1) % 2 ^ c) = 0) :
    rhInv c (A.set (2 * p) 0) := by
  have hcap : 0 < 2 ^ c := Nat.pos_pow_of_pos c (by norm_num)
  have hpl : 2 * p < A.length := by
    have : 2 * p + 1 < 2 ^ (c + 1) := by rw [pow_succ]; omega
    omega
  intro t ht hocc hdisp
  have hKt := slotKey_setKey A 0 t hpl
  by_cases htp : t = p
  · rw [hKt, if_pos htp] at hocc
    exact absurd rfl hocc
  · rw [hKt, if_neg htp] at hocc
    have hdisp_t : disp c (A.set (2 * p) 0) t = disp c A t := by
      unfold disp
      rw [hKt, if_neg htp]
    rw [hdisp_t] at hdisp ⊢
    have hold := hrh t ht hocc hdisp
    by_cases hpt : (t + 2 ^ c - 1) % 2 ^ c = p
    · -- the predecessor is the cleared slot: then t is the successor of p,
      -- which the stop condition forces to be free or at home
      have htsucc : t = (p + 1) % 2 ^ c := by
        rw [← hpt, succ_pred hcap ht]
      rcases hnext with h | h
      · rw [← htsucc] at h
        exact absurd h hocc
      · rw [← htsucc] at h
        omega
    · rw [slotKey_setKey A 0 _ hpl, if_neg hpt]
      have hdp : disp c (A.set (2 * p) 0) ((t + 2 ^ c - 1) % 2 ^ c)
          = disp c A ((t + 2 ^ c - 1) % 2 ^ c) := by
        unfold disp
        rw [slotKey_setKey A 0 _ hpl, if_neg hpt]
      rw [hdp]
      exact hold

/-- Predecessor is never the slot itself on a cycle of at least two. -/
theorem pred_ne_self {cap t : ℕ} (hcap2 : 2 ≤ cap) (ht : t < cap) :
    (t + cap - 1) % cap ≠ t := by
  intro h
  have h1 : t + cap - 1 = t + (cap - 1) := by omega
  have h2 := cdist_add_mod ht (show cap - 1 < cap by omega)
  rw [← h1, h, cdist_self ht] at h2
  omega

/-- The predecessor of the successor is the slot itself. -/
theorem pred_succ {cap s : ℕ} (hcap : 0 < cap) (hs : s < cap) :
    ((s + 1) % cap + cap - 1) % cap = s := by
  have := pred_of_add (h := s) (j := 1) hcap (le_refl 1)
  simpa [Nat.mod_eq_of_lt hs] using this

/-- Shifting the successor's pair back into slot p preserves the Robin Hood
invariant (the shifted entry's displacement drops by one). -/
theorem rhInv_shift {c : ℕ} (hc2 : 1 ≤ c) {A : List ℕ} (hrh : rhInv c A)
    {p : ℕ} (hp : p < 2 ^ c) (hlen : 2 ^ (c + 1) ≤ A.length)
    (hocc : slotKey A p ≠ 0)
    (hnocc : slotKey A ((p + 1) % 2 ^ c) ≠ 0)
    (hndisp : 0 < disp c A ((p + 1) % 2 ^ c)) :
    rhInv c (updSlot A p (slotKey A ((p + 1) % 2 ^ c))
      (slotVal A ((p + 1) % 2 ^ c))) := by
  have hcap : 0 < 2 ^ c := Nat.pos_pow_of_pos c (by norm_num)
  have hcap2 : 2 ≤ 2 ^ c := by
    calc 2 = 2 ^ 1 := (pow_one 2).symm
    _ ≤ 2 ^ c := Nat.pow_le_pow_right (by norm_num) hc2
  have hs1 : (p + 1) % 2 ^ c < 2 ^ c := Nat.mod_lt _ hcap
  have hsl : 2 * p + 1 < A.length := by
    have : 2 * p + 1 < 2 ^ (c + 1) := by rw [pow_succ]; omega
    omega
  have hdnew : cdist (2 ^ c) (home c (slotKey A ((p + 1) % 2 ^ c))) p
      = disp c A ((p + 1) % 2 ^ c) - 1 :=
    cdist_pred (home_lt _ _) hp hndisp
  have hKp : slotKey (updSlot A p (slotKey A ((p + 1) % 2 ^ c))
      (slotVal A ((p + 1) % 2 ^ c))) p = slotKey A ((p + 1) % 2 ^ c) := by
    rw [slotKey_updSlot A _ _ p hsl, if_pos rfl]
  have hdisp_p : disp c (updSlot A p (slotKey A ((p + 1) % 2 ^ c))
      (slotVal A ((p + 1) % 2 ^ c))) p = disp c A ((p + 1) % 2 ^ c) - 1 := by
    unfold disp
    rw [hKp]
    exact hdnew
  have hsucc := hrh ((p + 1) % 2 ^ c) hs1 hnocc hndisp
  rw [pred_succ hcap hp] at hsucc
  intro t ht hocc' hdisp'
  by_cases htp : t = p
  · rw [htp] at hocc' hdisp' ⊢
    rw [hdisp_p] at hdisp' ⊢
    have hdk_pos : 0 < disp c A p := by
      rcases Nat.eq_zero_or_pos (disp c A p) with h | h
      · -- at-home occupant below would force the shifted entry to displacement
        -- at most one, contradicting the positive shifted displacement
        have := hsucc.2
        omega
      · exact h
    have hold := hrh p hp hocc hdk_pos
    have hpne : (p + 2 ^ c - 1) % 2 ^ c ≠ p := pred_ne_self hcap2 hp
    rw [slotKey_updSlot A _ _ _ hsl, if_neg hpne]
    have hdp : disp c (updSlot A p (slotKey A ((p + 1) % 2 ^ c))
        (slotVal A ((p + 1) % 2 ^ c))) ((p + 2 ^ c - 1) % 2 ^ c)
        = disp c A ((p + 2 ^ c - 1) % 2 ^ c) := by
      unfold disp
      rw [slotKey_updSlot A _ _ _ hsl, if_neg hpne]
    rw [hdp]
    refine ⟨hold.1, ?_⟩
    have h1 := hold.2
    have h2 := hsucc.2
    omega
  · have hKt : slotKey (updSlot A p (slotKey A ((p + 1) % 2 ^ c))
        (slotVal A ((p + 1) % 2 ^ c))) t = slotKey A t := by
      rw [slotKey_updSlot A _ _ t hsl, if_neg htp]
    have hdt : disp c (updSlot A p (slotKey A ((p + 1) % 2 ^ c))
        (slotVal A ((p + 1) % 2 ^ c))) t = disp c A t := by
      unfold disp
      rw [hKt]
    rw [hKt] at hocc'
    rw [hdt] at hdisp' ⊢
    have hold := hrh t ht hocc' hdisp'
    by_cases hpt : (t + 2 ^ c - 1) % 2 ^ c = p
    · have htsucc : t = (p + 1) % 2 ^ c := by
        rw [← hpt, succ_pred hcap ht]
      rw [hpt, hKp, hdisp_p]
      refine ⟨hnocc, ?_⟩
      rw [htsucc]
      omega
    · rw [slotKey_updSlot A _ _ _ hsl, if_neg hpt]
      have hdp : disp c (updSlot A p (slotKey A ((p + 1) % 2 ^ c))
          (slotVal A ((p + 1) % 2 ^ c))) ((t + 2 ^ c - 1) % 2 ^ c)
          = disp c A ((t + 2 ^ c - 1) % 2 ^ c) := by
        unfold disp
        rw [slotKey_updSlot A _ _ _ hsl, if_neg hpt]
      rw [hdp]
      exact hold

theorem succ_ne_self {cap s : ℕ} (hcap2 : 2 ≤ cap) (hs : s < cap) :
    (s + 1) % cap ≠ s := by
  intro h
  have h1 := cdist_add_mod hs (show 1 < cap by omega)
  rw [h, cdist_self hs] at h1
  omega

/-- The Delete search loop finds a present key at its unique slot. -/
theorem deleteFind_found {c : ℕ} {A : List ℕ} {key : ℕ} (hrh : rhInv c A)
    {p : ℕ} (hp : p < 2 ^ c) (hkp : slotKey A p = key) (hkey0 : key ≠ 0)
    (huniq : ∀ t < 2 ^ c, slotKey A t = key → t = p) :
    ∀ fuel j, j ≤ disp c A p → disp c A p - j + 1 ≤ fuel →
      deleteFind A key (2 ^ (c + 1) - 1) fuel
        (2 * ((home c key + j) % 2 ^ c)) = some (some (2 * p)) := by
  have hcap : 0 < 2 ^ c := Nat.pos_pow_of_pos c (by norm_num)
  have hhome : home c key < 2 ^ c := home_lt _ _
  intro fuel
  induction fuel with
  | zero => intro j _ hf; omega
  | succ fuel ih =>
    intro j hj hf
    have hq : (home c key + j) % 2 ^ c < 2 ^ c := Nat.mod_lt _ hcap
    have hchain := rh_chain hrh hp (hkp ▸ hkey0) (disp c A p - j) (by omega)
    rw [hkp] at hchain
    have hjj : disp c A p - (disp c A p - j) = j := by omega
    rw [hjj] at hchain
    rw [deleteFind_succ A key hq fuel]
    by_cases heq : slotKey A ((home c key + j) % 2 ^ c) = key
    · rw [if_pos heq]
      have hqp : (home c key + j) % 2 ^ c = p := huniq _ hq heq
      rw [hqp]
    · rw [if_neg heq, if_neg hchain.1]
      have hdisp : disp c A p = cdist (2 ^ c) (home c key) p := by
        unfold disp
        rw [hkp]
      have hjd : j ≠ disp c A p := by
        intro h
        apply heq
        rw [h, hdisp, add_cdist hhome hp, hkp]
      have hnext : ((home c key + j) % 2 ^ c + 1) % 2 ^ c
          = (home c key + (j + 1)) % 2 ^ c := by
        rw [Nat.mod_add_mod]
        congr 1
      rw [hnext]
      exact ih (j + 1) (by omega) (by omega)

/-- The Delete search loop reports absence of a key in no slot. -/
theorem deleteFind_absent {c : ℕ} {A : List ℕ} {key g : ℕ}
    (hkey : ∀ t < 2 ^ c, slotKey A t ≠ key) (hg : g < 2 ^ c)
    (hgfree : slotKey A g = 0) :
    ∀ fuel s, s < 2 ^ c → cdist (2 ^ c) s g + 1 ≤ fuel →
      deleteFind A key (2 ^ (c + 1) - 1) fuel (2 * s) = some none := by
  intro fuel
  induction fuel with
  | zero => intro s _ hf; omega
  | succ fuel ih =>
    intro s hs hf
    rw [deleteFind_succ A key hs fuel, if_neg (hkey s hs)]
    by_cases h0 : slotKey A s = 0
    · rw [if_pos h0]
    · rw [if_neg h0]
      have hsg : s ≠ g := fun h => h0 (h ▸ hgfree)
      have hstep := cdist_succ_left hs hg hsg
      have hpos : 0 < cdist (2 ^ c) s g := by
        rcases Nat.eq_zero_or_pos (cdist (2 ^ c) s g) with h | h
        · exact absurd ((cdist_eq_zero_iff hs hg).mp h) hsg
        · exact h
      exact ih ((s + 1) % 2 ^ c)
        (Nat.mod_lt _ (by positivity)) (by omega)

/-- The backward-shift loop removes exactly the pair at the freed slot,
keeping every other pair and the Robin Hood ordering. -/
theorem shiftLoop_spec {c : ℕ} (hc : c + 1 ≤ 32) (hc2 : 1 ≤ c) {g : ℕ}
    (hg : g < 2 ^ c) :
    ∀ fuel (A : List ℕ) (p : ℕ),
      2 ^ (c + 1) ≤ A.length →
      (∀ y ∈ A, y < 2 ^ 32) →
      (∀ t, 2 ^ c ≤ t → slotKey A t = 0) →
      rhInv c A →
      slotKey A g = 0 →
      p < 2 ^ c → slotKey A p ≠ 0 →
      cdist (2 ^ c) ((p + 1) % 2 ^ c) g + 1 ≤ fuel →
      ∃ R, shiftLoop (2 ^ c - 1) (2 ^ (c + 1) - 1) fuel A (2 * p) = some R ∧
        R.length = A.length ∧ (∀ y ∈ R, y < 2 ^ 32) ∧
        (∀ t, 2 ^ c ≤ t → slotKey R t = 0) ∧
        List.Perm ((slotKey A p, slotVal A p) :: livePairsL R) (livePairsL A) ∧
        rhInv c R := by
  have hcap : 0 < 2 ^ c := Nat.pos_pow_of_pos c (by norm_num)
  have hcap2 : 2 ≤ 2 ^ c := by
    calc 2 = 2 ^ 1 := (pow_one 2).symm
    _ ≤ 2 ^ c := Nat.pow_le_pow_right (by norm_num) hc2
  intro fuel
  induction fuel with
  | zero =>
    intro A p _ _ _ _ _ _ _ hf
    omega
  | succ fuel ih =>
    intro A p hlen hbound hhigh hrh hgfree hp hocc hf
    have hns : (p + 1) % 2 ^ c < 2 ^ c := Nat.mod_lt _ hcap
    have hnsp : (p + 1) % 2 ^ c ≠ p := succ_ne_self hcap2 hp
    have hsl : 2 * p + 1 < A.length := by
      have : 2 * p + 1 < 2 ^ (c + 1) := by rw [pow_succ]; omega
      omega
    have hpl : p < A.length / 2 := by omega
    obtain ⟨P, S, hPS1, hPSB⟩ := livePairsL_split hpl
    rw [optPair_of_occ hocc] at hPS1
    rw [shiftLoop_succ hc A hp fuel]
    have hstopConcl : ∀ hcond : slotKey A ((p + 1) % 2 ^ c) = 0 ∨
        disp c A ((p + 1) % 2 ^ c) = 0,
        (A.set (2 * p) 0).length = A.length ∧
        (∀ y ∈ A.set (2 * p) 0, y < 2 ^ 32) ∧
        (∀ t, 2 ^ c ≤ t → slotKey (A.set (2 * p) 0) t = 0) ∧
        List.Perm ((slotKey A p, slotVal A p) :: livePairsL (A.set (2 * p) 0))
          (livePairsL A) ∧
        rhInv c (A.set (2 * p) 0) := by
      intro hcond
      have hPS2 := hPSB (A.set (2 * p) 0) (List.length_set ..)
        (by
          intro t ht
          exact ⟨by rw [slotKey_setKey A 0 t (by omega), if_neg ht],
            slotVal_setKey A p 0 t⟩)
      have hfreeP : optPair (A.set (2 * p) 0) p = none := by
        apply optPair_of_free
        rw [slotKey_setKey A 0 p (by omega), if_pos rfl]
      rw [hfreeP] at hPS2
      refine ⟨List.length_set .., ?_, ?_, ?_, rhInv_clear hrh hp hlen hcond⟩
      · intro y hy
        rcases List.mem_or_eq_of_mem_set hy with h | h
        · exact hbound y h
        · omega
      · intro t ht
        rw [slotKey_setKey A 0 t (by omega), if_neg (by omega)]
        exact hhigh t ht
      · rw [hPS2, hPS1]
        simp only [Option.toList, List.append_nil, List.nil_append]
        rw [List.append_assoc]
        exact List.perm_middle.symm
    by_cases h1 : slotKey A ((p + 1) % 2 ^ c) = 0
    · rw [if_pos h1]
      obtain ⟨ha, hb, hcc, hd, he⟩ := hstopConcl (Or.inl h1)
      exact ⟨A.set (2 * p) 0, rfl, ha, hb, hcc, hd, he⟩
    · rw [if_neg h1]
      by_cases h2 : 2 * disp c A ((p + 1) % 2 ^ c) = 0
      · rw [if_pos h2]
        obtain ⟨ha, hb, hcc, hd, he⟩ := hstopConcl (Or.inr (by omega))
        exact ⟨A.set (2 * p) 0, rfl, ha, hb, hcc, hd, he⟩
      · rw [if_neg h2]
        have hndisp : 0 < disp c A ((p + 1) % 2 ^ c) := by omega
        have hgp : g ≠ p := fun h => hocc (h ▸ hgfree)
        have hgns : (p + 1) % 2 ^ c ≠ g := fun h => h1 (h ▸ hgfree)
        have hcdpos : 0 < cdist (2 ^ c) ((p + 1) % 2 ^ c) g := by
          rcases Nat.eq_zero_or_pos (cdist (2 ^ c) ((p + 1) % 2 ^ c) g) with h | h
          · exact absurd ((cdist_eq_zero_iff hns hg).mp h).symm (Ne.symm hgns)
          · exact h
        have hPS2 := hPSB
          (updSlot A p (slotKey A ((p + 1) % 2 ^ c)) (slotVal A ((p + 1) % 2 ^ c)))
          (length_updSlot ..)
          (by
            intro t ht
            exact ⟨by rw [slotKey_updSlot A _ _ t hsl, if_neg ht],
              by rw [slotVal_updSlot A _ _ t hsl, if_neg ht]⟩)
        have hupdP : optPair (updSlot A p (slotKey A ((p + 1) % 2 ^ c))
            (slotVal A ((p + 1) % 2 ^ c))) p
            = some (slotKey A ((p + 1) % 2 ^ c), slotVal A ((p + 1) % 2 ^ c)) := by
          rw [optPair_updSlot _ _ hsl, if_neg h1]
        rw [hupdP] at hPS2
        obtain ⟨R, hloop, hlenR, hboundR, hhighR, hpermR, hrhR⟩ :=
          ih (updSlot A p (slotKey A ((p + 1) % 2 ^ c))
              (slotVal A ((p + 1) % 2 ^ c)))
            ((p + 1) % 2 ^ c)
            (by rw [length_updSlot]; exact hlen)
            (by
              intro y hy
              rcases mem_updSlot hy with h | h | h
              · exact hbound y h
              · rw [h]
                exact slotKey_lt hbound _
              · rw [h]
                exact slotVal_lt hbound _)
            (by
              intro t ht
              rw [slotKey_updSlot A _ _ t hsl, if_neg (by omega)]
              exact hhigh t ht)
            (rhInv_shift hc2 hrh hp hlen hocc h1 hndisp)
            (by
              rw [slotKey_updSlot A _ _ g hsl, if_neg hgp]
              exact hgfree)
            hns
            (by
              rw [slotKey_updSlot A _ _ _ hsl, if_neg hnsp]
              exact h1)
            (by
              have hstep := cdist_succ_left hns hg hgns
              omega)
        refine ⟨R, hloop, by rw [hlenR, length_updSlot], hboundR, hhighR, ?_, hrhR⟩
        have hK : slotKey (updSlot A p (slotKey A ((p + 1) % 2 ^ c))
            (slotVal A ((p + 1) % 2 ^ c))) ((p + 1) % 2 ^ c)
            = slotKey A ((p + 1) % 2 ^ c) := by
          rw [slotKey_updSlot A _ _ _ hsl, if_neg hnsp]
        have hV : slotVal (updSlot A p (slotKey A ((p + 1) % 2 ^ c))
            (slotVal A ((p + 1) % 2 ^ c))) ((p + 1) % 2 ^ c)
            = slotVal A ((p + 1) % 2 ^ c) := by
          rw [slotVal_updSlot A _ _ _ hsl, if_neg hnsp]
        rw [hK, hV] at hpermR
        -- cancel the shifted pair on both sides
        have hmidA1 : List.Perm (livePairsL (updSlot A p
            (slotKey A ((p + 1) % 2 ^ c)) (slotVal A ((p + 1) % 2 ^ c))))
            ((slotKey A ((p + 1) % 2 ^ c), slotVal A ((p + 1) % 2 ^ c))
              :: (P ++ S)) := by
          rw [hPS2, List.append_assoc]
          exact List.perm_middle
        have hcancel : List.Perm (livePairsL R) (P ++ S) :=
          (hpermR.trans hmidA1).cons_inv
        have hfinal : List.Perm ((slotKey A p, slotVal A p) :: livePairsL R)
            ((slotKey A p, slotVal A p) :: (P ++ S)) := hcancel.cons _
        refine hfinal.trans ?_
        rw [hPS1, List.append_assoc]
        exact List.perm_middle.symm

/-- Deleting an absent nonzero key is a strict no-op: the map value is
returned unchanged. -/
theorem Delete_absent {m : Map} {c b : ℕ} (hWF : WFc m c b) {key : ℕ}
    (hk0 : key ≠ 0) (habs : ∀ v, (key, v) ∉ livePairsL m.data) :
    m.Delete key = some m := by
  obtain ⟨g, hg, hgfree⟩ := hWF.free_slot
  have habs' : ∀ t < 2 ^ c, slotKey m.data t ≠ key := by
    intro t ht hkt
    exact habs (slotVal m.data t)
      (mem_livePairsL.mpr ⟨t, by
        have := hWF.cap_le_half
        omega, hkt, rfl, hk0⟩)
  have hfind : deleteFind m.data key m.mask1 (m.data.length + 1)
      (bucketOf key m.mask0) = some none := by
    rw [hWF.hmask0, hWF.hmask1, bucketOf_eq hWF.hc32]
    have hfuel : cdist (2 ^ c) (home c key) g + 1 ≤ m.data.length + 1 := by
      have h1 := @cdist_lt (2 ^ c) (by positivity) (home c key) g
      have h2 := hWF.cap_le_half
      omega
    exact deleteFind_absent habs' hg hgfree (m.data.length + 1) (home c key)
      (home_lt _ _) hfuel
  unfold Map.Delete
  rw [if_neg (by simpa [isFreeKey] using hk0), hfind]

/-- Deleting a present nonzero key removes exactly its pair, decrements the
count and preserves well-formedness and all other scalar state. -/
theorem Delete_present {m : Map} {c b : ℕ} (hWF : WFc m c b) {key v₀ : ℕ}
    (hk0 : key ≠ 0) (hmem : (key, v₀) ∈ livePairsL m.data) :
    ∃ m', m.Delete key = some m' ∧ WFc m' c b ∧
      List.Perm ((key, v₀) :: livePairsL m'.data) (livePairsL m.data) ∧
      m'.count = m.count - 1 ∧ m'.threshold = m.threshold ∧
      m'.mask0 = m.mask0 ∧ m'.mask1 = m.mask1 ∧
      m'.fillFactor = m.fillFactor ∧ m'.hasFreeKey = m.hasFreeKey ∧
      m'.freeVal = m.freeVal ∧ m'.data.length = m.data.length := by
  have hcap : 0 < 2 ^ c := Nat.pos_pow_of_pos c (by norm_num)
  have hc2 : 1 ≤ c := by have := hWF.hc3; omega
  have hhalf := hWF.cap_le_half
  have hlenc : 2 ^ (c + 1) ≤ m.data.length := by
    rw [hWF.hlen]
    exact Nat.pow_le_pow_right (by norm_num) (by omega)
  obtain ⟨g, hg, hgfree⟩ := hWF.free_slot
  obtain ⟨p, hpl, hkp, hvp, -⟩ := mem_livePairsL.mp hmem
  have hpc : p < 2 ^ c := hWF.slot_lt_cap hk0 hkp
  have huniq : ∀ t < 2 ^ c, slotKey m.data t = key → t = p := by
    intro t ht hkt
    exact slot_uniq hWF.hnodup (by omega) hpl (hkt.trans hkp.symm) (hkt ▸ hk0)
  have hfind : deleteFind m.data key m.mask1 (m.data.length + 1)
      (bucketOf key m.mask0) = some (some (2 * p)) := by
    rw [hWF.hmask0, hWF.hmask1, bucketOf_eq hWF.hc32,
      show 2 * home c key = 2 * ((home c key + 0) % 2 ^ c) by
        rw [Nat.add_zero, Nat.mod_eq_of_lt (home_lt _ _)]]
    apply deleteFind_found hWF.hrh hpc hkp hk0 huniq (m.data.length + 1) 0
      (by omega)
    have h1 := cdist_lt hcap (home c (slotKey m.data p)) p
    unfold disp
    omega
  obtain ⟨R, hloop, hlenR, hboundR, hhighR, hpermR, hrhR⟩ :=
    shiftLoop_spec hWF.hc32 hc2 hg (m.data.length + 1) m.data p hlenc
      hWF.hbound hWF.hhigh hWF.hrh hgfree hpc (hkp ▸ hk0)
      (by
        have h1 := cdist_lt hcap ((p + 1) % 2 ^ c) g
        omega)
  have hloop' : shiftLoop m.mask0 m.mask1 (m.data.length + 1) m.data (2 * p)
      = some R := by
    rw [hWF.hmask0, hWF.hmask1]
    exact hloop
  rw [hkp, hvp] at hpermR
  have hlenEq : ((livePairsL m.data).length : ℤ)
      = (livePairsL R).length + 1 := by
    rw [← hpermR.length_eq]
    simp
  refine ⟨{ m with data := R, count := m.count - 1 }, ?_, ?_, hpermR, rfl, rfl,
    rfl, rfl, rfl, rfl, rfl, hlenR⟩
  · unfold Map.Delete
    rw [if_neg (by simpa [isFreeKey] using hk0), hfind]
    show (match shiftLoop m.mask0 m.mask1 (m.data.length + 1) m.data (2 * p) with
      | none => none
      | some A => some { m with data := A, count := m.count - 1 }) = _
    rw [hloop']
  · constructor
    · exact hWF.hc3
    · exact hWF.hcb
    · exact hWF.hmask0
    · exact hWF.hmask1
    · show R.length = _
      rw [hlenR]
      exact hWF.hlen
    · exact hboundR
    · exact hhighR
    · have h1 := hWF.hnodup
      have h2 := (hpermR.map Prod.fst).nodup_iff.mpr h1
      simp only [List.map_cons, List.nodup_cons] at h2
      exact h2.2
    · show m.count - 1
          = ((livePairsL R).length : ℤ) + (if m.hasFreeKey then 1 else 0)
      have h1 := hWF.hcount
      have h2 := hlenEq
      omega
    · exact hWF.hfreeval
    · exact hWF.hfill0
    · exact hWF.hfill1
    · exact hWF.hfillcap
    · exact hWF.hthr1
    · exact hWF.hthrcap
    · show m.count - 1 ≤ m.threshold
      have := hWF.hcnt_le
      omega
    · intro h
      show m.count - 1 < m.threshold
      have h1 := hWF.hcnt_lt h
      omega
    · exact hrhR

/-! ### Correctness of the bit smear in arraySize -/

theorem orShift_window {y z a b : ℕ} (hb : b = a + 1)
    (hwin : ∀ i, z.testBit i = true ↔ ∃ j, i ≤ j ∧ j ≤ i + a ∧ y.testBit j = true) :
    ∀ i, (orShift b z).testBit i = true ↔
      ∃ j, i ≤ j ∧ j ≤ i + (a + b) ∧ y.testBit j = true := by
  intro i
  unfold orShift
  rw [Nat.testBit_or, Nat.testBit_shiftRight]
  constructor
  · intro h
    rcases Bool.or_eq_true_iff.mp h with h | h
    · obtain ⟨j, h1, h2, h3⟩ := (hwin i).mp h
      exact ⟨j, h1, by omega, h3⟩
    · obtain ⟨j, h1, h2, h3⟩ := (hwin (b + i)).mp h
      exact ⟨j, by omega, by omega, h3⟩
  · rintro ⟨j, h1, h2, h3⟩
    apply Bool.or_eq_true_iff.mpr
    by_cases hj : j ≤ i + a
    · exact Or.inl ((hwin i).mpr ⟨j, h1, hj, h3⟩)
    · exact Or.inr ((hwin (b + i)).mpr ⟨j, by omega, by omega, h3⟩)

theorem smear_window (y : ℕ) :
    ∀ i, (orShift 16 (orShift 8 (orShift 4 (orShift 2 (orShift 1 y))))).testBit i
      = true ↔ ∃ j, i ≤ j ∧ j ≤ i + 31 ∧ y.testBit j = true := by
  have h0 : ∀ i, y.testBit i = true ↔
      ∃ j, i ≤ j ∧ j ≤ i + 0 ∧ y.testBit j = true := by
    intro i
    constructor
    · intro h
      exact ⟨i, le_refl i, by omega, h⟩
    · rintro ⟨j, h1, h2, h3⟩
      have : j = i := by omega
      rwa [this] at h3
  have h1 := orShift_window (a := 0) (b := 1) (by norm_num) h0
  have h2 := orShift_window (a := 1) (b := 2) (by norm_num) h1
  have h3 := orShift_window (a := 3) (b := 4) (by norm_num) h2
  have h4 := orShift_window (a := 7) (b := 8) (by norm_num) h3
  have h5 := orShift_window (a := 15) (b := 16) (by norm_num) h4
  intro i
  rw [h5 i]

theorem testBit_log2_self {y : ℕ} (hy : 1 ≤ y) :
    y.testBit y.log2 = true := by
  rw [Nat.testBit_to_div_mod]
  have hdiv : y / 2 ^ y.log2 = 1 := by
    apply Nat.div_eq_of_lt_le
    · simpa using Nat.log2_self_le (by omega)
    · have h := Nat.lt_log2_self (n := y)
      rw [pow_succ] at h
      omega
  rw [hdiv]
  decide

/-- The five-step smear of a positive y below 2^32 fills every bit below the
leading one: the result is 2^(log2 y + 1) - 1. -/
theorem smear_eq {y : ℕ} (hy1 : 1 ≤ y) (hy : y < 2 ^ 32) :
    orShift 16 (orShift 8 (orShift 4 (orShift 2 (orShift 1 y))))
      = 2 ^ (y.log2 + 1) - 1 := by
  apply Nat.eq_of_testBit_eq
  intro i
  rw [Nat.testBit_two_pow_sub_one]
  by_cases hi : i < y.log2 + 1
  · have hlog31 : y.log2 ≤ 31 := by
      have := (Nat.log2_lt (by omega)).mpr hy
      omega
    have htrue := (smear_window y i).mpr
      ⟨y.log2, by omega, by omega, testBit_log2_self hy1⟩
    rw [htrue]
    simp [hi]
  · have hnone : ∀ j, i ≤ j → y.testBit j = false := by
      intro j hj
      by_contra hc
      have hbit : y.testBit j = true := by
        cases hyt : y.testBit j
        · exact absurd hyt hc
        · rfl
      have h2j : 2 ^ j ≤ y := by
        by_contra hgt
        push_neg at hgt
        rw [Nat.testBit_lt_two_pow hgt] at hbit
        cases hbit
      have hle := (Nat.le_log2 (by omega)).mpr h2j
      omega
    have hfalse : (orShift 16 (orShift 8 (orShift 4 (orShift 2
        (orShift 1 y))))).testBit i = false := by
      by_contra hc
      have hbit : (orShift 16 (orShift 8 (orShift 4 (orShift 2
          (orShift 1 y))))).testBit i = true := by
        cases hyt : (orShift 16 (orShift 8 (orShift 4 (orShift 2
            (orShift 1 y))))).testBit i
        · exact absurd hyt hc
        · rfl
      obtain ⟨j, h1, h2, h3⟩ := (smear_window y i).mp hbit
      rw [hnone j h1] at h3
      cases h3
    rw [hfalse]
    simp [hi]

/-! ### The capacity computed by newMap -/

/-- arraySize yields a power of two 2^c with 3 <= c <= 31 that dominates the
requested ceil(size/fill), and is least among powers of two that are at least
8 and dominate it. -/
theorem arraySize_pow {size : ℕ} {fill : ℚ}
    (hceil : Nat.ceil ((size : ℚ) / fill) ≤ 2 ^ 31) :
    ∃ c, 3 ≤ c ∧ c ≤ 31 ∧ arraySize size fill = 2 ^ c ∧
      Nat.ceil ((size : ℚ) / fill) ≤ 2 ^ c ∧
      ∀ k, 8 ≤ 2 ^ k → Nat.ceil ((size : ℚ) / fill) ≤ 2 ^ k → 2 ^ c ≤ 2 ^ k := by
  set x := Nat.ceil ((size : ℚ) / fill) with hxdef
  have hxmod : x % U32 = x := Nat.mod_eq_of_lt (by unfold U32; omega)
  have harr : arraySize size fill = if x < 8 then 8
      else (orShift 16 (orShift 8 (orShift 4 (orShift 2 (orShift 1 (x - 1))))) + 1)
        % U32 := by
    simp only [arraySize]
    rw [hxmod]
  by_cases hx8 : x < 8
  · refine ⟨3, le_refl 3, by norm_num, ?_, by omega, ?_⟩
    · rw [harr, if_pos hx8]
      norm_num
    · intro k hk _
      exact hk
  · push_neg at hx8
    have hx1 : 1 ≤ x - 1 := by omega
    have hxlt : x - 1 < 2 ^ 32 := by omega
    have hsm := smear_eq hx1 hxlt
    set L := (x - 1).log2 with hLdef
    have hL2 : 2 ≤ L := (Nat.le_log2 (by omega)).mpr (by omega)
    have hL30 : L < 31 := (Nat.log2_lt (by omega)).mpr (by omega)
    have hxle : x ≤ 2 ^ (L + 1) := by
      have h := Nat.lt_log2_self (n := x - 1)
      rw [← hLdef, pow_succ] at h
      rw [pow_succ]
      omega
    have hpowlt : (2 : ℕ) ^ (L + 1) < U32 := by
      unfold U32
      exact Nat.pow_lt_pow_right (by norm_num) (by omega)
    have hval : arraySize size fill = 2 ^ (L + 1) := by
      rw [harr, if_neg (by omega), hsm]
      have h1 : (1 : ℕ) ≤ 2 ^ (L + 1) := Nat.one_le_two_pow
      rw [show 2 ^ (L + 1) - 1 + 1 = 2 ^ (L + 1) by omega]
      exact Nat.mod_eq_of_lt hpowlt
    refine ⟨L + 1, by omega, by omega, hval, hxle, ?_⟩
    intro k _ hxk
    have h2L : 2 ^ L ≤ x - 1 := Nat.log2_self_le (by omega)
    have : (2 : ℕ) ^ L < 2 ^ k := by omega
    have hLk : L < k := by
      by_contra hkL
      push_neg at hkL
      have := Nat.pow_le_pow_right (show 1 ≤ 2 by norm_num) hkL
      omega
    exact Nat.pow_le_pow_right (by norm_num) (by omega)

/-- A successful newMap whose requested ceil(size/fill) fits in 2^31 yields a
well-formed empty table at some capacity exponent c, with b = 0. -/
theorem newMap_WF {size : ℕ} {fill : ℚ} {m : Map}
    (hceil : Nat.ceil ((size : ℚ) / fill) ≤ 2 ^ 31)
    (hrun : newMap size fill = some m) :
    ∃ c, WFc m c 0 ∧ m.count = 0 ∧ m.hasFreeKey = false
      ∧ m.fillFactor = fill := by
  unfold newMap at hrun
  by_cases hfbad : fill ≤ 0 ∨ 1 ≤ fill
  · rw [if_pos hfbad] at hrun
    cases hrun
  · rw [if_neg hfbad] at hrun
    push_neg at hfbad
    obtain ⟨hf0, hf1⟩ := hfbad
    by_cases hsz : size = 0
    · rw [if_pos hsz] at hrun
      cases hrun
    · rw [if_neg hsz] at hrun
      obtain ⟨c, hc3, hc31, hval, hdom, -⟩ := arraySize_pow hceil
      cases hrun
      have hcapfill : 1 ≤ (2 ^ c : ℚ) * fill := by
        have h1 : ((size : ℚ) / fill) ≤ ((Nat.ceil ((size : ℚ) / fill) : ℕ) : ℚ) :=
          Nat.le_ceil _
        have h2 : ((Nat.ceil ((size : ℚ) / fill) : ℕ) : ℚ) ≤ ((2 ^ c : ℕ) : ℚ) := by
          exact_mod_cast hdom
        have h3 : ((size : ℚ) / fill) ≤ (2 ^ c : ℚ) := by
          push_cast at h2
          linarith
        have h4 : (size : ℚ) ≤ (2 ^ c : ℚ) * fill := by
          rw [div_le_iff₀ hf0] at h3
          linarith
        have h5 : (1 : ℚ) ≤ (size : ℚ) := by
          exact_mod_cast Nat.one_le_iff_ne_zero.mpr hsz
        linarith
      refine ⟨c, ?_, rfl, rfl, rfl⟩
      have hthr1 : (1 : ℤ) ≤ ⌊((arraySize size fill : ℕ) : ℚ) * fill⌋ := by
        rw [hval]
        rw [Int.le_floor]
        push_cast
        exact hcapfill
      have hthrcap : ⌊((arraySize size fill : ℕ) : ℚ) * fill⌋ < (2 ^ c : ℤ) := by
        rw [hval, Int.floor_lt]
        push_cast
        have hpos : (0 : ℚ) < (2 ^ c : ℚ) := by positivity
        nlinarith
      constructor
      · exact hc3
      · omega
      · show arraySize size fill - 1 = 2 ^ c - 1
        rw [hval]
      · show arraySize size fill * 2 - 1 = 2 ^ (c + 1) - 1
        rw [hval, pow_succ]
      · show (List.replicate (arraySize size fill * 2) 0).length = 2 ^ (c + 1 + 0)
        rw [List.length_replicate, hval, pow_succ]
      · intro y hy
        rw [List.eq_of_mem_replicate hy]
        norm_num
      · intro s _
        exact slotKey_replicate _ _
      · rw [livePairsL_replicate]
        simp
      · show (0 : ℤ) = _
        rw [livePairsL_replicate]
        simp
      · show (0 : ℕ) < 2 ^ 32
        norm_num
      · exact hf0
      · exact hf1
      · exact hcapfill
      · exact hthr1
      · exact hthrcap
      · show (0 : ℤ) ≤ ⌊((arraySize size fill : ℕ) : ℚ) * fill⌋
        omega
      · intro _
        show (0 : ℤ) < ⌊((arraySize size fill : ℕ) : ℚ) * fill⌋
        omega
      · exact rhInv_replicate _ _

/-! ### The free-key paths, Clear, and the reachable states -/

/-- Store of the free key only touches the scalar free-key record. -/
theorem Store_free (m : Map) (val : ℕ) :
    m.Store 0 val = some { m with
      count := if m.hasFreeKey then m.count else m.count + 1
      hasFreeKey := true
      freeVal := val } := rfl

theorem Store_free_WF {m : Map} {c b : ℕ} (hWF : WFc m c b) {val : ℕ}
    (hval : val < 2 ^ 32) :
    WFc { m with
      count := if m.hasFreeKey then m.count else m.count + 1
      hasFreeKey := true
      freeVal := val } c b := by
  constructor
  · exact hWF.hc3
  · exact hWF.hcb
  · exact hWF.hmask0
  · exact hWF.hmask1
  · exact hWF.hlen
  · exact hWF.hbound
  · exact hWF.hhigh
  · exact hWF.hnodup
  · show (if m.hasFreeKey then m.count else m.count + 1)
        = ((livePairsL m.data).length : ℤ) + (if true then 1 else 0)
    have h1 := hWF.hcount
    rcases hfree : m.hasFreeKey with _ | _ <;> rw [hfree] at h1 <;> simp at h1 ⊢ <;>
      omega
  · exact hval
  · exact hWF.hfill0
  · exact hWF.hfill1
  · exact hWF.hfillcap
  · exact hWF.hthr1
  · exact hWF.hthrcap
  · show (if m.hasFreeKey then m.count else m.count + 1) ≤ m.threshold
    have h1 := hWF.hcnt_le
    rcases hfree : m.hasFreeKey with _ | _
    · have h2 := hWF.hcnt_lt hfree
      simp
      omega
    · simpa using h1
  · intro h
    exact absurd h (by simp)
  · exact hWF.hrh

/-- A successful Store on a well-formed table keeps it well-formed and makes
the stored pair the Load result of its key. -/
theorem Store_ok {m m' : Map} (hWF : WF m) {key val : ℕ} (hk : key < 2 ^ 32)
    (hv : val < 2 ^ 32) (hrun : m.Store key val = some m') :
    WF m' ∧ m'.Load key = some (val, true) := by
  obtain ⟨c, b, hWFc⟩ := hWF
  by_cases hk0 : key = 0
  · subst hk0
    rw [Store_free] at hrun
    cases hrun
    refine ⟨⟨c, b, Store_free_WF hWFc hv⟩, ?_⟩
    rfl
  · obtain ⟨hfill, hfree, hfval, habs, hpres⟩ := storeFuel_spec 34 hWFc hk0 hk hv hrun
    by_cases hex : ∃ v₀, (key, v₀) ∈ livePairsL m.data
    · obtain ⟨v₀, hv₀⟩ := hex
      obtain ⟨rest, hp1, hp2, hcnt, hWF', hlen, hm0, hm1, hthr⟩ := hpres v₀ hv₀
      exact ⟨⟨c, b, hWF'⟩,
        Load_found hWF' hk0 (hp2.mem_iff.mpr (List.mem_cons_self _ _))⟩
    · push_neg at hex
      obtain ⟨hp1, hcnt, hnores, hres⟩ := habs hex
      have hmem : (key, val) ∈ livePairsL m'.data :=
        hp1.mem_iff.mpr (List.mem_cons_self _ _)
      by_cases hlt : m.count + 1 < m.threshold
      · obtain ⟨hWF', -, -, -, -⟩ := hnores hlt
        exact ⟨⟨c, b, hWF'⟩, Load_found hWF' hk0 hmem⟩
      · obtain ⟨-, c', hWF', -⟩ := hres (by omega)
        exact ⟨⟨c', 0, hWF'⟩, Load_found hWF' hk0 hmem⟩

/-- Delete of the free key only touches the scalar free-key record. -/
theorem Delete_free (m : Map) :
    m.Delete 0 = some (if m.hasFreeKey then
      { m with hasFreeKey := false, count := m.count - 1 } else m) := rfl

theorem Delete_free_WF {m : Map} {c b : ℕ} (hWF : WFc m c b)
    (hfree : m.hasFreeKey = true) :
    WFc { m with hasFreeKey := false, count := m.count - 1 } c b := by
  constructor
  · exact hWF.hc3
  · exact hWF.hcb
  · exact hWF.hmask0
  · exact hWF.hmask1
  · exact hWF.hlen
  · exact hWF.hbound
  · exact hWF.hhigh
  · exact hWF.hnodup
  · show m.count - 1 = ((livePairsL m.data).length : ℤ) + (if false then 1 else 0)
    have h1 := hWF.hcount
    rw [hfree] at h1
    simp at h1 ⊢
    omega
  · exact hWF.hfreeval
  · exact hWF.hfill0
  · exact hWF.hfill1
  · exact hWF.hfillcap
  · exact hWF.hthr1
  · exact hWF.hthrcap
  · show m.count - 1 ≤ m.threshold
    have := hWF.hcnt_le
    omega
  · intro _
    show m.count - 1 < m.threshold
    have := hWF.hcnt_le
    omega
  · exact hWF.hrh

/-- Load of the free key reads only the scalar free-key record. -/
theorem Load_zero (m : Map) :
    m.Load 0 = some (if m.hasFreeKey then (m.freeVal, true) else (0, false)) :=
  rfl

/-- Load of a nonzero key reads only the array and the masks. -/
theorem Load_eq_of_data {m1 m2 : Map} (hd : m1.data = m2.data)
    (h0 : m1.mask0 = m2.mask0) (h1 : m1.mask1 = m2.mask1) {key : ℕ}
    (hk : key ≠ 0) : m1.Load key = m2.Load key := by
  unfold Map.Load
  rw [hd, h0, h1, if_neg (by simpa [isFreeKey] using hk),
    if_neg (by simpa [isFreeKey] using hk)]

/-- Everything Delete guarantees on a well-formed table: it succeeds, the key
is gone, a present key decrements the count, an absent key changes nothing at
all, and every other key loads exactly as before. -/
theorem Delete_ok {m : Map} (hWF : WF m) {key : ℕ} (hk : key < 2 ^ 32) :
    ∃ m', m.Delete key = some m' ∧ WF m' ∧
      m'.Load key = some (0, false) ∧
      ((∃ v, m.Load key = some (v, true)) → m'.count = m.count - 1) ∧
      (m.Load key = some (0, false) → m' = m) ∧
      (∀ k', k' ≠ key → m'.Load k' = m.Load k') := by
  obtain ⟨c, b, hWFc⟩ := hWF
  by_cases hk0 : key = 0
  · subst hk0
    rcases hfree : m.hasFreeKey with _ | _
    · refine ⟨m, ?_, ⟨c, b, hWFc⟩, ?_, ?_, fun _ => rfl, fun _ _ => rfl⟩
      · rw [Delete_free, hfree]
        simp
      · rw [Load_zero, hfree]
        simp
      · rintro ⟨v, hv⟩
        rw [Load_zero, hfree] at hv
        simp at hv
    · refine ⟨{ m with hasFreeKey := false, count := m.count - 1 }, ?_,
        ⟨c, b, Delete_free_WF hWFc hfree⟩, rfl, fun _ => rfl, ?_, ?_⟩
      · rw [Delete_free, hfree]
        simp
      · intro hL
        rw [Load_zero, hfree] at hL
        simp at hL
      · intro k' hk'
        refine Load_eq_of_data ?_ ?_ ?_ hk' <;> rfl
  · by_cases hex : ∃ v₀, (key, v₀) ∈ livePairsL m.data
    · obtain ⟨v₀, hmem⟩ := hex
      obtain ⟨m', hdel, hWF', hperm, hcnt, hthr, hm0, hm1, hfill, hfreeEq,
        hfval, hlen⟩ := Delete_present hWFc hk0 hmem
      refine ⟨m', hdel, ⟨c, b, hWF'⟩, ?_, fun _ => hcnt, ?_, ?_⟩
      · apply Load_not_mem hWF' hk0
        intro v hv
        have hnd : (((key, v₀) :: livePairsL m'.data).map Prod.fst).Nodup :=
          (hperm.map Prod.fst).nodup_iff.mpr hWFc.hnodup
        simp only [List.map_cons, List.nodup_cons] at hnd
        exact hnd.1 (List.mem_map_of_mem Prod.fst hv)
      · intro hL
        rw [Load_found hWFc hk0 hmem] at hL
        simp at hL
      · intro k' hk'
        by_cases hk'0 : k' = 0
        · subst hk'0
          rw [Load_zero, Load_zero, hfreeEq, hfval]
        · apply Load_congr hWF' hWFc hk'0
          intro v
          constructor
          · intro hvm'
            exact hperm.subset (List.mem_cons_of_mem _ hvm')
          · intro hvm
            rcases List.mem_cons.mp (hperm.symm.subset hvm) with h | h
            · exact absurd (congrArg Prod.fst h) hk'
            · exact h
    · push_neg at hex
      refine ⟨m, Delete_absent hWFc hk0 hex, ⟨c, b, hWFc⟩,
        Load_not_mem hWFc hk0 hex, ?_, fun _ => rfl, fun _ _ => rfl⟩
      rintro ⟨v, hv⟩
      rw [Load_not_mem hWFc hk0 hex] at hv
      simp at hv

theorem Clear_WF {m : Map} {c b : ℕ} (hWF : WFc m c b) : WFc m.Clear c b := by
  constructor
  · exact hWF.hc3
  · exact hWF.hcb
  · exact hWF.hmask0
  · exact hWF.hmask1
  · show (List.replicate m.data.length 0).length = _
    rw [List.length_replicate]
    exact hWF.hlen
  · intro y hy
    rw [List.eq_of_mem_replicate hy]
    norm_num
  · intro s _
    exact slotKey_replicate _ _
  · show ((livePairsL (List.replicate m.data.length 0)).map Prod.fst).Nodup
    rw [livePairsL_replicate]
    simp
  · show (0 : ℤ) = ((livePairsL (List.replicate m.data.length 0)).length : ℤ)
        + (if false then 1 else 0)
    rw [livePairsL_replicate]
    simp
  · show (0 : ℕ) < 2 ^ 32
    norm_num
  · exact hWF.hfill0
  · exact hWF.hfill1
  · exact hWF.hfillcap
  · exact hWF.hthr1
  · exact hWF.hthrcap
  · show (0 : ℤ) ≤ m.threshold
    have := hWF.hthr1
    omega
  · intro _
    show (0 : ℤ) < m.threshold
    have := hWF.hthr1
    omega
  · exact rhInv_replicate _ _

/-- The table states reachable through the constructors and the mutating
methods, executed sequentially.  Constructions are restricted to requests
whose ceil(size/fill) fits in 2^31, where the uint32 size computation is
exact; keys and values are uint32.  Clone is not included: its divergent
capacity and threshold computation is treated separately. -/
inductive Reachable : Map → Prop where
  | new : ∀ {size : ℕ} {fill : ℚ} {m : Map},
      Nat.ceil ((size : ℚ) / fill) ≤ 2 ^ 31 → newMap size fill = some m →
      Reachable m
  | store : ∀ {m m' : Map} {key val : ℕ}, Reachable m → key < 2 ^ 32 →
      val < 2 ^ 32 → m.Store key val = some m' → Reachable m'
  | delete : ∀ {m m' : Map} {key : ℕ}, Reachable m → key < 2 ^ 32 →
      m.Delete key = some m' → Reachable m'
  | clear : ∀ {m : Map}, Reachable m → Reachable m.Clear

/-- Every reachable table is well-formed. -/
theorem reachable_wf {m : Map} (h : Reachable m) : WF m := by
  induction h with
  | new hceil hrun =>
    obtain ⟨c, hWFc, -, -, -⟩ := newMap_WF hceil hrun
    exact ⟨c, 0, hWFc⟩
  | store _ hk hv hrun ih => exact (Store_ok ih hk hv hrun).1
  | delete _ hk hrun ih =>
    obtain ⟨m'', hdel, hWF'', -⟩ := Delete_ok ih hk
    rw [hrun] at hdel
    injection hdel with h
    subst h
    exact hWF''
  | clear _ ih =>
    obtain ⟨c, b, hWFc⟩ := ih
    exact ⟨c, b, Clear_WF hWFc⟩

/-! ### The iteration forms -/

/-- The non-stoppable traversal collects exactly the live pairs of the
visited slots. -/
theorem rangeEachGo_filterMap (data : List ℕ) :
    ∀ ts : List ℕ, rangeEachGo data (ts.map (2 * ·)) = ts.filterMap (optPair data) := by
  intro ts
  induction ts with
  | nil => rfl
  | cons t rest ih =>
    have hk : data.getD (2 * t) 0 = slotKey data t := rfl
    simp only [List.map_cons, rangeEachGo]
    rw [filterMap_cons_toList]
    by_cases h : slotKey data t = 0
    · rw [if_neg (show ¬data.getD (2 * t) 0 ≠ isFreeKey by
        rw [hk, h]; simp [isFreeKey]), optPair_of_free h, ih]
      simp
    · rw [if_pos (show data.getD (2 * t) 0 ≠ isFreeKey by
        rw [hk]; simpa [isFreeKey] using h), optPair_of_occ h, ih]
      rfl

/-- RangeEach visits the free-key record first when present, then exactly the
live pairs in storage order. -/
theorem RangeEach_eq (m : Map) :
    m.RangeEach = (if m.hasFreeKey then (0, m.freeVal) :: livePairsL m.data
      else livePairsL m.data) := by
  unfold Map.RangeEach evenIdx
  rw [rangeEachGo_filterMap, ← livePairsL_eq]

/-- A callback that never stops makes the stoppable traversal agree with the
non-stoppable one. -/
theorem rangeGo_of_true {data : List ℕ} {fn : ℕ → ℕ → Bool}
    (hfn : ∀ k v, fn k v = true) :
    ∀ l : List ℕ, rangeGo data fn l = rangeEachGo data l := by
  intro l
  induction l with
  | nil => rfl
  | cons i rest ih =>
    simp only [rangeGo, rangeEachGo, hfn, if_true, ih]

theorem Range_of_true {m : Map} {fn : ℕ → ℕ → Bool}
    (hfn : ∀ k v, fn k v = true) : m.Range fn = m.RangeEach := by
  unfold Map.Range Map.RangeEach
  simp only [hfn, if_true, rangeGo_of_true hfn]

/-- A callback that never errs makes the error-propagating traversal agree
with the non-stoppable one and report no error. -/
theorem rangeErrGo_of_none {ε : Type} {data : List ℕ} {fn : ℕ → ℕ → Option ε}
    (hfn : ∀ k v, fn k v = none) :
    ∀ l : List ℕ, rangeErrGo data fn l = (rangeEachGo data l, none) := by
  intro l
  induction l with
  | nil => rfl
  | cons i rest ih =>
    simp only [rangeErrGo, rangeEachGo, hfn, ih]
    split <;> rfl

theorem RangeErr_of_none {ε : Type} {m : Map} {fn : ℕ → ℕ → Option ε}
    (hfn : ∀ k v, fn k v = none) : m.RangeErr fn = (m.RangeEach, none) := by
  unfold Map.RangeErr Map.RangeEach
  simp only [hfn, rangeErrGo_of_none hfn]
  split <;> rfl

/-- Membership in the RangeEach visit list coincides with a positive Load. -/
theorem RangeEach_mem {m : Map} {c b : ℕ} (hWF : WFc m c b) {k v : ℕ} :
    (k, v) ∈ m.RangeEach ↔ m.Load k = some (v, true) := by
  have hlp : ∀ v', (k, v') ∈ livePairsL m.data → k ≠ 0 := by
    intro v' hv'
    obtain ⟨s, -, -, -, hne⟩ := mem_livePairsL.mp hv'
    exact hne
  have hstep : k ≠ 0 → ((k, v) ∈ livePairsL m.data ↔ m.Load k = some (v, true)) := by
    intro hk0
    constructor
    · exact Load_found hWF hk0
    · intro h
      by_cases hex : ∃ v', (k, v') ∈ livePairsL m.data
      · obtain ⟨v', hv'⟩ := hex
        rw [Load_found hWF hk0 hv'] at h
        simp only [Option.some.injEq, Prod.mk.injEq] at h
        rw [← h.1]
        exact hv'
      · push_neg at hex
        rw [Load_not_mem hWF hk0 hex] at h
        simp at h
  rw [RangeEach_eq]
  rcases hfree : m.hasFreeKey with _ | _
  · rw [if_neg (by simp [hfree])]
    by_cases hk0 : k = 0
    · subst hk0
      rw [Load_zero, hfree]
      constructor
      · intro hmem
        exact absurd rfl (hlp v hmem)
      · intro h
        simp at h
    · exact hstep hk0
  · rw [if_pos rfl]
    by_cases hk0 : k = 0
    · subst hk0
      rw [Load_zero, hfree]
      rw [if_pos rfl]
      constructor
      · intro hmem
        rcases List.mem_cons.mp hmem with h | h
        · have hv : v = m.freeVal := congrArg Prod.snd h
          rw [hv]
        · exact absurd rfl (hlp v h)
      · intro h
        simp only [Option.some.injEq, Prod.mk.injEq] at h
        rw [← h.1]
        exact List.mem_cons_self _ _
    · rw [← hstep hk0]
      constructor
      · intro hmem
        rcases List.mem_cons.mp hmem with h | h
        · exact absurd (congrArg Prod.fst h) hk0
        · exact h
      · exact List.mem_cons_of_mem _

/-- The RangeEach visit list has pairwise distinct keys. -/
theorem RangeEach_nodup {m : Map} {c b : ℕ} (hWF : WFc m c b) :
    (m.RangeEach.map Prod.fst).Nodup := by
  rw [RangeEach_eq]
  rcases hfree : m.hasFreeKey with _ | _
  · rw [if_neg (by simp [hfree])]
    exact hWF.hnodup
  · rw [if_pos rfl]
    simp only [List.map_cons, List.nodup_cons]
    refine ⟨?_, hWF.hnodup⟩
    intro h0
    obtain ⟨⟨k, v⟩, hmem, hfst⟩ := List.mem_map.mp h0
    have hk0 : k = 0 := hfst
    subst hk0
    obtain ⟨s, -, -, -, hne⟩ := mem_livePairsL.mp hmem
    exact hne rfl

/-- The RangeEach visit list has length Count. -/
theorem RangeEach_length {m : Map} {c b : ℕ} (hWF : WFc m c b) :
    (m.RangeEach.length : ℤ) = m.count := by
  rw [RangeEach_eq, hWF.hcount]
  rcases hfree : m.hasFreeKey with _ | _
  · simp
  · rw [if_pos rfl]
    simp only [List.length_cons, if_pos rfl]
    push_cast
    ring

/-! ### The threaded read-only operations -/

/-- The threaded Load loop returns its array argument unchanged and computes
exactly what the plain loop computes. -/
theorem loadLoopThreaded_eq (key mask mask1 : ℕ) :
    ∀ fuel data ptr dist, loadLoopThreaded key mask mask1 fuel data ptr dist
      = (loadLoop data key mask mask1 fuel ptr dist).map (fun r => (data, r)) := by
  intro fuel
  induction fuel with
  | zero => intro data ptr dist; rfl
  | succ fuel ih =>
    intro data ptr dist
    simp only [loadLoopThreaded, loadLoop]
    by_cases h1 : data.getD ptr 0 = key
    · rw [if_pos h1, if_pos h1]
      rfl
    · rw [if_neg h1, if_neg h1]
      by_cases h2 : data.getD ptr 0 = isFreeKey
      · rw [if_pos h2, if_pos h2]
        rfl
      · rw [if_neg h2, if_neg h2]
        by_cases h3 : (u32sub ptr (bucketOf (data.getD ptr 0) mask) &&& mask1) >>> 1
            < dist
        · rw [if_pos h3, if_pos h3]
          rfl
        · rw [if_neg h3, if_neg h3, ih]

/-- LoadThreaded returns the receiver unchanged together with the plain Load
result. -/
theorem LoadThreaded_eq (m : Map) (key : ℕ) :
    m.LoadThreaded key = (m.Load key).map (fun r => (m, r)) := by
  unfold Map.LoadThreaded Map.Load
  by_cases hk : key = isFreeKey
  · rw [if_pos hk, if_pos hk]
    rfl
  · rw [if_neg hk, if_neg hk, loadLoopThreaded_eq]
    rcases h : loadLoop m.data key m.mask0 m.mask1 (m.data.length + 1)
        (bucketOf key m.mask0) 0 with _ | ⟨v, ok⟩
    · rfl
    · rfl

/-! ### Concrete tables used by the witnesses and counterexamples

The kernel does not reduce rational arithmetic (Rat normalization runs
through well-founded recursion), so every construction step whose result
depends on a ceil or floor of a rational is stated as an explicit equation,
proved once with norm_num resolving the rational part; the integer part of
each computation then reduces definitionally. -/

/-- The table New(1): capacity 8, threshold 6. -/
def mapNew1 : Map :=
  ⟨List.replicate 16 0, defaultFillFactor, 6, 0, 7, 15, 0, false⟩

/-- mapNew1 after Store(3, 5): key 3 sits in its home slot 3. -/
def mapNew1Stored : Map :=
  ⟨[0, 0, 0, 0, 0, 0, 3, 5, 0, 0, 0, 0, 0, 0, 0, 0], defaultFillFactor,
    6, 1, 7, 15, 0, false⟩

/-- The table New(10): capacity 16, threshold 12. -/
def mapNew10 : Map :=
  ⟨List.replicate 32 0, defaultFillFactor, 12, 0, 15, 31, 0, false⟩

/-- The table New(16): capacity 32, threshold 25. -/
def mapNew16 : Map :=
  ⟨List.replicate 64 0, defaultFillFactor, 25, 0, 31, 63, 0, false⟩

/-- The clone of mapNew10: the scalar state of mapNew10 over the array and
threshold that New(16) computed. -/
def mapClone10 : Map :=
  ⟨List.replicate 64 0, defaultFillFactor, 25, 0, 15, 31, 0, false⟩

/-- The table NewWithFill(1, 1/8): capacity 8, threshold 1. -/
def mapFill8 : Map := ⟨List.replicate 16 0, 1 / 8, 1, 0, 7, 15, 0, false⟩

/-- mapFill8 with key 1 just placed, before the resize check: count 1 has
reached the threshold. -/
def mapFill8Mid : Map :=
  ⟨[0, 0, 1, 7, 0, 0, 0, 0, 0, 0, 0, 0, 0, 0, 0, 0], 1 / 8, 1, 1, 7, 15, 0,
    false⟩

/-- The empty doubled table rehash builds from mapFill8Mid: capacity 16,
threshold 2. -/
def mapFill8Start : Map :=
  ⟨List.replicate 32 0, 1 / 8, 2, 0, 15, 31, 0, false⟩

/-- mapFill8 after Store(1, 7): resized to capacity 16, key 1 in its new
home slot 9. -/
def mapFill8Stored : Map :=
  ⟨[0, 0, 0, 0, 0, 0, 0, 0, 0, 0, 0, 0, 0, 0, 0, 0, 0, 0, 1, 7, 0, 0, 0, 0,
    0, 0, 0, 0, 0, 0, 0, 0], 1 / 8, 2, 1, 15, 31, 0, false⟩

/-- The table NewWithFill(1, 3/20): capacity 8, threshold 1. -/
def mapFill20 : Map := ⟨List.replicate 16 0, 3 / 20, 1, 0, 7, 15, 0, false⟩

/-- mapFill20 after Store(0, 7): the free-key record set, count 1 at the
threshold, no resize. -/
def mapFill20Free : Map :=
  ⟨List.replicate 16 0, 3 / 20, 1, 1, 7, 15, 7, true⟩

/-- mapFill20Free with key 5 just placed in home slot 5, before the resize
check. -/
def mapFill20MidA : Map :=
  ⟨[0, 0, 0, 0, 0, 0, 0, 0, 0, 0, 5, 9, 0, 0, 0, 0], 3 / 20, 1, 2, 7, 15, 7,
    true⟩

/-- The empty doubled table the outer rehash builds from mapFill20MidA:
capacity 16, threshold 2, count 1 for the free key. -/
def mapFill20StartA : Map :=
  ⟨List.replicate 32 0, 3 / 20, 2, 1, 15, 31, 7, true⟩

/-- mapFill20StartA with key 5 reinserted in home slot 13, before the resize
check of the reinserting Store: count 2 has reached threshold 2 again. -/
def mapFill20MidB : Map :=
  ⟨[0, 0, 0, 0, 0, 0, 0, 0, 0, 0, 0, 0, 0, 0, 0, 0, 0, 0, 0, 0, 0, 0, 0, 0,
    0, 0, 5, 9, 0, 0, 0, 0], 3 / 20, 2, 2, 15, 31, 7, true⟩

/-- The empty quadrupled table the nested rehash builds from mapFill20MidB:
capacity 32, threshold 4. -/
def mapFill20StartB : Map :=
  ⟨List.replicate 64 0, 3 / 20, 4, 1, 31, 63, 7, true⟩

/-- mapFill20Free after Store(5, 9): two nested resizes later, capacity 32,
key 5 in home slot 29. -/
def mapFill20Final : Map :=
  ⟨[0, 0, 0, 0, 0, 0, 0, 0, 0, 0, 0, 0, 0, 0, 0, 0, 0, 0, 0, 0, 0, 0, 0, 0,
    0, 0, 0, 0, 0, 0, 0, 0, 0, 0, 0, 0, 0, 0, 0, 0, 0, 0, 0, 0, 0, 0, 0, 0,
    0, 0, 0, 0, 0, 0, 0, 0, 0, 0, 5, 9, 0, 0, 0, 0], 3 / 20, 4, 2, 31, 63, 7,
    true⟩

/-- mapNew1 after storing keys 1..5 (each in its home slot) and then the
free key: count 6 equals the threshold, capacity still 8. -/
def mapC3Final : Map :=
  ⟨[0, 0, 1, 1, 2, 2, 3, 3, 4, 4, 5, 5, 0, 0, 0, 0], defaultFillFactor, 6, 6,
    7, 15, 9, true⟩

/-- Evaluation of arraySize once the rational ceil is resolved. -/
theorem arraySize_eval (size x : ℕ) (fill : ℚ)
    (hceil : Nat.ceil ((size : ℚ) / fill) = x) :
    arraySize size fill
      = if x % U32 < 8 then 8
        else (orShift 16 (orShift 8 (orShift 4 (orShift 2
          (orShift 1 (x % U32 - 1))))) + 1) % U32 := by
  simp only [arraySize]
  rw [hceil]

/-- Evaluation of newMap once arraySize and the rational threshold floor are
resolved. -/
theorem newMap_eval (size : ℕ) (fill : ℚ) (x : ℕ) (t : ℤ)
    (h0 : ¬(fill ≤ 0 ∨ 1 ≤ fill)) (hsz : ¬size = 0)
    (hx : arraySize size fill = x) (ht : ⌊((x : ℕ) : ℚ) * fill⌋ = t) :
    newMap size fill
      = some ⟨List.replicate (x * 2) 0, fill, t, 0, x - 1, x * 2 - 1, 0,
          false⟩ := by
  simp only [newMap]
  rw [if_neg h0, if_neg hsz, hx, ht]

/-- Evaluation of rehash once the rational threshold floor is resolved: the
guarded branch hands the reinsertion loop the doubled empty table. -/
theorem rehashStep_eval (fuel : ℕ) (m macc : Map) (t : ℤ)
    (hguard : ¬m.data.length ≥ (2 ^ 31 - 1) / 2)
    (ht : ⌊((m.data.length * 2 / 2 : ℕ) : ℚ) * m.fillFactor⌋ = t)
    (hacc : ({ m with
        data := List.replicate (m.data.length * 2) 0
        mask0 := m.data.length * 2 / 2 - 1
        mask1 := m.data.length * 2 - 1
        threshold := t
        count := if m.hasFreeKey then 1 else 0 } : Map) = macc) :
    rehashStep (storeFuel fuel) m
      = reinsertList (storeFuel fuel) m.data
          ((List.range (m.data.length / 2)).map (2 * ·)) macc := by
  rw [← hacc]
  unfold rehashStep
  rw [if_neg hguard, ht]

/-- One step of the reinsertion loop at an occupied slot, once the inner
Store is resolved. -/
theorem reinsertList_cons_occ (storeFn : Map → ℕ → ℕ → Option Map)
    (old : List ℕ) (i : ℕ) (rest : List ℕ) (m m' : Map)
    (hocc : old.getD i 0 ≠ isFreeKey)
    (hstep : storeFn m (old.getD i 0) (old.getD (i + 1) 0) = some m') :
    reinsertList storeFn old (i :: rest) m
      = reinsertList storeFn old rest m' := by
  simp only [reinsertList, if_pos hocc, hstep]

/-- Clone once the inner New is resolved. -/
theorem Clone_eval (m c : Map) (h : New (m.data.length / 2) = some c) :
    m.Clone = some { c with
      fillFactor := m.fillFactor
      count := m.count
      mask0 := m.mask0
      mask1 := m.mask1
      hasFreeKey := m.hasFreeKey
      freeVal := m.freeVal
      data := goCopy c.data m.data } := by
  unfold Map.Clone
  rw [h]

theorem New_one_eval : New 1 = some mapNew1 := by
  show newMap 1 defaultFillFactor = some mapNew1
  rw [newMap_eval 1 defaultFillFactor 8 6 (by norm_num [defaultFillFactor]) (by norm_num)
    (by rw [arraySize_eval 1 2 defaultFillFactor
      (by rw [Nat.ceil_eq_iff (by norm_num)]; norm_num [defaultFillFactor])]; decide)
    (by norm_num [defaultFillFactor])]
  rfl

theorem New_ten_eval : New 10 = some mapNew10 := by
  show newMap 10 defaultFillFactor = some mapNew10
  rw [newMap_eval 10 defaultFillFactor 16 12 (by norm_num [defaultFillFactor]) (by norm_num)
    (by rw [arraySize_eval 10 13 defaultFillFactor
      (by rw [Nat.ceil_eq_iff (by norm_num)]; norm_num [defaultFillFactor])]; decide)
    (by norm_num [defaultFillFactor])]
  rfl

theorem New_sixteen_eval : New 16 = some mapNew16 := by
  show newMap 16 defaultFillFactor = some mapNew16
  rw [newMap_eval 16 defaultFillFactor 32 25 (by norm_num [defaultFillFactor]) (by norm_num)
    (by rw [arraySize_eval 16 20 defaultFillFactor
      (by rw [Nat.ceil_eq_iff (by norm_num)]; norm_num [defaultFillFactor])]; decide)
    (by norm_num [defaultFillFactor])]
  rfl

theorem NewFill8_eval : NewWithFill 1 (1 / 8) = some mapFill8 := by
  show newMap 1 (1 / 8) = some mapFill8
  rw [newMap_eval 1 (1 / 8) 8 1 (by norm_num) (by norm_num)
    (by rw [arraySize_eval 1 8 (1 / 8)
      (by rw [Nat.ceil_eq_iff (by norm_num)]; norm_num)]; decide)
    (by norm_num)]
  rfl

theorem NewFill20_eval : NewWithFill 1 (3 / 20) = some mapFill20 := by
  show newMap 1 (3 / 20) = some mapFill20
  rw [newMap_eval 1 (3 / 20) 8 1 (by norm_num) (by norm_num)
    (by rw [arraySize_eval 1 7 (3 / 20)
      (by rw [Nat.ceil_eq_iff (by norm_num)]; norm_num)]; decide)
    (by norm_num)]
  rfl

theorem clone10_eval : mapNew10.Clone = some mapClone10 := by
  have h16 : New (mapNew10.data.length / 2) = some mapNew16 := New_sixteen_eval
  rw [Clone_eval mapNew10 mapNew16 h16]
  rfl

/-- One unfolding of Store when the probe loop placed the pair and the
incremented count reaches the threshold: the call continues into rehash. -/
theorem storeFuel_place_resize (fuel : ℕ) (m : Map) (key val : ℕ) (A : List ℕ)
    (hk : ¬(key = isFreeKey))
    (hloop : storeLoop m.mask0 m.mask1 (m.data.length + 1) m.data key val
      (bucketOf key m.mask0) 0 = some (StoreRes.placed A))
    (hthr : m.threshold ≤ m.count + 1) :
    storeFuel (fuel + 1) m key val
      = rehashStep (storeFuel fuel) { m with data := A, count := m.count + 1 } := by
  simp only [storeFuel, if_neg hk, hloop]
  rw [if_pos hthr]

/-- Store(1, 7) on mapFill8 crosses the threshold: one rehash, evaluated by
resolving the doubled table's rational threshold. -/
theorem storeFill8_eval : mapFill8.Store 1 7 = some mapFill8Stored := by
  show storeFuel (33 + 1) mapFill8 1 7 = some mapFill8Stored
  rw [storeFuel_place_resize 33 mapFill8 1 7 mapFill8Mid.data (by decide)
    (by decide) (by decide)]
  rw [show ({ mapFill8 with data := mapFill8Mid.data, count := mapFill8.count + 1 } : Map) = mapFill8Mid from rfl]
  rw [rehashStep_eval 33 mapFill8Mid mapFill8Start 2 (by decide)
    (by rw [show mapFill8Mid.data.length * 2 / 2 = 16 from by decide,
      show mapFill8Mid.fillFactor = 1 / 8 from rfl]; norm_num) rfl]
  rfl

/-- Store(5, 9) on mapFill20Free triggers a rehash whose reinsertion itself
crosses the new threshold: two nested resizes, evaluated stage by stage. -/
theorem storeFill20_eval : mapFill20Free.Store 5 9 = some mapFill20Final := by
  have hinner : storeFuel 33 mapFill20StartA 5 9 = some mapFill20Final := by
    show storeFuel (32 + 1) mapFill20StartA 5 9 = some mapFill20Final
    rw [storeFuel_place_resize 32 mapFill20StartA 5 9 mapFill20MidB.data
      (by decide) (by decide) (by decide)]
    rw [show ({ mapFill20StartA with data := mapFill20MidB.data, count := mapFill20StartA.count + 1 } : Map) = mapFill20MidB from rfl]
    rw [rehashStep_eval 32 mapFill20MidB mapFill20StartB 4 (by decide)
      (by rw [show mapFill20MidB.data.length * 2 / 2 = 32 from by decide,
        show mapFill20MidB.fillFactor = 3 / 20 from rfl]; norm_num) rfl]
    rfl
  show storeFuel (33 + 1) mapFill20Free 5 9 = some mapFill20Final
  rw [storeFuel_place_resize 33 mapFill20Free 5 9 mapFill20MidA.data
    (by decide) (by decide) (by decide)]
  rw [show ({ mapFill20Free with data := mapFill20MidA.data, count := mapFill20Free.count + 1 } : Map) = mapFill20MidA from rfl]
  rw [rehashStep_eval 33 mapFill20MidA mapFill20StartA 2 (by decide)
    (by rw [show mapFill20MidA.data.length * 2 / 2 = 16 from by decide,
      show mapFill20MidA.fillFactor = 3 / 20 from rfl]; norm_num) rfl]
  show reinsertList (storeFuel 33) mapFill20MidA.data (10 :: [12, 14])
    mapFill20StartA = some mapFill20Final
  rw [reinsertList_cons_occ (storeFuel 33) mapFill20MidA.data 10 [12, 14]
    mapFill20StartA mapFill20Final (by decide) hinner]
  rfl

/-! ### The claims -/

/-- C1: for every reachable table state and every key (the free key 0
included) and value, a Store that returns makes the pair immediately
observable: Load of the key yields the stored value with a positive flag. -/
theorem C1_store_load_roundtrip {m m' : Map} (hR : Reachable m) {key val : ℕ}
    (hk : key < 2 ^ 32) (hv : val < 2 ^ 32)
    (hrun : m.Store key val = some m') : m'.Load key = some (val, true) :=
  (Store_ok (reachable_wf hR) hk hv hrun).2

theorem C1_witness :
    New 1 = some mapNew1 ∧ mapNew1.Store 3 5 = some mapNew1Stored ∧
      mapNew1Stored.Load 3 = some (5, true) := by
  refine ⟨New_one_eval, rfl, ?_⟩
  exact C1_store_load_roundtrip (Reachable.new (by norm_num [defaultFillFactor])
    New_one_eval) (by norm_num) (by norm_num) rfl

/-- C2: refuted — Clone does not return a table of identical capacity with
the threshold copied.  Cloning the fresh table New(10) (capacity 16,
threshold 12) yields a clone of capacity 32 and threshold 25: Clone
allocates through New(len(data)/2), which re-applies the fill factor and
next-power-of-two inflation to the already-inflated array length, and the
recomputed threshold is not overwritten by the copied scalar state. -/
theorem C2_clone_diverges :
    New 10 = some mapNew10 ∧ mapNew10.Clone = some mapClone10 ∧
      mapNew10.Capacity = 16 ∧ mapClone10.Capacity = 32 ∧
      mapNew10.threshold = 12 ∧ mapClone10.threshold = 25 :=
  ⟨New_ten_eval, clone10_eval, rfl, rfl, rfl, rfl⟩

/-- C3: counterexample to the original claim.  Starting from New(1)
(capacity 8, threshold 6) and storing five distinct nonzero keys, a first
Store of the free key 0 brings count up to the threshold, yet the capacity
stays 8: the free-key path never checks the threshold. -/
theorem C3_counterexample :
    New 1 = some mapNew1 ∧ mapNew1.Capacity = 8 ∧
      ((((((mapNew1.Store 1 1).bind (fun t => t.Store 2 2)).bind
        (fun t => t.Store 3 3)).bind (fun t => t.Store 4 4)).bind
        (fun t => t.Store 5 5)).bind (fun t => t.Store 0 9))
        = some mapC3Final ∧
      mapC3Final.Count = mapC3Final.threshold ∧ mapC3Final.Capacity = 8 :=
  ⟨New_one_eval, rfl, rfl, rfl, rfl⟩

/-- C3 (amended): a Store of a nonzero absent key that makes count reach the
threshold at least doubles the capacity before returning; a Store of the
free key 0 never resizes — it leaves the array untouched even when it makes
count reach the threshold. -/
theorem C3_amended {m : Map} (hR : Reachable m) :
    (∀ key val m', key ≠ 0 → key < 2 ^ 32 → val < 2 ^ 32 →
      (∀ v, (key, v) ∉ livePairsL m.data) → m.threshold ≤ m.count + 1 →
      m.Store key val = some m' → 2 * m.Capacity ≤ m'.Capacity) ∧
    (∀ val m', m.Store 0 val = some m' → m'.data = m.data) := by
  obtain ⟨c, b, hWFc⟩ := reachable_wf hR
  constructor
  · intro key val m' hk0 hk hv habs hthr hrun
    obtain ⟨-, -, -, habsC, -⟩ := storeFuel_spec 34 hWFc hk0 hk hv hrun
    obtain ⟨-, -, -, hres⟩ := habsC habs
    obtain ⟨hlen2, c', hWF', -⟩ := hres hthr
    have he1 : m.data.length = 2 ^ (c + b) * 2 := by
      rw [hWFc.hlen, ← pow_succ]
      congr 1
      omega
    have he2 : m'.data.length = 2 ^ c' * 2 := by
      rw [hWF'.hlen, ← pow_succ]
    show 2 * (m.data.length / 2) ≤ m'.data.length / 2
    rw [he1, he2] at hlen2 ⊢
    rw [Nat.mul_div_cancel _ (by norm_num), Nat.mul_div_cancel _ (by norm_num)]
    omega
  · intro val m' hrun
    rw [Store_free] at hrun
    cases hrun
    rfl

theorem C3_amended_witness :
    NewWithFill 1 (1 / 8) = some mapFill8 ∧
    mapFill8.Store 1 7 = some mapFill8Stored ∧
    2 * mapFill8.Capacity ≤ mapFill8Stored.Capacity ∧
    ∃ m'', mapFill8.Store 0 9 = some m'' ∧ m''.data = mapFill8.data := by
  refine ⟨NewFill8_eval, storeFill8_eval, ?_, ?_⟩
  · exact (C3_amended (Reachable.new (by norm_num) NewFill8_eval)).1 1 7
      mapFill8Stored (by norm_num) (by norm_num) (by norm_num)
      (fun v hv => List.not_mem_nil (1, v) hv) (by decide) storeFill8_eval
  · exact ⟨_, rfl, (C3_amended (Reachable.new (by norm_num) NewFill8_eval)).2
      9 _ rfl⟩

/-- C5: counterexample to the no-nested-resize part of the original claim.
At fill factor 3/20, a single Store takes the capacity from 8 to 32: the
reinsertion performed by the first rehash itself crosses the new threshold
and triggers a nested rehash. -/
theorem C5_counterexample :
    NewWithFill 1 (3 / 20) = some mapFill20 ∧ mapFill20.Capacity = 8 ∧
      mapFill20.Store 0 7 = some mapFill20Free ∧ mapFill20Free.Capacity = 8 ∧
      mapFill20Free.Store 5 9 = some mapFill20Final ∧
      mapFill20Final.Capacity = 32 :=
  ⟨NewFill20_eval, rfl, rfl, rfl, storeFill20_eval, rfl⟩

/-- C5 (amended): resize transparency holds — a Store of a nonzero absent
key that crosses the threshold preserves the Load result of every other key
and the out-of-band free-key record, and makes the new pair loadable — but
the capacity multiplies by at least two rather than exactly two: nested
resizes can occur during reinsertion. -/
theorem C5_amended {m : Map} (hR : Reachable m) :
    ∀ key val m', key ≠ 0 → key < 2 ^ 32 → val < 2 ^ 32 →
      (∀ v, (key, v) ∉ livePairsL m.data) → m.threshold ≤ m.count + 1 →
      m.Store key val = some m' →
      (∀ k', k' ≠ key → m'.Load k' = m.Load k') ∧
      m'.Load key = some (val, true) ∧
      m'.hasFreeKey = m.hasFreeKey ∧ m'.freeVal = m.freeVal ∧
      2 * m.Capacity ≤ m'.Capacity := by
  obtain ⟨c, b, hWFc⟩ := reachable_wf hR
  intro key val m' hk0 hk hv habs hthr hrun
  obtain ⟨hfill, hfree, hfval, habsC, -⟩ := storeFuel_spec 34 hWFc hk0 hk hv hrun
  obtain ⟨hp1, hcnt, -, hres⟩ := habsC habs
  obtain ⟨hlen2, c', hWF', -⟩ := hres hthr
  refine ⟨?_, Load_found hWF' hk0 (hp1.mem_iff.mpr (List.mem_cons_self _ _)),
    hfree, hfval, ?_⟩
  · intro k' hk'
    by_cases hk'0 : k' = 0
    · subst hk'0
      rw [Load_zero, Load_zero, hfree, hfval]
    · apply Load_congr hWF' hWFc hk'0
      intro v
      rw [hp1.mem_iff]
      constructor
      · intro h
        rcases List.mem_cons.mp h with h | h
        · exact absurd (congrArg Prod.fst h) hk'
        · exact h
      · exact List.mem_cons_of_mem _
  · have he1 : m.data.length = 2 ^ (c + b) * 2 := by
      rw [hWFc.hlen, ← pow_succ]
      congr 1
      omega
    have he2 : m'.data.length = 2 ^ c' * 2 := by
      rw [hWF'.hlen, ← pow_succ]
    show 2 * (m.data.length / 2) ≤ m'.data.length / 2
    rw [he1, he2] at hlen2 ⊢
    rw [Nat.mul_div_cancel _ (by norm_num), Nat.mul_div_cancel _ (by norm_num)]
    omega

theorem C5_amended_witness :
    NewWithFill 1 (1 / 8) = some mapFill8 ∧
    mapFill8.Store 1 7 = some mapFill8Stored ∧
    (∀ k', k' ≠ 1 → mapFill8Stored.Load k' = mapFill8.Load k') ∧
    mapFill8Stored.Load 1 = some (7, true) ∧
    mapFill8Stored.hasFreeKey = mapFill8.hasFreeKey ∧
    mapFill8Stored.freeVal = mapFill8.freeVal ∧
    2 * mapFill8.Capacity ≤ mapFill8Stored.Capacity := by
  refine ⟨NewFill8_eval, storeFill8_eval, ?_⟩
  exact C5_amended (Reachable.new (by norm_num) NewFill8_eval) 1 7
    mapFill8Stored (by norm_num) (by norm_num) (by norm_num)
    (fun v hv => List.not_mem_nil (1, v) hv) (by decide) storeFill8_eval

/-- C4: in every reachable state, immediately after any Store returns — any
key, the free key 0 included — count does not exceed the threshold: the
resize is performed synchronously inside Store. -/
theorem C4_count_le_threshold {m m' : Map} (hR : Reachable m) {key val : ℕ}
    (hk : key < 2 ^ 32) (hv : val < 2 ^ 32)
    (hrun : m.Store key val = some m') : m'.Count ≤ m'.threshold := by
  obtain ⟨c, b, hWFc⟩ := (Store_ok (reachable_wf hR) hk hv hrun).1
  exact hWFc.hcnt_le

theorem C4_witness :
    New 1 = some mapNew1 ∧ mapNew1.Store 3 5 = some mapNew1Stored ∧
      mapNew1Stored.Count ≤ mapNew1Stored.threshold := by
  refine ⟨New_one_eval, rfl, ?_⟩
  exact @C4_count_le_threshold mapNew1 mapNew1Stored
    (Reachable.new (by norm_num [defaultFillFactor]) New_one_eval) 3 5
    (by norm_num) (by norm_num) rfl

/-- C6: Delete on a reachable state always succeeds; afterwards Load of the
deleted key reports absence; Count drops by exactly one when the key was
present; deleting an absent key returns the state unchanged; and every other
key loads exactly as before, backward-shift moves included. -/
theorem C6_delete {m : Map} (hR : Reachable m) {key : ℕ} (hk : key < 2 ^ 32) :
    ∃ m', m.Delete key = some m' ∧
      m'.Load key = some (0, false) ∧
      ((∃ v, m.Load key = some (v, true)) → m'.Count = m.Count - 1) ∧
      (m.Load key = some (0, false) → m' = m) ∧
      (∀ k', k' ≠ key → m'.Load k' = m.Load k') := by
  obtain ⟨m', h1, -, h3, h4, h5, h6⟩ := Delete_ok (reachable_wf hR) hk
  exact ⟨m', h1, h3, h4, h5, h6⟩

theorem C6_witness :
    New 1 = some mapNew1 ∧ mapNew1.Store 3 5 = some mapNew1Stored ∧
      ∃ m', mapNew1Stored.Delete 3 = some m' ∧
        m'.Load 3 = some (0, false) ∧
        ((∃ v, mapNew1Stored.Load 3 = some (v, true)) →
          m'.Count = mapNew1Stored.Count - 1) ∧
        (mapNew1Stored.Load 3 = some (0, false) → m' = mapNew1Stored) ∧
        (∀ k', k' ≠ 3 → m'.Load k' = mapNew1Stored.Load k') := by
  refine ⟨New_one_eval, rfl, ?_⟩
  exact C6_delete (@Reachable.store mapNew1 mapNew1Stored 3 5 (Reachable.new
    (by norm_num [defaultFillFactor]) New_one_eval) (by norm_num)
    (by norm_num) rfl) (by norm_num)

/-- C7: a successful construction yields as capacity the least power of two
that is at least ceil(size/fillFactor) and at least the design minimum 8;
in particular New(10) at the default fill factor 0.80 has capacity 16. -/
theorem C7_capacity :
    (∀ (size : ℕ) (fill : ℚ) (m : Map),
      Nat.ceil ((size : ℚ) / fill) ≤ 2 ^ 31 → newMap size fill = some m →
      IsLeast {n : ℕ | 8 ≤ n ∧ Nat.ceil ((size : ℚ) / fill) ≤ n ∧
        ∃ k, n = 2 ^ k} m.Capacity) ∧
    (∃ m, New 10 = some m ∧ m.Capacity = 16) := by
  constructor
  · intro size fill m hceil hrun
    obtain ⟨c, hc3, hc31, hval, hdom, hmin⟩ := arraySize_pow hceil
    have hcap : m.Capacity = arraySize size fill := by
      unfold newMap at hrun
      by_cases hfbad : fill ≤ 0 ∨ 1 ≤ fill
      · rw [if_pos hfbad] at hrun
        cases hrun
      · rw [if_neg hfbad] at hrun
        by_cases hsz : size = 0
        · rw [if_pos hsz] at hrun
          cases hrun
        · rw [if_neg hsz] at hrun
          cases hrun
          show (List.replicate (arraySize size fill * 2) 0).length / 2 = _
          rw [List.length_replicate]
          omega
    rw [hcap, hval]
    constructor
    · exact ⟨le_trans (by norm_num) (Nat.pow_le_pow_right (by norm_num) hc3),
        hdom, c, rfl⟩
    · rintro n ⟨h8, hdomn, k, rfl⟩
      exact hmin k h8 hdomn
  · exact ⟨mapNew10, New_ten_eval, rfl⟩

theorem C7_witness :
    newMap 10 defaultFillFactor = some mapNew10 ∧ mapNew10.Capacity = 16 ∧
      IsLeast {n : ℕ | 8 ≤ n ∧
        Nat.ceil (((10 : ℕ) : ℚ) / defaultFillFactor) ≤ n ∧ ∃ k, n = 2 ^ k}
        mapNew10.Capacity := by
  refine ⟨New_ten_eval, rfl, ?_⟩
  exact C7_capacity.1 10 defaultFillFactor mapNew10
    (by norm_num [defaultFillFactor]) New_ten_eval

/-- C8: on every reachable table the three iteration forms, run with a
callback that never stops or errs, visit exactly Count pairs, each key at
most once, exactly the pairs Load reports present, in the order free-key
record first (when present) then the array slots in storage order. -/
theorem C8_iteration {m : Map} (hR : Reachable m) :
    (m.RangeEach.length : ℤ) = m.Count ∧
    (m.RangeEach.map Prod.fst).Nodup ∧
    (∀ k v, (k, v) ∈ m.RangeEach ↔ m.Load k = some (v, true)) ∧
    m.RangeEach = (if m.hasFreeKey then (0, m.freeVal) :: livePairsL m.data
      else livePairsL m.data) ∧
    (∀ fn : ℕ → ℕ → Bool, (∀ k v, fn k v = true) → m.Range fn = m.RangeEach) ∧
    (∀ (ε : Type) (fn : ℕ → ℕ → Option ε), (∀ k v, fn k v = none) →
      m.RangeErr fn = (m.RangeEach, none)) := by
  obtain ⟨c, b, hWFc⟩ := reachable_wf hR
  exact ⟨RangeEach_length hWFc, RangeEach_nodup hWFc,
    fun k v => RangeEach_mem hWFc, RangeEach_eq m,
    fun fn hfn => Range_of_true hfn, fun ε fn hfn => RangeErr_of_none hfn⟩

theorem C8_witness :
    New 1 = some mapNew1 ∧ mapNew1.Store 3 5 = some mapNew1Stored ∧
      ((mapNew1Stored.RangeEach.length : ℤ) = mapNew1Stored.Count ∧
       (mapNew1Stored.RangeEach.map Prod.fst).Nodup ∧
       (∀ k v, (k, v) ∈ mapNew1Stored.RangeEach ↔
         mapNew1Stored.Load k = some (v, true)) ∧
       mapNew1Stored.RangeEach = (if mapNew1Stored.hasFreeKey then
         (0, mapNew1Stored.freeVal) :: livePairsL mapNew1Stored.data
         else livePairsL mapNew1Stored.data) ∧
       (∀ fn : ℕ → ℕ → Bool, (∀ k v, fn k v = true) →
         mapNew1Stored.Range fn = mapNew1Stored.RangeEach) ∧
       (∀ (ε : Type) (fn : ℕ → ℕ → Option ε), (∀ k v, fn k v = none) →
         mapNew1Stored.RangeErr fn = (mapNew1Stored.RangeEach, none))) := by
  refine ⟨New_one_eval, rfl, ?_⟩
  exact C8_iteration (@Reachable.store mapNew1 mapNew1Stored 3 5 (Reachable.new
    (by norm_num [defaultFillFactor]) New_one_eval) (by norm_num)
    (by norm_num) rfl)

/-- C9: sequential LoadOrStore returns an already-present value with a true
flag without invoking the compute function; on an absent key it invokes the
compute function exactly once, stores its result, and returns it with a
false flag, the stored pair being loadable afterwards. -/
theorem C9_load_or_store {m : Map} (hR : Reachable m) {key fnVal : ℕ}
    (hk : key < 2 ^ 32) (hv : fnVal < 2 ^ 32) :
    (∀ v, m.Load key = some (v, true) →
      m.LoadOrStore key fnVal = some (m, v, true, 0)) ∧
    (∀ v₀, m.Load key = some (v₀, false) →
      ∀ m' v ok n, m.LoadOrStore key fnVal = some (m', v, ok, n) →
        v = fnVal ∧ ok = false ∧ n = 1 ∧ m'.Load key = some (fnVal, true) ∧
        m.Store key fnVal = some m') := by
  constructor
  · intro v h
    unfold Map.LoadOrStore
    rw [h]
  · intro v₀ h m' v ok n hrun
    unfold Map.LoadOrStore at hrun
    rw [h] at hrun
    rcases hstore : m.Store key fnVal with _ | m₂
    · rw [hstore] at hrun
      cases hrun
    · rw [hstore] at hrun
      simp only [Option.some.injEq, Prod.mk.injEq] at hrun
      obtain ⟨hm, hv2, hok, hn⟩ := hrun
      subst hm
      refine ⟨hv2.symm, hok.symm, hn.symm, ?_, rfl⟩
      exact (Store_ok (reachable_wf hR) hk hv hstore).2

theorem C9_witness :
    New 1 = some mapNew1 ∧
      mapNew1.LoadOrStore 3 5 = some (mapNew1Stored, 5, false, 1) ∧
      mapNew1Stored.Load 3 = some (5, true) := by
  refine ⟨New_one_eval, rfl, ?_⟩
  exact ((@C9_load_or_store mapNew1 (Reachable.new
    (by norm_num [defaultFillFactor]) New_one_eval) 3 5 (by norm_num)
    (by norm_num)).2 0 rfl mapNew1Stored 5 false 1 rfl).2.2.2.1

/-- C10: the three read-only operations never modify the table: the threaded
Load returns the receiver unchanged alongside the plain Load result, and the
threaded Count and Capacity return the receiver unchanged alongside their
values. -/
theorem C10_read_only (m : Map) (key : ℕ) :
    (∀ m' v ok, m.LoadThreaded key = some (m', v, ok) →
      m' = m ∧ m.Load key = some (v, ok)) ∧
    m.CountThreaded = (m, m.Count) ∧ m.CapacityThreaded = (m, m.Capacity) := by
  refine ⟨?_, rfl, rfl⟩
  intro m' v ok h
  rw [LoadThreaded_eq] at h
  rcases hL : m.Load key with _ | ⟨v₂, ok₂⟩
  · rw [hL] at h
    cases h
  · rw [hL] at h
    simp only [Option.map_some', Option.some.injEq, Prod.mk.injEq] at h
    obtain ⟨h1, h2, h3⟩ := h
    refine ⟨h1.symm, ?_⟩
    rw [h2, h3]

theorem C10_witness :
    New 1 = some mapNew1 ∧ mapNew1.Store 3 5 = some mapNew1Stored ∧
      mapNew1Stored.LoadThreaded 3 = some (mapNew1Stored, 5, true) ∧
      mapNew1Stored.Load 3 = some (5, true) ∧
      mapNew1Stored.CountThreaded = (mapNew1Stored, mapNew1Stored.Count) ∧
      mapNew1Stored.CapacityThreaded
        = (mapNew1Stored, mapNew1Stored.Capacity) := by
  refine ⟨New_one_eval, rfl, rfl, ?_, (C10_read_only mapNew1Stored 3).2.1,
    (C10_read_only mapNew1Stored 3).2.2⟩
  exact ((C10_read_only mapNew1Stored 3).1 mapNew1Stored 5 true rfl).2

end Intmap
